import Mathlib

/-! # GLV event routing, focus handling, draw traversal and the instance registry

A shallow embedding of `src/src/glv_glv.cpp`:
`GLV::doEventCallbacks`, `GLV::doFocusCallback`, `GLV::propagateEvent`,
`GLV::broadcastEvent`, `GLV::setFocus`, `GLV::setMouseDown`, `GLV::setMouseMotion`,
`GLV::setMouseUp`, `computeCrop`, `drawContext`, `GLV::drawWidgets`, the constructor and
destructor of `GLV` as far as they touch the instance registry, and `GLV::valid`.

Pointers to views are addresses (`ViewId`); a nullable pointer is an
`Option ViewId` with `none` for the null pointer. The views live in a heap
`GLV.views` that is part of the mutable state, next to the members of the root
controller. The virtual hook `onEvent` and the registered callbacks receive a
mutable reference to the controller in the source, so here they are arbitrary
state transformers that also return the bubble flag.
-/

namespace glv

/-! ## Data model -/

/-- Address of a `View` object. -/
abbrev ViewId := Nat

/-- Address of a `GLV` object, as stored in the instance registry. -/
abbrev GLVPtr := Nat

/-- The coordinate type `space_t` of the source, and the `float` positions `cx`, `cy` of
`drawWidgets`, taken over exact integers: rounding is not modelled, and the statements about
coordinates cover whole-number coordinates only. -/
abbrev space_t := Int

/-- Modelled from the spec: the enumeration `Event::t` of `glv_core.h`, a header that is not
part of the sources at hand. It lists the kinds the spec names (none, focus gained and lost,
key down and up, the five mouse kinds) and leaves room for custom kinds. -/
inductive Event where
  | Null
  | FocusGained
  | FocusLost
  | KeyDown
  | KeyUp
  | MouseDown
  | MouseDrag
  | MouseMove
  | MouseUp
  | MouseWheel
  | Custom (n : Nat)
  deriving DecidableEq, Repr

/-- Modelled from the spec: the capability bits of a view (`glv_core.h` is not part of the
sources at hand). The names are the ones `glv_glv.cpp` uses; `Focused` is the bit written by
`View::focused(bool)`. -/
inductive Property where
  | Visible
  | DrawBorder
  | CropChildren
  | CropSelf
  | Focused
  | FocusHighlight
  | Controllable
  | AlwaysBubble
  deriving DecidableEq, Repr

/-- The part of a `View` object that the event and drawing core reads or writes: the
intrusive links, the flag bits and the geometry relative to the parent. -/
structure View where
  parent : Option ViewId := none
  child : Option ViewId := none
  sibling : Option ViewId := none
  mFlags : Property → Bool := fun _ => false
  l : space_t := 0
  t : space_t := 0
  w : space_t := 0
  h : space_t := 0

/-- The flag test `View::enabled(prop)`. -/
def View.enabled (v : View) (p : Property) : Bool := v.mFlags p

/-- Modelled from the spec: `View::focused(bool)` of `glv_core.h`, which sets the focused flag
of the view to its argument and leaves the other flags and the links alone. -/
def View.focused (v : View) (b : Bool) : View :=
  { v with mFlags := fun p => if p = Property.Focused then b else v.mFlags p }

/-- Modelled from the spec: the member `mouse` of class `Mouse` (`glv_core.h`), reduced to the
state the two calls of `setMouseDown` write: the relative position and, per button, whether it
is down and its click count. -/
structure Mouse where
  xRel : space_t := 0
  yRel : space_t := 0
  isDown : Int → Bool := fun _ => false
  clicks : Int → Int := fun _ => 0

/-- Modelled from the spec: `Mouse::posRel(x, y)` records the relative position. -/
def Mouse.posRel (m : Mouse) (x y : space_t) : Mouse := { m with xRel := x, yRel := y }

/-- Modelled from the spec: `Mouse::updateButton(button, down, clicks)` records the state and
the click count of one button. -/
def Mouse.updateButton (m : Mouse) (button : Int) (down : Bool) (clicks : Int) : Mouse :=
  { m with
    isDown := fun b => if b = button then down else m.isDown b
    clicks := fun b => if b = button then clicks else m.clicks b }

/-- The mutable state a `GLV` method works on: the heap of views, the focused view
(`mFocusedView`, nullable), the current event kind (read and written through `eventType`)
and the mouse member. -/
structure GLV where
  views : ViewId → View
  mFocusedView : Option ViewId
  mEventType : Event
  mouse : Mouse := {}

/-- The setter `GLV::eventType(e)`. -/
def GLV.eventType (g : GLV) (e : Event) : GLV := { g with mEventType := e }

/-- Write one view of the heap. -/
def GLV.setView (g : GLV) (v : ViewId) (x : View) : GLV :=
  { g with views := fun u => if u = v then x else g.views u }

/-- A hook or callback body: it runs on the controller state, may change it, and returns
whether the event may go on bubbling. -/
abbrev Handler := GLV → Bool × GLV

/-- A registered callback, `bool (*)(View *, GLV&)`. -/
abbrev eventCallback := ViewId → Handler

/-- The code attached to the views: the virtual `onEvent` of every view and the member
`callbackLists` of every view, a map from event kind to the list of registered callbacks in
registration order (`none` when the map has no entry for the kind; a list entry `none` is a
null function pointer). The lists are fixed while a dispatch runs. -/
structure Widgets where
  onEvent : ViewId → Event → Handler
  callbackLists : ViewId → Event → Option (List (Option eventCallback))

/-- Modelled from the spec: `View::hasCallbacks(e)` of `glv_core.h`: whether the map holds a
list for the kind. -/
def Widgets.hasCallbacks (W : Widgets) (v : ViewId) (e : Event) : Bool :=
  (W.callbackLists v e).isSome

/-- Modelled from the spec: `View::numCallbacks(e)` of `glv_core.h`: the number of entries
registered for the kind, zero when there is none. -/
def Widgets.numCallbacks (W : Widgets) (v : ViewId) (e : Event) : Nat :=
  match W.callbackLists v e with
  | none => 0
  | some cbl => cbl.length

/-- The positions of the non-null entries of a callback list whose first entry has
position `i`, in list order. -/
def nonNullFrom : Nat → List (Option eventCallback) → List Nat
  | _, [] => []
  | i, none :: rest => nonNullFrom (i + 1) rest
  | i, some _ :: rest => i :: nonNullFrom (i + 1) rest

/-- The callbacks registered on `v` for `e`, in registration order, each named by its
position in the list; null entries are no callbacks. -/
def Widgets.registered (W : Widgets) (v : ViewId) (e : Event) : List Nat :=
  match W.callbackLists v e with
  | none => []
  | some cbl => nonNullFrom 0 cbl

/-! ## Instrumentation -/

/-- One invocation made by `doEventCallbacks`, with the boolean it returned: the virtual hook,
or the callback at position `i` of the list. -/
inductive Call where
  | onEvent (v : ViewId) (e : Event) (r : Bool)
  | callback (v : ViewId) (e : Event) (i : Nat) (r : Bool)
  deriving DecidableEq, Repr

/-- The boolean a logged invocation returned. -/
def Call.result : Call → Bool
  | .onEvent _ _ r => r
  | .callback _ _ _ r => r

/-- The list position of a logged callback invocation (zero for the virtual hook). -/
def Call.index : Call → Nat
  | .onEvent _ _ _ => 0
  | .callback _ _ i _ => i

/-- One call of `doEventCallbacks` as seen by its caller: the view and kind dispatched, the
focused view at the moment of the call, the invocations made and the value returned. -/
structure Dispatch where
  view : ViewId
  event : Event
  focusAtEntry : Option ViewId
  calls : List Call
  result : Bool
  deriving DecidableEq, Repr

/-! ## The bubble dispatcher -/

/-- The `for` loop of `doEventCallbacks` over the callback list, from position `i` on.
`bubble` is true on entry; a null entry is skipped; the result of every callback is ANDed
in, and the first `false` leaves the loop. -/
def runCallbacks (v : ViewId) (e : Event) :
    List (Option eventCallback) → Nat → GLV → Bool × GLV × List Call
  | [], _, g => (true, g, [])
  | none :: rest, i, g => runCallbacks v e rest (i + 1) g
  | some cb :: rest, i, g =>
    let out := cb v g
    if out.1 then
      let tl := runCallbacks v e rest (i + 1) out.2
      (tl.1, tl.2.1, Call.callback v e i true :: tl.2.2)
    else
      (false, out.2, [Call.callback v e i false])

/-- The method `GLV::doEventCallbacks(v, e)`: the value returned, the state left, and the
invocations made. -/
def GLV.doEventCallbacks (W : Widgets) (v : ViewId) (e : Event) (g : GLV) :
    Bool × GLV × List Call :=
  if !(g.views v).enabled Property.Controllable then (false, g, [])
  else
    let hook := W.onEvent v e g
    let body : Bool × GLV × List Call :=
      if hook.1 then
        if W.hasCallbacks v e then
          match W.callbackLists v e with
          | some cbl => runCallbacks v e cbl 0 hook.2
          | none => (true, hook.2, [])
        else (true, hook.2, [])
      else (false, hook.2, [])
    (body.1 || (body.2.1.views v).enabled Property.AlwaysBubble, body.2.1,
      Call.onEvent v e hook.1 :: body.2.2)

/-- A call of `doEventCallbacks` together with its record for the dispatch log. -/
def GLV.dispatch (W : Widgets) (v : ViewId) (e : Event) (g : GLV) : Bool × GLV × Dispatch :=
  let out := g.doEventCallbacks W v e
  (out.1, out.2.1,
    { view := v, event := e, focusAtEntry := g.mFocusedView, calls := out.2.2, result := out.1 })

/-- The method `GLV::doFocusCallback(get)`. -/
def GLV.doFocusCallback (W : Widgets) (get : Bool) (g : GLV) : GLV × List Dispatch :=
  let e := if get then Event.FocusGained else Event.FocusLost
  match g.mFocusedView with
  | none => (g, [])
  | some f =>
    let g1 := g.setView f ((g.views f).focused get)
    if W.numCallbacks f e ≠ 0 then
      let out := (g1.eventType e).dispatch W f e
      (out.2.1, [out.2.2])
    else (g1, [])

/-- The loop `while(v && doEventCallbacks(*v, e)) v = v->parent;` of `propagateEvent`, with a
bound on the number of iterations: the final `v`, the state left and the dispatch log, or
`none` when the bound is used up. -/
def propagateLoop (W : Widgets) (e : Event) :
    Nat → Option ViewId → GLV → Option (Option ViewId × GLV × List Dispatch)
  | _, none, g => some (none, g, [])
  | 0, some _, _ => none
  | fuel + 1, some v, g =>
    let out := g.dispatch W v e
    if out.1 then
      match propagateLoop W e fuel (out.2.1.views v).parent out.2.1 with
      | some (w, g2, log) => some (w, g2, out.2.2 :: log)
      | none => none
    else some (some v, out.2.1, [out.2.2])

/-- The method `GLV::propagateEvent()`: `v != 0`, the state left and the dispatch log. -/
def GLV.propagateEvent (W : Widgets) (fuel : Nat) (g : GLV) :
    Option (Bool × GLV × List Dispatch) :=
  match propagateLoop W g.mEventType fuel g.mFocusedView g with
  | some (w, g2, log) => some (w.isSome, g2, log)
  | none => none

/-- The method `GLV::setFocus(v)`. -/
def GLV.setFocus (W : Widgets) (v : Option ViewId) (g : GLV) : GLV × List Dispatch :=
  let currentEvent := g.mEventType
  let lost := g.doFocusCallback W false
  let g2 : GLV := { lost.1 with mFocusedView := v }
  let gained := g2.doFocusCallback W true
  (gained.1.eventType currentEvent, lost.2 ++ gained.2)

/-- The method `GLV::setMouseDown(x, y, button, clicks)`. `View::findTarget` is not part of the
sources at hand; it is a parameter that yields the target and the coordinates it leaves in its
two reference arguments. -/
def GLV.setMouseDown (W : Widgets)
    (findTarget : GLV → space_t → space_t → Option ViewId × space_t × space_t)
    (x y : space_t) (button clicks : Int) (g : GLV) : GLV × List Dispatch :=
  let g1 := g.eventType Event.MouseDown
  let hit := findTarget g1 x y
  let out := g1.setFocus W hit.1
  let g3 : GLV := { out.1 with mouse := out.1.mouse.posRel hit.2.1 hit.2.2 }
  ({ g3 with mouse := g3.mouse.updateButton button true clicks }, out.2)

/-! ## Parent chains and frame conditions on handlers -/

/-- The parent link of every view in a state, `v->parent`. -/
def GLV.parentOf (g : GLV) (v : ViewId) : Option ViewId := (g.views v).parent

/-- Whether `chain` lists `start`, its parent, the parent of that, and so on up to a view
whose parent is null. Such a list exists exactly when the parent links from `start` do not
run into a cycle. -/
def isChain (parent : ViewId → Option ViewId) : Option ViewId → List ViewId → Bool
  | none, [] => true
  | some v, c :: cs => decide (c = v) && isChain parent (parent v) cs
  | _, _ => false

/-- A handler that leaves every parent link as it found it. -/
def Handler.KeepsLinks (h : Handler) : Prop :=
  ∀ g u, ((h g).2.views u).parent = (g.views u).parent

/-- All hooks and registered callbacks leave the parent links alone. -/
def Widgets.KeepsLinks (W : Widgets) : Prop :=
  (∀ v e, Handler.KeepsLinks (W.onEvent v e)) ∧
  ∀ v e cbl cb, W.callbackLists v e = some cbl → some cb ∈ cbl → Handler.KeepsLinks (cb v)

/-- A handler that leaves the focused reference as it found it. -/
def Handler.KeepsFocus (h : Handler) : Prop :=
  ∀ g, (h g).2.mFocusedView = g.mFocusedView

/-- All hooks and registered callbacks leave the focused reference alone (none of them calls
`setFocus` itself). -/
def Widgets.KeepsFocus (W : Widgets) : Prop :=
  (∀ v e, Handler.KeepsFocus (W.onEvent v e)) ∧
  ∀ v e cbl cb, W.callbackLists v e = some cbl → some cb ∈ cbl → Handler.KeepsFocus (cb v)

/-! ## The instance registry -/

/-- The constructor `GLV::GLV` as far as the registry goes: `instances().push_back(this)`. -/
def GLV.ctor (this : GLVPtr) (instances : List GLVPtr) : List GLVPtr :=
  instances ++ [this]

/-- The `for` loop of the destructor from index `i` on, with a bound on the number of
iterations: an entry equal to `this` is erased in place and the index is incremented all the
same. -/
def dtorLoop (this : GLVPtr) : Nat → Nat → List GLVPtr → List GLVPtr
  | 0, _, instances => instances
  | fuel + 1, i, instances =>
    if i < instances.length then
      if instances.get? i = some this then dtorLoop this fuel (i + 1) (instances.eraseIdx i)
      else dtorLoop this fuel (i + 1) instances
    else instances

/-- The destructor `GLV::~GLV`. The index grows by one in every iteration and the registry
never grows, so the loop runs at most `instances.length` times. -/
def GLV.dtor (this : GLVPtr) (instances : List GLVPtr) : List GLVPtr :=
  dtorLoop this instances.length 0 instances

/-- The static method `GLV::valid(g)`: a linear search with an early return. -/
def GLV.valid (g : GLVPtr) : List GLVPtr → Bool
  | [] => false
  | x :: rest => if x = g then true else GLV.valid g rest

/-- What the destructor loop does to the part of the registry it has not yet scanned: an
entry equal to `this` is dropped and the entry that slides into its place is stepped over. -/
def dtorScan (this : GLVPtr) : List GLVPtr → List GLVPtr
  | [] => []
  | [x] => if x = this then [] else [x]
  | x :: y :: rest =>
    if x = this then y :: dtorScan this rest else x :: dtorScan this (y :: rest)

/-- A construction or a destruction of a `GLV` object at a given address. -/
inductive RegistryOp where
  | construct (g : GLVPtr)
  | destroy (g : GLVPtr)
  deriving DecidableEq, Repr

/-- The effect of one construction or destruction on the registry. -/
def RegistryOp.apply : RegistryOp → List GLVPtr → List GLVPtr
  | .construct g, instances => GLV.ctor g instances
  | .destroy g, instances => GLV.dtor g instances

/-- The registry after a sequence of constructions and destructions. -/
def runOps (ops : List RegistryOp) (instances : List GLVPtr) : List GLVPtr :=
  ops.foldl (fun r op => op.apply r) instances

/-- Whether `g` has been constructed and not yet destroyed after the operations `ops`:
the last operation on `g`, if any, is a construction. -/
def isLive (g : GLVPtr) (ops : List RegistryOp) : Bool :=
  ops.foldl (fun b op =>
    match op with
    | .construct h => if h = g then true else b
    | .destroy h => if h = g then false else b) false

/-- Object lifetimes along a sequence of operations that follows the history `hist`: an
object is only constructed at an address that holds no live object. -/
def lifetimesOk (hist : List RegistryOp) : List RegistryOp → Bool
  | [] => true
  | .construct g :: rest => !isLive g hist && lifetimesOk (hist ++ [.construct g]) rest
  | .destroy g :: rest => lifetimesOk (hist ++ [.destroy g]) rest

/-! ## Example worlds -/

/-- The flag word in which exactly the listed properties are enabled. -/
def flagsOf (ps : List Property) : Property → Bool := fun p => decide (p ∈ ps)

/-- A handler that returns `b` and changes nothing. -/
def constHandler (b : Bool) : Handler := fun g => (b, g)

/-- A handler that returns `b` and overwrites the current event kind. -/
def retypeHandler (b : Bool) (e : Event) : Handler := fun g => (b, g.eventType e)

/-- The heap of the chain root (0), A (1), B (2), C (3): every view controllable, none with
the always-bubble flag, C a child of B, B of A, A of the root. -/
def chainViews : ViewId → View := fun v =>
  { parent := if v = 0 then none else some (v - 1)
    mFlags := flagsOf [Property.Visible, Property.Controllable] }

/-- The chain heap with C focused and a key-down event pending. -/
def chainGLV : GLV := { views := chainViews, mFocusedView := some 3, mEventType := Event.KeyDown }

/-- Widgets whose hooks all return true and that have no callbacks registered. -/
def quietWidgets : Widgets :=
  { onEvent := fun _ _ => constHandler true
    callbackLists := fun _ _ => none }

/-- Widgets whose hooks return true except the hook of B (2), which returns false. -/
def stopAtB : Widgets :=
  { onEvent := fun v _ => constHandler (decide (v ≠ 2))
    callbackLists := fun _ _ => none }

/-- Widgets with three key-down callbacks on C (3) that return true, false, true. -/
def threeCallbacks : Widgets :=
  { onEvent := fun _ _ => constHandler true
    callbackLists := fun v e =>
      if v = 3 ∧ e = Event.KeyDown then
        some [some fun _ => constHandler true, some fun _ => constHandler false,
          some fun _ => constHandler true]
      else none }

/-- The chain heap in which B (2) is not controllable although it has the always-bubble
flag. -/
def mutedViews : ViewId → View := fun v =>
  { parent := if v = 0 then none else some (v - 1)
    mFlags := if v = 2 then flagsOf [Property.Visible, Property.AlwaysBubble]
      else flagsOf [Property.Visible, Property.Controllable] }

/-- The heap with the muted B, B focused and a key-down event pending. -/
def mutedGLV : GLV := { views := mutedViews, mFocusedView := some 2, mEventType := Event.KeyDown }

/-- The focus notification `doFocusCallback` makes for event kind `e` when the focused view is
`f`: one dispatch on `f`, entered with `f` focused, when `f` is non-null and has callbacks
registered for `e`, and none otherwise. Listed as view, kind and focused view at entry. -/
def focusNote (W : Widgets) (e : Event) : Option ViewId → List (ViewId × Event × Option ViewId)
  | none => []
  | some f => if W.numCallbacks f e ≠ 0 then [(f, e, some f)] else []

/-- The view, kind and focused view at entry of a logged dispatch. -/
def Dispatch.key (d : Dispatch) : ViewId × Event × Option ViewId :=
  (d.view, d.event, d.focusAtEntry)

/-- Widgets in which every view has, for every event kind, one registered callback; hooks and
callbacks return true and overwrite the current event kind with key-up. -/
def focusWidgets : Widgets :=
  { onEvent := fun _ _ => retypeHandler true Event.KeyUp
    callbackLists := fun _ _ => some [some fun _ => retypeHandler true Event.KeyUp] }

/-- The chain heap with A (1) focused and a mouse-down event pending. -/
def focusGLV : GLV := { views := chainViews, mFocusedView := some 1, mEventType := Event.MouseDown }

/-! ## Rectangles and the clip stack -/

/-- Modelled from the spec: the class `Rect` (`glv_core.h` is not part of the sources at
hand): left, top, width and height. -/
structure Rect where
  l : space_t
  t : space_t
  w : space_t
  h : space_t
  deriving DecidableEq, Repr

/-- Modelled from the spec: the constructor `Rect(w, h)`, the rectangle of that size at the
origin. -/
def Rect.ofSize (w h : space_t) : Rect := { l := 0, t := 0, w := w, h := h }

/-- Modelled from the spec: `Rect::right()`. -/
def Rect.right (r : Rect) : space_t := r.l + r.w

/-- Modelled from the spec: `Rect::bottom()`. -/
def Rect.bottom (r : Rect) : space_t := r.t + r.h

/-- Modelled from the spec: `a.intersection(b, dst)` leaves in `dst` the overlapping region
of `a` and `b`, degenerate (with a negative extent) when the two are disjoint. -/
def Rect.intersection (a b : Rect) : Rect :=
  { l := max a.l b.l
    t := max a.t b.t
    w := min a.right b.right - max a.l b.l
    h := min a.bottom b.bottom - max a.t b.t }

/-- Modelled from the spec: `View::visible()` of `glv_core.h`, the visibility predicate
derived from the flags of the view. -/
def View.visible (v : View) : Bool := v.enabled Property.Visible

/-- The absolute rectangle of a view whose top-left corner is at `(ax, ay)`. -/
def View.rectAt (v : View) (ax ay : space_t) : Rect := { l := ax, t := ay, w := v.w, h := v.h }

/-- An access to the vector `cropRects` through `operator[]`, with the index used. -/
inductive Access where
  | read (i : Int)
  | write (i : Int)
  deriving DecidableEq, Repr

/-- The index of an access. -/
def Access.index : Access → Int
  | .read i => i
  | .write i => i

/-- Whether an access is a write. -/
def Access.isWrite : Access → Bool
  | .read _ => false
  | .write _ => true

/-- Whether an access lies within a vector of `n` entries. -/
def Access.inBounds (n : Nat) (a : Access) : Bool := decide (0 ≤ a.index ∧ a.index < n)

/-- The value `cr[i]` read from the clip stack. The source does not check the index, and a
read outside the vector is undefined behaviour there. Here such a read yields the zero
rectangle and shows in the access log; a run stands for a run of the source only as long as
every access in its log is within bounds. -/
def readRect (cr : List Rect) : Int → Rect
  | Int.ofNat n => cr.getD n { l := 0, t := 0, w := 0, h := 0 }
  | Int.negSucc _ => { l := 0, t := 0, w := 0, h := 0 }

/-- The assignment `cr[i] = r`. The source does not check the index, and a write outside the
vector is undefined behaviour there. Here such a write is dropped and shows in the access
log; a run stands for a run of the source only as long as every access in its log is within
bounds. -/
def writeRect (cr : List Rect) : Int → Rect → List Rect
  | Int.ofNat n, r => cr.set n r
  | Int.negSucc _, _ => cr

/-- The function `computeCrop(cr, lvl, ax, ay, v)`: the clip stack it leaves and the accesses
it makes. -/
def computeCrop (cr : List Rect) (lvl : Int) (ax ay : space_t) (v : View) :
    List Rect × List Access :=
  if v.enabled Property.CropChildren then
    let cr1 := writeRect cr lvl (v.rectAt ax ay)
    if lvl > 0 then
      (writeRect cr1 lvl ((readRect cr1 lvl).intersection (readRect cr1 (lvl - 1))),
        [Access.write lvl, Access.read lvl, Access.read (lvl - 1), Access.write lvl])
    else (cr1, [Access.write lvl])
  else (writeRect cr lvl (readRect cr (lvl - 1)), [Access.read (lvl - 1), Access.write lvl])

/-! ## The draw traversal -/

/-- One view drawn by `drawWidgets` (scissor, `drawBack`, `onDraw`, `drawBorder`): the view,
the absolute position and level held at that moment, the rectangle read from
`cropRects[lvl-1]`, and the rectangle `r` the scissor call is computed from. -/
structure DrawRecord where
  view : ViewId
  cx : space_t
  cy : space_t
  lvl : Int
  parentClip : Rect
  clip : Rect
  deriving DecidableEq, Repr

/-- The local variables of `drawWidgets` (`cv`, `cx`, `cy`, `lvl`, `cropRects`) together with
the log of the clip stack accesses made and of the views drawn so far. -/
structure DrawState where
  cv : ViewId
  cx : space_t
  cy : space_t
  lvl : Int
  cropRects : List Rect
  accesses : List Access
  drawn : List DrawRecord

/-- The function `drawContext(tx, ty, v, cx, cy, c)`: move the drawing context by `(tx, ty)`
and make `v` the current view. The calls on the model matrix are not modelled. -/
def drawContext (tx ty : space_t) (v : ViewId) (s : DrawState) : DrawState :=
  { s with cx := s.cx + tx, cy := s.cy + ty, cv := v }

/-- The call `computeCrop(cropRects, lvl, cx, cy, cv)` on the local variables. -/
def DrawState.crop (views : ViewId → View) (s : DrawState) : DrawState :=
  { s with
    cropRects := (computeCrop s.cropRects s.lvl s.cx s.cy (views s.cv)).1
    accesses := s.accesses ++ (computeCrop s.cropRects s.lvl s.cx s.cy (views s.cv)).2 }

/-- The block `if(cv->visible()){ ... }` that draws the current view: read the crop region of
the parent level, intersect it with the own rectangle when `CropSelf` is enabled, and draw. -/
def DrawState.drawCurrent (views : ViewId → View) (s : DrawState) : DrawState :=
  if (views s.cv).visible then
    { s with
      accesses := s.accesses ++ [Access.read (s.lvl - 1)]
      drawn := s.drawn ++
        [{ view := s.cv, cx := s.cx, cy := s.cy, lvl := s.lvl
           parentClip := readRect s.cropRects (s.lvl - 1)
           clip :=
            if (views s.cv).enabled Property.CropSelf then
              (readRect s.cropRects (s.lvl - 1)).intersection ((views s.cv).rectAt s.cx s.cy)
            else readRect s.cropRects (s.lvl - 1) }] }
  else s

/-- The loop `while(true)` of `drawWidgets` with a bound on the number of steps. With
`retracing = false` the state is at the top of the loop body; with `retracing = true` it is
at the test of the inner loop `while(cv != root && cv->sibling == 0)`. The result is the state
at the `break`, or `none` when the bound is used up or a null parent would be followed. -/
def drawLoop (views : ViewId → View) (root : ViewId) :
    Nat → Bool → DrawState → Option DrawState
  | 0, _, _ => none
  | fuel + 1, false, s =>
    match (views s.cv).child, (views s.cv).visible with
    | some c, true =>
      drawLoop views root fuel false
        ((({ drawContext (views c).l (views c).t c s with lvl := s.lvl + 1 } :
          DrawState).crop views).drawCurrent views)
    | _, _ =>
      match (views s.cv).sibling with
      | some sb =>
        drawLoop views root fuel false
          (((drawContext ((views sb).l - (views s.cv).l) ((views sb).t - (views s.cv).t) sb
            s).crop views).drawCurrent views)
      | none => drawLoop views root fuel true s
  | fuel + 1, true, s =>
    if s.cv ≠ root ∧ (views s.cv).sibling = none then
      match (views s.cv).parent with
      | some p =>
        drawLoop views root fuel true
          { drawContext (-(views s.cv).l) (-(views s.cv).t) p s with lvl := s.lvl - 1 }
      | none => none
    else
      match (views s.cv).sibling with
      | some sb =>
        drawLoop views root fuel false
          (((drawContext ((views sb).l - (views s.cv).l) ((views sb).t - (views s.cv).t) sb
            s).crop views).drawCurrent views)
      | none => some s

/-- The method `GLV::drawWidgets(w, h)` of the root `this`: sixteen clip entries, each the
surface rectangle, level zero at the root, then the loop. The drawing of the root itself and
the calls that set up and tear down the graphics state are not modelled. -/
def GLV.drawWidgets (g : GLV) (this : ViewId) (w h : Nat) (fuel : Nat) : Option DrawState :=
  drawLoop g.views this fuel false
    { cv := this, cx := 0, cy := 0, lvl := 0
      cropRects := List.replicate 16 (Rect.ofSize w h), accesses := [], drawn := [] }

/-! ## View trees -/

/-- A finite forest of views in the shape the intrusive links give it: a view with the
forest of its children (first child first) and the forest of the siblings that follow it. -/
inductive Forest where
  | nil
  | node (v : ViewId) (children : Forest) (siblings : Forest)
  deriving DecidableEq, Repr

/-- The first view of a forest, if any. -/
def Forest.first : Forest → Option ViewId
  | .nil => none
  | .node v _ _ => some v

/-- The views of a forest in depth-first pre-order, siblings in link order. -/
def Forest.ids : Forest → List ViewId
  | .nil => []
  | .node v c s => v :: (c.ids ++ s.ids)

/-- The number of levels of a forest. -/
def Forest.height : Forest → Nat
  | .nil => 0
  | .node _ c s => max (c.height + 1) s.height

/-- Whether the links of the heap `views` are those of the forest `f` hanging below the
parent `p`: every view of the forest has its parent, its first child and its next sibling
where the forest says, with null for a missing child or sibling. -/
def Forest.conforms (views : ViewId → View) : Forest → ViewId → Bool
  | .nil, _ => true
  | .node v c s, p =>
    decide ((views v).parent = some p) && decide ((views v).child = c.first) &&
      decide ((views v).sibling = s.first) && c.conforms views v && s.conforms views p

/-- A finite well-formed view tree: the root `root` has no parent and no sibling, its
descendants are the forest `kids`, the links of the heap are those of the tree, and no
address occurs twice. -/
def isTree (views : ViewId → View) (root : ViewId) (kids : Forest) : Bool :=
  decide ((views root).parent = none) && decide ((views root).sibling = none) &&
    decide ((views root).child = kids.first) && kids.conforms views root &&
    decide (root :: kids.ids).Nodup

/-- Place the drawing context on view `v` at absolute position `(ax, ay)` and level `k`. -/
def DrawState.moveTo (s : DrawState) (v : ViewId) (ax ay : space_t) (k : Int) : DrawState :=
  { s with cv := v, cx := ax, cy := ay, lvl := k }

/-- Arrive on view `v` at absolute position `(ax, ay)` and level `k`: compute its crop entry
and draw it. -/
def DrawState.paintAt (views : ViewId → View) (s : DrawState) (v : ViewId) (ax ay : space_t)
    (k : Int) : DrawState :=
  ((s.moveTo v ax ay k).crop views).drawCurrent views

/-- The draw traversal written as a recursion over the forest: the views of the forest are at
level `k` and their parent is at absolute position `(px, py)`; each view is arrived on, then
its children are traversed if it is visible, then its siblings. -/
def Forest.draw (views : ViewId → View) :
    Forest → Int → space_t → space_t → DrawState → DrawState
  | .nil, _, _, _, s => s
  | .node v c sibs, k, px, py, s =>
    let s1 := s.paintAt views v (px + (views v).l) (py + (views v).t) k
    let s2 :=
      if (views v).visible then c.draw views (k + 1) (px + (views v).l) (py + (views v).t) s1
      else s1
    sibs.draw views k px py s2

/-- The pre-order listing of a forest from which the subtree below every non-visible view is
pruned and the non-visible views themselves are left out. -/
def Forest.drawOrder (views : ViewId → View) : Forest → List ViewId
  | .nil => []
  | .node v c s =>
    (if (views v).visible then v :: c.drawOrder views else []) ++ s.drawOrder views

/-- The state in which `drawWidgets(w, h)` enters its loop. -/
def drawStart (this : ViewId) (w h : Nat) : DrawState :=
  { cv := this, cx := 0, cy := 0, lvl := 0
    cropRects := List.replicate 16 (Rect.ofSize w h), accesses := [], drawn := [] }

/-! ## What the draw traversal is expected to produce -/

/-- The sum of the left offsets of the views of a parent chain (a view, its parent, and so on
up to the root) without the root, which is the last of the chain. -/
def offsetX (views : ViewId → View) : List ViewId → space_t
  | [] => 0
  | [_] => 0
  | v :: u :: rest => offsetX views (u :: rest) + (views v).l

/-- The sum of the top offsets of the views of a parent chain without the root. -/
def offsetY (views : ViewId → View) : List ViewId → space_t
  | [] => 0
  | [_] => 0
  | v :: u :: rest => offsetY views (u :: rest) + (views v).t

/-- The crop entry of the first view of a parent chain, as `computeCrop` defines it level by
level: the surface rectangle for the root; for any other view its absolute rectangle
intersected with the entry of its parent when it enables `CropChildren`, and the entry of its
parent otherwise. -/
def chainCrop (views : ViewId → View) (surface : Rect) : List ViewId → Rect
  | [] => surface
  | [_] => surface
  | v :: u :: rest =>
    if (views v).enabled Property.CropChildren then
      ((views v).rectAt (offsetX views (v :: u :: rest)) (offsetY views (v :: u :: rest))).intersection
        (chainCrop views surface (u :: rest))
    else chainCrop views surface (u :: rest)

/-- The record expected for the view `v` whose proper ancestors are the chain `cp`: drawn at
the sum of the offsets, at the level given by the number of proper ancestors, clipped by the
crop entry of the parent, and by its own rectangle too when it enables `CropSelf`. -/
def recordOf (views : ViewId → View) (surface : Rect) (v : ViewId) (cp : List ViewId) :
    DrawRecord :=
  { view := v
    cx := offsetX views (v :: cp)
    cy := offsetY views (v :: cp)
    lvl := cp.length
    parentClip := chainCrop views surface cp
    clip :=
      if (views v).enabled Property.CropSelf then
        (chainCrop views surface cp).intersection
          ((views v).rectAt (offsetX views (v :: cp)) (offsetY views (v :: cp)))
      else chainCrop views surface cp }

/-- The records expected for a forest whose views have the proper ancestors `cp`, in draw
order. -/
def Forest.records (views : ViewId → View) (surface : Rect) : Forest → List ViewId →
    List DrawRecord
  | .nil, _ => []
  | .node v c s, cp =>
    (if (views v).visible then recordOf views surface v cp :: c.records views surface (v :: cp)
      else []) ++ s.records views surface cp

/-- The view, position and level of a draw record. -/
def DrawRecord.place (d : DrawRecord) : ViewId × space_t × space_t × Int :=
  (d.view, d.cx, d.cy, d.lvl)

/-- The forest without the subtrees below its non-visible views. -/
def Forest.pruned (views : ViewId → View) : Forest → Forest
  | .nil => .nil
  | .node v c s => .node v (if (views v).visible then c.pruned views else .nil) (s.pruned views)

/-- The draw order in the words of the specification: the pre-order listing of the proper
descendants of the root, from which the subtree below every non-visible view (the root
included) is pruned and the non-visible views themselves are left out. -/
def specDrawOrder (views : ViewId → View) (root : ViewId) (kids : Forest) : List ViewId :=
  if (views root).visible then
    ((kids.pruned views).ids).filter fun v => (views v).visible
  else []

/-- A sample tree: the root 0 with the children 1 and 4, the view 1 with the children 2 and 3,
the view 4 with the child 5. -/
def sampleKids : Forest :=
  .node 1 (.node 2 .nil (.node 3 .nil .nil)) (.node 4 (.node 5 .nil .nil) .nil)

/-- The heap of the sample tree: every view is visible but the view 4, the view `v` sits at
the offset `(10 v, v)` in its parent and has the size `(100, 50)`, and the views 1 and 2 crop
their children. -/
def sampleViews : ViewId → View := fun v =>
  { parent := if v = 0 then none else if v = 2 ∨ v = 3 then some 1 else if v = 5 then some 4
      else some 0
    child := if v = 0 then some 1 else if v = 1 then some 2 else if v = 4 then some 5 else none
    sibling := if v = 1 then some 4 else if v = 2 then some 3 else none
    mFlags := if v = 4 then flagsOf [Property.Controllable]
      else if v = 1 ∨ v = 2 then
        flagsOf [Property.Visible, Property.Controllable, Property.CropChildren]
      else flagsOf [Property.Visible, Property.Controllable]
    l := 10 * v, t := v, w := 100, h := 50 }

/-- The sample heap with the root focused. -/
def sampleGLV : GLV := { views := sampleViews, mFocusedView := some 0, mEventType := Event.Null }

/-- A chain of seventeen nested views: the root 0 and below it the views 1 to 16, each the
only child of the one before, all visible. -/
def deepViews : ViewId → View := fun v =>
  { parent := if v = 0 then none else some (v - 1)
    child := if v < 16 then some (v + 1) else none
    mFlags := flagsOf [Property.Visible, Property.Controllable]
    l := 1, t := 1, w := 100, h := 100 }

/-- The heap of the seventeen nested views. -/
def deepGLV : GLV := { views := deepViews, mFocusedView := some 0, mEventType := Event.Null }

/-- The chain forest of the views `v`, `v + 1`, ... of `n` nested views. -/
def nestedKids : Nat → ViewId → Forest
  | 0, _ => .nil
  | n + 1, v => .node v (nestedKids n (v + 1)) .nil

/-- A tree of three levels: the root 0 of size 100 by 100, its child M (1) at offset (10, 10)
of size 50 by 50, and the child L (2) of M at offset (5, 5) of size 100 by 100, which sticks
out of M. All three are visible and crop their children; none crops itself. -/
def threeLevelViews : ViewId → View := fun v =>
  { parent := if v = 0 then none else some (v - 1)
    child := if v < 2 then some (v + 1) else none
    mFlags := flagsOf [Property.Visible, Property.Controllable, Property.CropChildren]
    l := if v = 0 then 0 else if v = 1 then 10 else 5
    t := if v = 0 then 0 else if v = 1 then 10 else 5
    w := if v = 1 then 50 else 100
    h := if v = 1 then 50 else 100 }

/-- The heap of the tree of three levels. -/
def threeLevelGLV : GLV :=
  { views := threeLevelViews, mFocusedView := some 0, mEventType := Event.Null }

/-! ## Broadcast and the remaining mouse entry points -/

/-- The loop `while(true)` of `broadcastEvent` with a bound on the number of steps, in the
shape of `drawLoop`: with `retracing = false` the state is at the top of the loop body, with
`retracing = true` at the test of the inner loop. Arriving on a view dispatches to it. The
result is the state and the dispatch log at the `break`, or `none` when the bound is used up
or a null parent would be followed. -/
def broadcastLoop (W : Widgets) (root : ViewId) (e : Event) :
    Nat → Bool → ViewId → GLV → List Dispatch → Option (GLV × List Dispatch)
  | 0, _, _, _, _ => none
  | fuel + 1, false, cv, g, log =>
    match (g.views cv).child with
    | some c =>
      broadcastLoop W root e fuel false c (g.dispatch W c e).2.1 (log ++ [(g.dispatch W c e).2.2])
    | none =>
      match (g.views cv).sibling with
      | some sb =>
        broadcastLoop W root e fuel false sb (g.dispatch W sb e).2.1
          (log ++ [(g.dispatch W sb e).2.2])
      | none => broadcastLoop W root e fuel true cv g log
  | fuel + 1, true, cv, g, log =>
    if cv ≠ root ∧ (g.views cv).sibling = none then
      match (g.views cv).parent with
      | some p => broadcastLoop W root e fuel true p g log
      | none => none
    else
      match (g.views cv).sibling with
      | some sb =>
        broadcastLoop W root e fuel false sb (g.dispatch W sb e).2.1
          (log ++ [(g.dispatch W sb e).2.2])
      | none => some (g, log)

/-- The method `GLV::broadcastEvent(e)` of the root `this`: dispatch to the root, then the
loop. -/
def GLV.broadcastEvent (W : Widgets) (this : ViewId) (e : Event) (fuel : Nat) (g : GLV) :
    Option (GLV × List Dispatch) :=
  broadcastLoop W this e fuel false this (g.dispatch W this e).2.1 [(g.dispatch W this e).2.2]

/-- The broadcast written as a recursion over the forest: dispatch to a view, then to its
children, then to its siblings. -/
def Forest.broadcast (W : Widgets) (e : Event) :
    Forest → GLV → List Dispatch → GLV × List Dispatch
  | .nil, g, log => (g, log)
  | .node v c s, g, log =>
    let below := c.broadcast W e (g.dispatch W v e).2.1 (log ++ [(g.dispatch W v e).2.2])
    s.broadcast W e below.1 below.2

/-- Two heaps with the same links. -/
def SameLinks (a b : ViewId → View) : Prop :=
  ∀ u, (a u).parent = (b u).parent ∧ (a u).child = (b u).child ∧ (a u).sibling = (b u).sibling

/-- A handler that leaves the three links of every view as it found them. -/
def Handler.KeepsTree (h : Handler) : Prop := ∀ g, SameLinks (h g).2.views g.views

/-- All hooks and registered callbacks leave the tree as it is. -/
def Widgets.KeepsTree (W : Widgets) : Prop :=
  (∀ v e, Handler.KeepsTree (W.onEvent v e)) ∧
  ∀ v e cbl cb, W.callbackLists v e = some cbl → some cb ∈ cbl → Handler.KeepsTree (cb v)

/-- The method `GLV::setMouseMotion(x, y, e)`: the values left in `x` and `y` and the state.
`absToRel` is not part of the sources at hand; it is a parameter that yields `none` when it
returns false and the converted point when it returns true. When it returns true although
there is no focused view, the source reads `mFocusedView->l` through the null pointer: the
result is then `none`. -/
def GLV.setMouseMotion
    (absToRel : GLV → Option ViewId → space_t → space_t → Option (space_t × space_t))
    (x y : space_t) (e : Event) (g : GLV) : Option (space_t × space_t × GLV) :=
  match absToRel (g.eventType e) (g.eventType e).mFocusedView x y,
      (g.eventType e).mFocusedView with
  | some p, some f =>
    some (p.1 - ((g.eventType e).views f).l, p.2 - ((g.eventType e).views f).t,
      g.eventType e)
  | some _, none => none
  | none, _ => some (x, y, g.eventType e)

/-- The method `GLV::setMouseUp(x, y, button, clicks)`: the values left in the reference
arguments `x` and `y`, and the state. -/
def GLV.setMouseUp (x y : space_t) (button clicks : Int) (g : GLV) : space_t × space_t × GLV :=
  (x, y,
    { g.eventType Event.MouseUp with
      mouse := (g.eventType Event.MouseUp).mouse.updateButton button false clicks })

/-- Widgets whose hooks all return false and that have no callbacks registered. -/
def refusingWidgets : Widgets :=
  { onEvent := fun _ _ => constHandler false
    callbackLists := fun _ _ => none }

/-- A root 0 with one child 1 at the offset (10, 20), the child focused. -/
def offsetGLV : GLV :=
  { views := fun v =>
      { parent := if v = 0 then none else some 0
        child := if v = 0 then some 1 else none
        mFlags := flagsOf [Property.Visible, Property.Controllable]
        l := if v = 0 then 0 else 10, t := if v = 0 then 0 else 20, w := 100, h := 100 }
    mFocusedView := some 1
    mEventType := Event.MouseDown }

/-- The hook and the registered callbacks of the view `v` for the event kind `e` leave the
focused reference alone. -/
def Widgets.KeepsFocusAt (W : Widgets) (v : ViewId) (e : Event) : Prop :=
  Handler.KeepsFocus (W.onEvent v e) ∧
  ∀ cbl cb, W.callbackLists v e = some cbl → some cb ∈ cbl → Handler.KeepsFocus (cb v)

/-- Widgets in which B (2) has one FocusGained callback, which hands the focus on to the root
by calling `setFocus(root)`; no other callback is registered and the hooks return true. The
inner call finds no focus callbacks to run (B has none for FocusLost, the root none for
FocusGained), so it makes no dispatch of its own. -/
def refocusWidgets : Widgets :=
  { onEvent := fun _ _ => constHandler true
    callbackLists := fun v e =>
      if v = 2 ∧ e = Event.FocusGained then
        some [some fun _ g => (true, (g.setFocus quietWidgets (some 0)).1)]
      else none }

end glv

/-! # Theorems -/

namespace glv

/-! ## The callback loop -/

theorem runCallbacks_result (v : ViewId) (e : Event) (l : List (Option eventCallback)) :
    ∀ (i : Nat) (g : GLV),
      ((runCallbacks v e l i g).1 = true ↔ ∀ c ∈ (runCallbacks v e l i g).2.2, c.result = true) := by
  induction l with
  | nil => intro i g; simp [runCallbacks]
  | cons a rest ih =>
    intro i g
    cases a with
    | none => simpa [runCallbacks] using ih (i + 1) g
    | some cb =>
      by_cases h : (cb v g).1 = true
      · simp [runCallbacks, h, Call.result, ih (i + 1) (cb v g).2]
      · simp [runCallbacks, h, Call.result]

theorem runCallbacks_isCallback (v : ViewId) (e : Event) (l : List (Option eventCallback)) :
    ∀ (i : Nat) (g : GLV), ∀ c ∈ (runCallbacks v e l i g).2.2,
      ∃ j r, c = Call.callback v e j r := by
  induction l with
  | nil => intro i g; simp [runCallbacks]
  | cons a rest ih =>
    intro i g
    cases a with
    | none => simpa [runCallbacks] using ih (i + 1) g
    | some cb =>
      by_cases h : (cb v g).1 = true
      · intro c hc
        simp only [runCallbacks, h, if_true, List.mem_cons] at hc
        rcases hc with rfl | hc
        · exact ⟨i, true, rfl⟩
        · exact ih (i + 1) (cb v g).2 c hc
      · intro c hc
        simp only [runCallbacks, h, List.mem_singleton] at hc
        simp at hc
        exact ⟨i, false, hc⟩

theorem runCallbacks_indices (v : ViewId) (e : Event) (l : List (Option eventCallback)) :
    ∀ (i : Nat) (g : GLV),
      (runCallbacks v e l i g).2.2.map Call.index
        = (nonNullFrom i l).take (runCallbacks v e l i g).2.2.length := by
  induction l with
  | nil => intro i g; simp [runCallbacks, nonNullFrom]
  | cons a rest ih =>
    intro i g
    cases a with
    | none => simpa [runCallbacks, nonNullFrom] using ih (i + 1) g
    | some cb =>
      by_cases h : (cb v g).1 = true
      · simp [runCallbacks, h, nonNullFrom, Call.index, ih (i + 1) (cb v g).2]
      · simp [runCallbacks, h, nonNullFrom, Call.index]

theorem runCallbacks_dropLast (v : ViewId) (e : Event) (l : List (Option eventCallback)) :
    ∀ (i : Nat) (g : GLV), ∀ c ∈ (runCallbacks v e l i g).2.2.dropLast, c.result = true := by
  induction l with
  | nil => intro i g; simp [runCallbacks]
  | cons a rest ih =>
    intro i g
    cases a with
    | none => simpa [runCallbacks] using ih (i + 1) g
    | some cb =>
      by_cases h : (cb v g).1 = true
      · intro c hc
        simp only [runCallbacks, h, if_true] at hc
        cases hlog : (runCallbacks v e rest (i + 1) (cb v g).2).2.2 with
        | nil => simp [hlog] at hc
        | cons d ds =>
          rw [hlog, List.dropLast_cons₂, List.mem_cons] at hc
          rcases hc with rfl | hc
          · rfl
          · exact ih (i + 1) (cb v g).2 c (by rw [hlog]; exact hc)
      · intro c hc
        simp [runCallbacks, h] at hc

theorem runCallbacks_stops_at_false (v : ViewId) (e : Event) (l : List (Option eventCallback)) :
    ∀ (i : Nat) (g : GLV),
      (runCallbacks v e l i g).2.2.length < (nonNullFrom i l).length →
        ∃ c, (runCallbacks v e l i g).2.2.getLast? = some c ∧ c.result = false := by
  induction l with
  | nil => intro i g; simp [runCallbacks, nonNullFrom]
  | cons a rest ih =>
    intro i g
    cases a with
    | none => simpa [runCallbacks, nonNullFrom] using ih (i + 1) g
    | some cb =>
      by_cases h : (cb v g).1 = true
      · intro hlen
        simp only [runCallbacks, h, if_true, nonNullFrom, List.length_cons,
          Nat.add_lt_add_iff_right] at hlen
        obtain ⟨c, hc, hr⟩ := ih (i + 1) (cb v g).2 hlen
        refine ⟨c, ?_, hr⟩
        simp only [runCallbacks, h, if_true]
        cases hlog : (runCallbacks v e rest (i + 1) (cb v g).2).2.2 with
        | nil => simp [hlog] at hc
        | cons d ds => rw [hlog] at hc; simpa [List.getLast?_cons_cons] using hc
      · intro _
        exact ⟨Call.callback v e i false, by simp [runCallbacks, h], rfl⟩

/-! ## The bubble dispatcher -/

theorem doEventCallbacks_hook_false (W : Widgets) (v : ViewId) (e : Event) (g : GLV)
    (hc : (g.views v).enabled Property.Controllable = true)
    (hh : (W.onEvent v e g).1 = false) :
    g.doEventCallbacks W v e
      = (((W.onEvent v e g).2.views v).enabled Property.AlwaysBubble, (W.onEvent v e g).2,
          [Call.onEvent v e false]) := by
  simp [GLV.doEventCallbacks, hc, hh]

theorem doEventCallbacks_no_list (W : Widgets) (v : ViewId) (e : Event) (g : GLV)
    (hc : (g.views v).enabled Property.Controllable = true)
    (hh : (W.onEvent v e g).1 = true) (hl : W.callbackLists v e = none) :
    g.doEventCallbacks W v e = (true, (W.onEvent v e g).2, [Call.onEvent v e true]) := by
  simp [GLV.doEventCallbacks, hc, hh, hl, Widgets.hasCallbacks]

theorem doEventCallbacks_list (W : Widgets) (v : ViewId) (e : Event) (g : GLV)
    (cbl : List (Option eventCallback))
    (hc : (g.views v).enabled Property.Controllable = true)
    (hh : (W.onEvent v e g).1 = true) (hl : W.callbackLists v e = some cbl) :
    g.doEventCallbacks W v e
      = ((runCallbacks v e cbl 0 (W.onEvent v e g).2).1 ||
            ((runCallbacks v e cbl 0 (W.onEvent v e g).2).2.1.views v).enabled
              Property.AlwaysBubble,
          (runCallbacks v e cbl 0 (W.onEvent v e g).2).2.1,
          Call.onEvent v e true :: (runCallbacks v e cbl 0 (W.onEvent v e g).2).2.2) := by
  simp [GLV.doEventCallbacks, hc, hh, hl, Widgets.hasCallbacks]

/-- C1: for a view `v` that is controllable when `doEventCallbacks(v, e)` is called, the log
of the call is the `onEvent` hook of `v` followed by registered callbacks of `v` for `e`, and
the call returns true if and only if `v` has the AlwaysBubble flag enabled (as read when the
call returns), or the hook returned true and every callback that was invoked returned true. -/
theorem doEventCallbacks_bubble_iff (W : Widgets) (v : ViewId) (e : Event) (g : GLV)
    (hc : (g.views v).enabled Property.Controllable = true) :
    ∃ cbs : List Call,
      (g.doEventCallbacks W v e).2.2 = Call.onEvent v e (W.onEvent v e g).1 :: cbs ∧
      (∀ c ∈ cbs, ∃ j r, c = Call.callback v e j r) ∧
      ((g.doEventCallbacks W v e).1 = true ↔
        ((g.doEventCallbacks W v e).2.1.views v).enabled Property.AlwaysBubble = true ∨
          ((W.onEvent v e g).1 = true ∧ ∀ c ∈ cbs, c.result = true)) := by
  cases hh : (W.onEvent v e g).1 with
  | false =>
    refine ⟨[], ?_, ?_, ?_⟩
    · rw [doEventCallbacks_hook_false W v e g hc hh]
    · simp
    · rw [doEventCallbacks_hook_false W v e g hc hh]; simp
  | true =>
    cases hl : W.callbackLists v e with
    | none =>
      refine ⟨[], ?_, ?_, ?_⟩
      · rw [doEventCallbacks_no_list W v e g hc hh hl]
      · simp
      · rw [doEventCallbacks_no_list W v e g hc hh hl]; simp
    | some cbl =>
      refine ⟨(runCallbacks v e cbl 0 (W.onEvent v e g).2).2.2, ?_, ?_, ?_⟩
      · rw [doEventCallbacks_list W v e g cbl hc hh hl]
      · exact runCallbacks_isCallback v e cbl 0 _
      · rw [doEventCallbacks_list W v e g cbl hc hh hl]
        have h := runCallbacks_result v e cbl 0 (W.onEvent v e g).2
        simp only [Bool.or_eq_true, h, true_and]
        exact or_comm

/-- Witness of C1 on the chain example: C is controllable, its hook returns true, of its three
key-down callbacks the second returns false, and the dispatch returns false. -/
theorem doEventCallbacks_bubble_iff_witness :
    (chainGLV.views 3).enabled Property.Controllable = true ∧
    ∃ cbs : List Call,
      (chainGLV.doEventCallbacks threeCallbacks 3 Event.KeyDown).2.2
        = Call.onEvent 3 Event.KeyDown (threeCallbacks.onEvent 3 Event.KeyDown chainGLV).1 :: cbs ∧
      (∀ c ∈ cbs, ∃ j r, c = Call.callback 3 Event.KeyDown j r) ∧
      ((chainGLV.doEventCallbacks threeCallbacks 3 Event.KeyDown).1 = true ↔
        ((chainGLV.doEventCallbacks threeCallbacks 3 Event.KeyDown).2.1.views 3).enabled
            Property.AlwaysBubble = true ∨
          ((threeCallbacks.onEvent 3 Event.KeyDown chainGLV).1 = true ∧
            ∀ c ∈ cbs, c.result = true)) :=
  ⟨by decide, doEventCallbacks_bubble_iff threeCallbacks 3 Event.KeyDown chainGLV (by decide)⟩

/-- C2: for a view `v` that is not controllable, `doEventCallbacks(v, e)` returns false, makes
no invocation at all and leaves the state untouched, whatever the other flags of `v` are; the
loop of `propagateEvent`, once it stands on such a view, makes that one dispatch and stops
there with `v` non-null, so no ancestor of `v` is dispatched to; in particular
`propagateEvent` with `v` focused logs that single dispatch and returns true. -/
theorem doEventCallbacks_not_controllable (W : Widgets) (v : ViewId) (e : Event) (g : GLV)
    (hc : (g.views v).enabled Property.Controllable = false) :
    g.doEventCallbacks W v e = (false, g, []) ∧
    (∀ fuel, propagateLoop W e (fuel + 1) (some v) g
      = some (some v, g,
          [{ view := v, event := e, focusAtEntry := g.mFocusedView, calls := [],
             result := false }])) ∧
    (g.mFocusedView = some v →
      ∀ fuel, g.propagateEvent W (fuel + 1)
        = some (true, g,
            [{ view := v, event := g.mEventType, focusAtEntry := some v, calls := [],
               result := false }])) := by
  have h1 : g.doEventCallbacks W v e = (false, g, []) := by
    simp [GLV.doEventCallbacks, hc]
  have h2 : ∀ e2, g.doEventCallbacks W v e2 = (false, g, []) := by
    intro e2; simp [GLV.doEventCallbacks, hc]
  refine ⟨h1, ?_, ?_⟩
  · intro fuel
    simp [propagateLoop, GLV.dispatch, h1]
  · intro hf fuel
    simp [GLV.propagateEvent, hf, propagateLoop, GLV.dispatch, h2]

/-- Witness of C2: B is not controllable and has the always-bubble flag and a parent; the
dispatch on B returns false with an empty log, and propagation from B stops at B. -/
theorem doEventCallbacks_not_controllable_witness :
    (mutedGLV.views 2).enabled Property.Controllable = false ∧
    (mutedGLV.views 2).enabled Property.AlwaysBubble = true ∧
    (mutedGLV.views 2).parent = some 1 ∧
    mutedGLV.doEventCallbacks quietWidgets 2 Event.KeyDown = (false, mutedGLV, []) ∧
    (∀ fuel, propagateLoop quietWidgets Event.KeyDown (fuel + 1) (some 2) mutedGLV
      = some (some 2, mutedGLV,
          [{ view := 2, event := Event.KeyDown, focusAtEntry := mutedGLV.mFocusedView,
             calls := [], result := false }])) ∧
    (mutedGLV.mFocusedView = some 2 →
      ∀ fuel, mutedGLV.propagateEvent quietWidgets (fuel + 1)
        = some (true, mutedGLV,
            [{ view := 2, event := mutedGLV.mEventType, focusAtEntry := some 2, calls := [],
               result := false }])) :=
  ⟨by decide, by decide, by decide,
    doEventCallbacks_not_controllable quietWidgets 2 Event.KeyDown mutedGLV (by decide)⟩

/-- C3: for a controllable view `v` whose `onEvent` hook returns true for `e`,
`doEventCallbacks(v, e)` invokes, after the hook, the callbacks registered on `v` for `e` in
registration order (the invoked positions are an initial segment of the registered ones),
every invoked callback but the last returned true, and the loop stops short of the full list
only after a callback that returned false; if the hook returns false, the hook is the only
invocation. -/
theorem doEventCallbacks_callback_order (W : Widgets) (v : ViewId) (e : Event) (g : GLV)
    (hc : (g.views v).enabled Property.Controllable = true) :
    ((W.onEvent v e g).1 = false →
      (g.doEventCallbacks W v e).2.2 = [Call.onEvent v e false]) ∧
    ((W.onEvent v e g).1 = true →
      ∃ cbs : List Call,
        (g.doEventCallbacks W v e).2.2 = Call.onEvent v e true :: cbs ∧
        (∀ c ∈ cbs, ∃ j r, c = Call.callback v e j r) ∧
        cbs.map Call.index = (W.registered v e).take cbs.length ∧
        (∀ c ∈ cbs.dropLast, c.result = true) ∧
        (cbs.length < (W.registered v e).length →
          ∃ c, cbs.getLast? = some c ∧ c.result = false)) := by
  constructor
  · intro hh
    rw [doEventCallbacks_hook_false W v e g hc hh]
  · intro hh
    cases hl : W.callbackLists v e with
    | none =>
      refine ⟨[], ?_, ?_, ?_, ?_, ?_⟩
      · rw [doEventCallbacks_no_list W v e g hc hh hl]
      · simp
      · simp
      · simp
      · simp [Widgets.registered, hl]
    | some cbl =>
      refine ⟨(runCallbacks v e cbl 0 (W.onEvent v e g).2).2.2, ?_, ?_, ?_, ?_, ?_⟩
      · rw [doEventCallbacks_list W v e g cbl hc hh hl]
      · exact runCallbacks_isCallback v e cbl 0 _
      · simpa [Widgets.registered, hl] using runCallbacks_indices v e cbl 0 (W.onEvent v e g).2
      · exact runCallbacks_dropLast v e cbl 0 _
      · simpa [Widgets.registered, hl] using
          runCallbacks_stops_at_false v e cbl 0 (W.onEvent v e g).2

/-- Witness of C3, the example of the claim: three callbacks returning true, false, true on a
controllable view without the always-bubble flag; the dispatch returns false and the log is the
hook, the first and the second callback, so the third callback is never invoked. -/
theorem doEventCallbacks_callback_order_witness :
    (chainGLV.views 3).enabled Property.Controllable = true ∧
    (chainGLV.views 3).enabled Property.AlwaysBubble = false ∧
    threeCallbacks.registered 3 Event.KeyDown = [0, 1, 2] ∧
    chainGLV.doEventCallbacks threeCallbacks 3 Event.KeyDown
      = (false, chainGLV,
          [Call.onEvent 3 Event.KeyDown true, Call.callback 3 Event.KeyDown 0 true,
            Call.callback 3 Event.KeyDown 1 false]) ∧
    (((threeCallbacks.onEvent 3 Event.KeyDown chainGLV).1 = false →
      (chainGLV.doEventCallbacks threeCallbacks 3 Event.KeyDown).2.2
        = [Call.onEvent 3 Event.KeyDown false]) ∧
    ((threeCallbacks.onEvent 3 Event.KeyDown chainGLV).1 = true →
      ∃ cbs : List Call,
        (chainGLV.doEventCallbacks threeCallbacks 3 Event.KeyDown).2.2
          = Call.onEvent 3 Event.KeyDown true :: cbs ∧
        (∀ c ∈ cbs, ∃ j r, c = Call.callback 3 Event.KeyDown j r) ∧
        cbs.map Call.index = (threeCallbacks.registered 3 Event.KeyDown).take cbs.length ∧
        (∀ c ∈ cbs.dropLast, c.result = true) ∧
        (cbs.length < (threeCallbacks.registered 3 Event.KeyDown).length →
          ∃ c, cbs.getLast? = some c ∧ c.result = false))) :=
  ⟨by decide, by decide, by decide, by rfl,
    doEventCallbacks_callback_order threeCallbacks 3 Event.KeyDown chainGLV (by decide)⟩

/-! ## Parent chains -/

theorem isChain_nil_iff (p : ViewId → Option ViewId) (s : Option ViewId) :
    isChain p s [] = true ↔ s = none := by
  cases s <;> simp [isChain]

theorem isChain_cons_iff (p : ViewId → Option ViewId) (s : Option ViewId) (c : ViewId)
    (cs : List ViewId) :
    isChain p s (c :: cs) = true ↔ s = some c ∧ isChain p (p c) cs = true := by
  cases s with
  | none => simp [isChain]
  | some v =>
    simp only [isChain, Bool.and_eq_true, decide_eq_true_eq, Option.some.injEq]
    constructor
    · rintro ⟨rfl, h⟩; exact ⟨rfl, h⟩
    · rintro ⟨rfl, h⟩; exact ⟨rfl, h⟩

theorem isChain_unique (p : ViewId → Option ViewId) (c1 : List ViewId) :
    ∀ (s : Option ViewId) (c2 : List ViewId),
      isChain p s c1 = true → isChain p s c2 = true → c1 = c2 := by
  induction c1 with
  | nil =>
    intro s c2 h1 h2
    rw [isChain_nil_iff] at h1
    subst h1
    cases c2 with
    | nil => rfl
    | cons d ds => simp [isChain] at h2
  | cons c cs ih =>
    intro s c2 h1 h2
    rw [isChain_cons_iff] at h1
    obtain ⟨rfl, h1⟩ := h1
    cases c2 with
    | nil => simp [isChain] at h2
    | cons d ds =>
      rw [isChain_cons_iff] at h2
      obtain ⟨hd, h2⟩ := h2
      have hcd : c = d := Option.some.inj hd
      subst hcd
      rw [ih (p c) ds h1 h2]

theorem isChain_suffix (p : ViewId → Option ViewId) (u : ViewId) (cs : List ViewId) :
    ∀ s : Option ViewId, isChain p s cs = true → u ∈ cs →
      ∃ pre suf, cs = pre ++ u :: suf ∧ isChain p (some u) (u :: suf) = true := by
  induction cs with
  | nil => intro s _ hu; simp at hu
  | cons c rest ih =>
    intro s h hu
    rw [isChain_cons_iff] at h
    obtain ⟨rfl, h⟩ := h
    rcases List.mem_cons.mp hu with rfl | hu
    · exact ⟨[], rest, rfl, by rw [isChain_cons_iff]; exact ⟨rfl, h⟩⟩
    · obtain ⟨pre, suf, hsplit, hch⟩ := ih (p c) h hu
      exact ⟨c :: pre, suf, by rw [hsplit]; rfl, hch⟩

theorem isChain_nodup (p : ViewId → Option ViewId) (cs : List ViewId) :
    ∀ s : Option ViewId, isChain p s cs = true → cs.Nodup := by
  induction cs with
  | nil => intro _ _; exact List.nodup_nil
  | cons c rest ih =>
    intro s h
    have hfull := h
    rw [isChain_cons_iff] at h
    obtain ⟨rfl, h⟩ := h
    refine List.nodup_cons.mpr ⟨?_, ih (p c) h⟩
    intro hmem
    obtain ⟨pre, suf, hsplit, hch⟩ := isChain_suffix p c rest (p c) h hmem
    have heq := isChain_unique p (c :: suf) (some c) (c :: rest) hch hfull
    have hsuf : suf = rest := List.tail_eq_of_cons_eq heq
    have hlen := congrArg List.length hsplit
    rw [← hsuf] at hlen
    simp at hlen
    omega

/-! ## Handlers that keep the parent links -/

theorem runCallbacks_keepsLinks (v : ViewId) (e : Event) (l : List (Option eventCallback))
    (hl : ∀ cb, some cb ∈ l → Handler.KeepsLinks (cb v)) :
    ∀ (i : Nat) (g : GLV) (u : ViewId),
      (((runCallbacks v e l i g).2.1).views u).parent = (g.views u).parent := by
  induction l with
  | nil => intro i g u; simp [runCallbacks]
  | cons a rest ih =>
    have hrest : ∀ cb, some cb ∈ rest → Handler.KeepsLinks (cb v) :=
      fun cb hcb => hl cb (List.mem_cons_of_mem _ hcb)
    intro i g u
    cases a with
    | none => simpa [runCallbacks] using ih hrest (i + 1) g u
    | some cb =>
      have hcb : Handler.KeepsLinks (cb v) := hl cb (List.mem_cons_self _ _)
      by_cases h : (cb v g).1 = true
      · simp only [runCallbacks, h, if_true]
        rw [ih hrest (i + 1) (cb v g).2 u]
        exact hcb g u
      · simp only [runCallbacks, h]
        simpa using hcb g u

theorem doEventCallbacks_keepsLinks (W : Widgets) (hW : W.KeepsLinks) (v : ViewId) (e : Event)
    (g : GLV) (u : ViewId) :
    (((g.doEventCallbacks W v e).2.1).views u).parent = (g.views u).parent := by
  cases hc : (g.views v).enabled Property.Controllable with
  | false => simp [GLV.doEventCallbacks, hc]
  | true =>
    have hhook := hW.1 v e g u
    cases hh : (W.onEvent v e g).1 with
    | false => rw [doEventCallbacks_hook_false W v e g hc hh]; exact hhook
    | true =>
      cases hl : W.callbackLists v e with
      | none => rw [doEventCallbacks_no_list W v e g hc hh hl]; exact hhook
      | some cbl =>
        rw [doEventCallbacks_list W v e g cbl hc hh hl]
        simp only
        rw [runCallbacks_keepsLinks v e cbl (fun cb hcb => hW.2 v e cbl cb hl hcb) 0 _ u]
        exact hhook

theorem doEventCallbacks_parentOf (W : Widgets) (hW : W.KeepsLinks) (v : ViewId) (e : Event)
    (g : GLV) : (g.doEventCallbacks W v e).2.1.parentOf = g.parentOf := by
  funext u
  exact doEventCallbacks_keepsLinks W hW v e g u

/-! ## Propagation along the parent chain -/

theorem dispatch_fst (W : Widgets) (v : ViewId) (e : Event) (g : GLV) :
    (g.dispatch W v e).1 = (g.doEventCallbacks W v e).1 := rfl

theorem dispatch_state (W : Widgets) (v : ViewId) (e : Event) (g : GLV) :
    (g.dispatch W v e).2.1 = (g.doEventCallbacks W v e).2.1 := rfl

theorem dispatch_record (W : Widgets) (v : ViewId) (e : Event) (g : GLV) :
    (g.dispatch W v e).2.2
      = { view := v, event := e, focusAtEntry := g.mFocusedView,
          calls := (g.doEventCallbacks W v e).2.2, result := (g.doEventCallbacks W v e).1 } :=
  rfl

theorem propagateLoop_none (W : Widgets) (e : Event) (fuel : Nat) (g : GLV) :
    propagateLoop W e fuel none g = some (none, g, []) := by
  cases fuel <;> simp [propagateLoop]

theorem propagateLoop_stop (W : Widgets) (e : Event) (fuel : Nat) (v : ViewId) (g : GLV)
    (h : (g.dispatch W v e).1 = false) :
    propagateLoop W e (fuel + 1) (some v) g
      = some (some v, (g.dispatch W v e).2.1, [(g.dispatch W v e).2.2]) := by
  simp [propagateLoop, h]

theorem propagateLoop_go (W : Widgets) (e : Event) (fuel : Nat) (v : ViewId) (g : GLV)
    (h : (g.dispatch W v e).1 = true) :
    propagateLoop W e (fuel + 1) (some v) g
      = match propagateLoop W e fuel ((g.dispatch W v e).2.1.views v).parent
            (g.dispatch W v e).2.1 with
        | some (w, g2, log) => some (w, g2, (g.dispatch W v e).2.2 :: log)
        | none => none := by
  simp [propagateLoop, h]

theorem propagateLoop_stopped_iff (W : Widgets) (e : Event) :
    ∀ (fuel : Nat) (start : Option ViewId) (g : GLV) (w : Option ViewId) (g2 : GLV)
      (log : List Dispatch),
      propagateLoop W e fuel start g = some (w, g2, log) →
        (w.isSome = true ↔ ∃ d ∈ log, d.result = false) := by
  intro fuel
  induction fuel with
  | zero =>
    intro start g w g2 log h
    cases start with
    | none =>
      rw [propagateLoop_none] at h
      simp only [Option.some.injEq, Prod.mk.injEq] at h
      obtain ⟨rfl, -, rfl⟩ := h
      simp
    | some v => simp [propagateLoop] at h
  | succ n ih =>
    intro start g w g2 log h
    cases start with
    | none =>
      rw [propagateLoop_none] at h
      simp only [Option.some.injEq, Prod.mk.injEq] at h
      obtain ⟨rfl, -, rfl⟩ := h
      simp
    | some v =>
      cases hr : (g.dispatch W v e).1 with
      | false =>
        rw [propagateLoop_stop W e n v g hr] at h
        simp only [Option.some.injEq, Prod.mk.injEq] at h
        obtain ⟨rfl, -, rfl⟩ := h
        have : (g.dispatch W v e).2.2.result = false := hr
        simp [this]
      | true =>
        rw [propagateLoop_go W e n v g hr] at h
        cases hrec : propagateLoop W e n ((g.dispatch W v e).2.1.views v).parent
            (g.dispatch W v e).2.1 with
        | none => simp [hrec] at h
        | some out =>
          obtain ⟨w1, g3, log1⟩ := out
          simp only [hrec, Option.some.injEq, Prod.mk.injEq] at h
          obtain ⟨rfl, -, rfl⟩ := h
          have hd : (g.dispatch W v e).2.2.result = true := hr
          rw [ih _ _ w1 g3 log1 hrec]
          simp [hd]

theorem propagateLoop_chain (W : Widgets) (hW : W.KeepsLinks) (e : Event)
    (chain : List ViewId) :
    ∀ (start : Option ViewId) (g : GLV) (fuel : Nat),
      isChain g.parentOf start chain = true → chain.length ≤ fuel →
        ∃ w g2 log, propagateLoop W e fuel start g = some (w, g2, log) ∧
          log.map Dispatch.view = chain.take log.length ∧
          (∀ d ∈ log, d.event = e) ∧
          (∀ d ∈ log.dropLast, d.result = true) ∧
          (log.length < chain.length → ∃ d, log.getLast? = some d ∧ d.result = false) := by
  induction chain with
  | nil =>
    intro start g fuel hch _
    rw [isChain_nil_iff] at hch
    subst hch
    exact ⟨none, g, [], propagateLoop_none W e fuel g, by simp, by simp, by simp, by simp⟩
  | cons c cs ih =>
    intro start g fuel hch hfuel
    rw [isChain_cons_iff] at hch
    obtain ⟨rfl, hch⟩ := hch
    obtain ⟨n, rfl⟩ : ∃ n, fuel = n + 1 := ⟨fuel - 1, by simp at hfuel; omega⟩
    have hn : cs.length ≤ n := by simpa using hfuel
    have hrec : (g.dispatch W c e).2.2.result = (g.dispatch W c e).1 := rfl
    have hview : (g.dispatch W c e).2.2.view = c := rfl
    have hev : (g.dispatch W c e).2.2.event = e := rfl
    cases hr : (g.dispatch W c e).1 with
    | false =>
      refine ⟨some c, (g.dispatch W c e).2.1, [(g.dispatch W c e).2.2],
        propagateLoop_stop W e n c g hr, by simp [hview], by simp [hev], by simp, ?_⟩
      intro _
      exact ⟨(g.dispatch W c e).2.2, rfl, by rw [hrec, hr]⟩
    | true =>
      have hp : (g.dispatch W c e).2.1.parentOf = g.parentOf := by
        rw [dispatch_state]; exact doEventCallbacks_parentOf W hW c e g
      have hpc : ((g.dispatch W c e).2.1.views c).parent = g.parentOf c :=
        congrFun hp c
      have hch2 : isChain (g.dispatch W c e).2.1.parentOf
          (((g.dispatch W c e).2.1.views c).parent) cs = true := by
        rw [hp, hpc]; exact hch
      obtain ⟨w, g2, log, hrun, hviews, hevs, hdrop, hlast⟩ :=
        ih _ (g.dispatch W c e).2.1 n hch2 hn
      refine ⟨w, g2, (g.dispatch W c e).2.2 :: log, ?_, ?_, ?_, ?_, ?_⟩
      · rw [propagateLoop_go W e n c g hr, hrun]
      · simp [hview, hviews]
      · intro d hd
        rcases List.mem_cons.mp hd with rfl | hd
        · exact hev
        · exact hevs d hd
      · intro d hd
        cases log with
        | nil => simp at hd
        | cons d1 ds =>
          rw [List.dropLast_cons₂, List.mem_cons] at hd
          rcases hd with rfl | hd
          · rw [hrec, hr]
          · exact hdrop d hd
      · intro hlen
        have hlen2 : log.length < cs.length := by simpa using hlen
        obtain ⟨d, hd, hres⟩ := hlast hlen2
        refine ⟨d, ?_, hres⟩
        cases log with
        | nil => simp at hd
        | cons d1 ds => simpa [List.getLast?_cons_cons] using hd

theorem quietWidgets_keepsLinks : quietWidgets.KeepsLinks :=
  ⟨fun _ _ _ _ => rfl, fun v e cbl cb h _ => by simp [quietWidgets] at h⟩

theorem stopAtB_keepsLinks : stopAtB.KeepsLinks :=
  ⟨fun _ _ _ _ => rfl, fun v e cbl cb h _ => by simp [stopAtB] at h⟩

theorem propagateEvent_of_loop (W : Widgets) (fuel : Nat) (g : GLV) (w : Option ViewId)
    (g2 : GLV) (log : List Dispatch)
    (h : propagateLoop W g.mEventType fuel g.mFocusedView g = some (w, g2, log)) :
    g.propagateEvent W fuel = some (w.isSome, g2, log) := by
  simp [GLV.propagateEvent, h]

/-- C4: when the parent links from the focused view form an acyclic chain (focused view, its
parent, and so on up to the root) and the handlers leave the parent links alone,
`propagateEvent` returns, and its dispatches are on an initial segment of that chain, in
chain order, each view at most once (the chain has no repetition), all with the event kind
current at the call; every dispatch but the last returned true, so a parent is dispatched to
only after its child returned true and nothing is dispatched to after a dispatch that
returned false; the walk stops short of the root only at a dispatch that returned false, and
when all dispatches return true it covers the whole chain, root included. -/
theorem propagateEvent_dispatch_order (W : Widgets) (hW : W.KeepsLinks) (g : GLV)
    (chain : List ViewId) (hch : isChain g.parentOf g.mFocusedView chain = true)
    (fuel : Nat) (hfuel : chain.length ≤ fuel) :
    chain.Nodup ∧
    ∃ b g2 log, g.propagateEvent W fuel = some (b, g2, log) ∧
      log.map Dispatch.view = chain.take log.length ∧
      (∀ d ∈ log, d.event = g.mEventType) ∧
      (∀ d ∈ log.dropLast, d.result = true) ∧
      (log.length < chain.length → ∃ d, log.getLast? = some d ∧ d.result = false) ∧
      ((∀ d ∈ log, d.result = true) → log.map Dispatch.view = chain) := by
  refine ⟨isChain_nodup _ chain _ hch, ?_⟩
  obtain ⟨w, g2, log, hrun, hviews, hevs, hdrop, hlast⟩ :=
    propagateLoop_chain W hW g.mEventType chain g.mFocusedView g fuel hch hfuel
  refine ⟨w.isSome, g2, log, propagateEvent_of_loop W fuel g w g2 log hrun, hviews, hevs,
    hdrop, hlast, ?_⟩
  intro hall
  by_cases hlen : log.length < chain.length
  · obtain ⟨d, hd, hres⟩ := hlast hlen
    have hmem : d ∈ log := List.mem_of_getLast?_eq_some hd
    rw [hall d hmem] at hres
    exact absurd hres (by decide)
  · rw [hviews, List.take_of_length_le (by omega)]

/-- Witness of C4, the example of the claim: on the chain root, A, B, C with C focused and
all hooks returning true the dispatch order is C, B, A, root; when the hook of B returns
false (B lacking the always-bubble flag) the order is C, B and neither A nor the root is
dispatched to. -/
theorem propagateEvent_dispatch_order_witness :
    isChain chainGLV.parentOf chainGLV.mFocusedView [3, 2, 1, 0] = true ∧
    (chainGLV.propagateEvent quietWidgets 4).map (fun r => (r.1, r.2.2.map Dispatch.view))
      = some (false, [3, 2, 1, 0]) ∧
    (chainGLV.propagateEvent stopAtB 4).map (fun r => (r.1, r.2.2.map Dispatch.view))
      = some (true, [3, 2]) ∧
    ([3, 2, 1, 0] : List ViewId).Nodup ∧
    ∃ b g2 log, chainGLV.propagateEvent stopAtB 4 = some (b, g2, log) ∧
      log.map Dispatch.view = ([3, 2, 1, 0] : List ViewId).take log.length ∧
      (∀ d ∈ log, d.event = chainGLV.mEventType) ∧
      (∀ d ∈ log.dropLast, d.result = true) ∧
      (log.length < ([3, 2, 1, 0] : List ViewId).length →
        ∃ d, log.getLast? = some d ∧ d.result = false) ∧
      ((∀ d ∈ log, d.result = true) → log.map Dispatch.view = [3, 2, 1, 0]) :=
  ⟨by decide, by rfl, by rfl,
    propagateEvent_dispatch_order stopAtB stopAtB_keepsLinks chainGLV [3, 2, 1, 0] (by decide) 4
      (by decide)⟩

/-- C5: when the parent links from the focused view form an acyclic chain and the handlers
leave the parent links alone, `propagateEvent` returns; it returns true if and only if some
dispatch of the walk returned false (the walk stopped on a non-null view); when every dispatch
returned true the whole chain up to the root was dispatched to and it returns false; and when
there is no focused view it makes no dispatch and returns false. -/
theorem propagateEvent_result (W : Widgets) (hW : W.KeepsLinks) (g : GLV)
    (chain : List ViewId) (hch : isChain g.parentOf g.mFocusedView chain = true)
    (fuel : Nat) (hfuel : chain.length ≤ fuel) :
    ∃ b g2 log, g.propagateEvent W fuel = some (b, g2, log) ∧
      (b = true ↔ ∃ d ∈ log, d.result = false) ∧
      ((∀ d ∈ log, d.result = true) → b = false ∧ log.map Dispatch.view = chain) ∧
      (g.mFocusedView = none → b = false ∧ log = []) := by
  obtain ⟨w, g2, log, hrun, hviews, hevs, hdrop, hlast⟩ :=
    propagateLoop_chain W hW g.mEventType chain g.mFocusedView g fuel hch hfuel
  have hiff := propagateLoop_stopped_iff W g.mEventType fuel g.mFocusedView g w g2 log hrun
  refine ⟨w.isSome, g2, log, propagateEvent_of_loop W fuel g w g2 log hrun, hiff, ?_, ?_⟩
  · intro hall
    constructor
    · cases hw : w.isSome with
      | false => rfl
      | true =>
        obtain ⟨d, hd, hres⟩ := hiff.mp hw
        rw [hall d hd] at hres
        exact absurd hres (by decide)
    · by_cases hlen : log.length < chain.length
      · obtain ⟨d, hd, hres⟩ := hlast hlen
        have hmem : d ∈ log := List.mem_of_getLast?_eq_some hd
        rw [hall d hmem] at hres
        exact absurd hres (by decide)
      · rw [hviews, List.take_of_length_le (by omega)]
  · intro hnone
    rw [hnone, propagateLoop_none] at hrun
    simp only [Option.some.injEq, Prod.mk.injEq] at hrun
    obtain ⟨rfl, -, rfl⟩ := hrun
    exact ⟨rfl, rfl⟩

/-- Witness of C5 on the chain example with all hooks returning true: the event falls off the
tree after the root and `propagateEvent` returns false. -/
theorem propagateEvent_result_witness :
    (chainGLV.propagateEvent quietWidgets 4).map (fun r => r.1) = some false ∧
    ∃ b g2 log, chainGLV.propagateEvent quietWidgets 4 = some (b, g2, log) ∧
      (b = true ↔ ∃ d ∈ log, d.result = false) ∧
      ((∀ d ∈ log, d.result = true) → b = false ∧ log.map Dispatch.view = [3, 2, 1, 0]) ∧
      (chainGLV.mFocusedView = none → b = false ∧ log = []) :=
  ⟨by rfl,
    propagateEvent_result quietWidgets quietWidgets_keepsLinks chainGLV [3, 2, 1, 0]
      (by decide) 4 (by decide)⟩

/-! ## Focus changes -/

theorem doFocusCallback_null (W : Widgets) (get : Bool) (g : GLV)
    (hf : g.mFocusedView = none) : g.doFocusCallback W get = (g, []) := by
  simp [GLV.doFocusCallback, hf]

theorem doFocusCallback_silent (W : Widgets) (get : Bool) (g : GLV) (f : ViewId)
    (hf : g.mFocusedView = some f)
    (hn : W.numCallbacks f (if get then Event.FocusGained else Event.FocusLost) = 0) :
    g.doFocusCallback W get = (g.setView f ((g.views f).focused get), []) := by
  simp [GLV.doFocusCallback, hf, hn]

theorem doFocusCallback_fires (W : Widgets) (get : Bool) (g : GLV) (f : ViewId)
    (hf : g.mFocusedView = some f)
    (hn : W.numCallbacks f (if get then Event.FocusGained else Event.FocusLost) ≠ 0) :
    g.doFocusCallback W get
      = ((((g.setView f ((g.views f).focused get)).eventType
              (if get then Event.FocusGained else Event.FocusLost)).dispatch W f
              (if get then Event.FocusGained else Event.FocusLost)).2.1,
          [(((g.setView f ((g.views f).focused get)).eventType
              (if get then Event.FocusGained else Event.FocusLost)).dispatch W f
              (if get then Event.FocusGained else Event.FocusLost)).2.2]) := by
  simp [GLV.doFocusCallback, hf, hn]

theorem doFocusCallback_log (W : Widgets) (get : Bool) (g : GLV) :
    (g.doFocusCallback W get).2.map Dispatch.key
      = focusNote W (if get then Event.FocusGained else Event.FocusLost) g.mFocusedView := by
  cases hf : g.mFocusedView with
  | none => rw [doFocusCallback_null W get g hf]; rfl
  | some f =>
    by_cases hn : W.numCallbacks f (if get then Event.FocusGained else Event.FocusLost) = 0
    · rw [doFocusCallback_silent W get g f hf hn]; simp [focusNote, hn]
    · rw [doFocusCallback_fires W get g f hf hn]
      simp [focusNote, hn, Dispatch.key, dispatch_record, GLV.eventType, GLV.setView, hf]

theorem setFocus_log (W : Widgets) (v : Option ViewId) (g : GLV) :
    (g.setFocus W v).2.map Dispatch.key
      = focusNote W Event.FocusLost g.mFocusedView ++ focusNote W Event.FocusGained v := by
  simp only [GLV.setFocus, List.map_append]
  rw [doFocusCallback_log, doFocusCallback_log]
  simp

theorem setFocus_eventType (W : Widgets) (v : Option ViewId) (g : GLV) :
    (g.setFocus W v).1.mEventType = g.mEventType := rfl

theorem runCallbacks_keepsFocus (v : ViewId) (e : Event) (l : List (Option eventCallback))
    (hl : ∀ cb, some cb ∈ l → Handler.KeepsFocus (cb v)) :
    ∀ (i : Nat) (g : GLV), (runCallbacks v e l i g).2.1.mFocusedView = g.mFocusedView := by
  induction l with
  | nil => intro i g; simp [runCallbacks]
  | cons a rest ih =>
    have hrest : ∀ cb, some cb ∈ rest → Handler.KeepsFocus (cb v) :=
      fun cb hcb => hl cb (List.mem_cons_of_mem _ hcb)
    intro i g
    cases a with
    | none => simpa [runCallbacks] using ih hrest (i + 1) g
    | some cb =>
      have hcb : Handler.KeepsFocus (cb v) := hl cb (List.mem_cons_self _ _)
      by_cases h : (cb v g).1 = true
      · simp only [runCallbacks, h, if_true]
        rw [ih hrest (i + 1) (cb v g).2]
        exact hcb g
      · simp only [runCallbacks, h]
        simpa using hcb g

theorem doEventCallbacks_keepsFocus (W : Widgets) (hW : W.KeepsFocus) (v : ViewId) (e : Event)
    (g : GLV) : (g.doEventCallbacks W v e).2.1.mFocusedView = g.mFocusedView := by
  cases hc : (g.views v).enabled Property.Controllable with
  | false => simp [GLV.doEventCallbacks, hc]
  | true =>
    have hhook := hW.1 v e g
    cases hh : (W.onEvent v e g).1 with
    | false => rw [doEventCallbacks_hook_false W v e g hc hh]; exact hhook
    | true =>
      cases hl : W.callbackLists v e with
      | none => rw [doEventCallbacks_no_list W v e g hc hh hl]; exact hhook
      | some cbl =>
        rw [doEventCallbacks_list W v e g cbl hc hh hl]
        simp only
        rw [runCallbacks_keepsFocus v e cbl (fun cb hcb => hW.2 v e cbl cb hl hcb) 0 _]
        exact hhook

theorem doFocusCallback_keepsFocus (W : Widgets) (hW : W.KeepsFocus) (get : Bool) (g : GLV) :
    (g.doFocusCallback W get).1.mFocusedView = g.mFocusedView := by
  cases hf : g.mFocusedView with
  | none => rw [doFocusCallback_null W get g hf]; exact hf
  | some f =>
    by_cases hn : W.numCallbacks f (if get then Event.FocusGained else Event.FocusLost) = 0
    · rw [doFocusCallback_silent W get g f hf hn]; exact hf
    · rw [doFocusCallback_fires W get g f hf hn]
      simp only [dispatch_state]
      rw [doEventCallbacks_keepsFocus W hW]
      exact hf

theorem setFocus_focused (W : Widgets) (hW : W.KeepsFocus) (v : Option ViewId) (g : GLV) :
    (g.setFocus W v).1.mFocusedView = v := by
  simp only [GLV.setFocus, GLV.eventType]
  rw [doFocusCallback_keepsFocus W hW]

theorem focusWidgets_keepsFocus : focusWidgets.KeepsFocus := by
  refine ⟨fun _ _ _ => rfl, ?_⟩
  intro v e cbl cb h hmem g
  simp only [focusWidgets, Option.some.injEq] at h
  subst h
  simp only [List.mem_singleton, Option.some.injEq] at hmem
  subst hmem
  rfl

theorem doEventCallbacks_head (W : Widgets) (v : ViewId) (e : Event) (g : GLV)
    (hc : (g.views v).enabled Property.Controllable = true) :
    ∃ cbs, (g.doEventCallbacks W v e).2.2 = Call.onEvent v e (W.onEvent v e g).1 :: cbs := by
  cases hh : (W.onEvent v e g).1 with
  | false => exact ⟨[], by rw [doEventCallbacks_hook_false W v e g hc hh]⟩
  | true =>
    cases hl : W.callbackLists v e with
    | none => exact ⟨[], by rw [doEventCallbacks_no_list W v e g hc hh hl]⟩
    | some cbl => exact ⟨_, by rw [doEventCallbacks_list W v e g cbl hc hh hl]⟩

theorem focusNote_eq_nil (W : Widgets) (e : Event) (v : ViewId) :
    focusNote W e (some v) = [] ↔ W.numCallbacks v e = 0 := by
  by_cases h : W.numCallbacks v e = 0 <;> simp [focusNote, h]

/-- Counterexample to C6: A (1) is focused, controllable and has focus callbacks registered;
`setFocus(A)` makes a focus-lost and then a focus-gained dispatch on A, each invoking the
`onEvent` hook and the registered callback of A. -/
theorem setFocus_refocus_dispatches :
    focusGLV.mFocusedView = some 1 ∧
    (focusGLV.setFocus focusWidgets (some 1)).2
      = [{ view := 1, event := Event.FocusLost, focusAtEntry := some 1,
           calls := [Call.onEvent 1 Event.FocusLost true,
             Call.callback 1 Event.FocusLost 0 true],
           result := true },
         { view := 1, event := Event.FocusGained, focusAtEntry := some 1,
           calls := [Call.onEvent 1 Event.FocusGained true,
             Call.callback 1 Event.FocusGained 0 true],
           result := true }] :=
  ⟨rfl, rfl⟩

/-- C6 (amended): `setFocus(v)` with `v` the currently focused view is not special-cased. It
makes a focus-lost dispatch on `v` exactly when `v` has callbacks registered for FocusLost,
followed by a focus-gained dispatch on `v` exactly when `v` has callbacks registered for
FocusGained; there is no dispatch at all exactly when `v` has callbacks registered for
neither kind. When `v` is controllable and has FocusLost callbacks, the first dispatch invokes
the `onEvent` hook of `v`. The focused reference is `v` afterwards when no dispatch was made,
and also when the handlers do not move the focus themselves. -/
theorem setFocus_same_view (W : Widgets) (v : ViewId) (g : GLV)
    (hf : g.mFocusedView = some v) :
    (g.setFocus W (some v)).2.map Dispatch.key
      = (if W.numCallbacks v Event.FocusLost ≠ 0 then [(v, Event.FocusLost, some v)] else []) ++
        (if W.numCallbacks v Event.FocusGained ≠ 0 then [(v, Event.FocusGained, some v)]
          else []) ∧
    ((g.setFocus W (some v)).2 = [] ↔
      W.numCallbacks v Event.FocusLost = 0 ∧ W.numCallbacks v Event.FocusGained = 0) ∧
    (W.numCallbacks v Event.FocusLost ≠ 0 →
      (g.views v).enabled Property.Controllable = true →
        ∃ d rest r cbs, (g.setFocus W (some v)).2 = d :: rest ∧ d.view = v ∧
          d.event = Event.FocusLost ∧ d.calls = Call.onEvent v Event.FocusLost r :: cbs) ∧
    (W.numCallbacks v Event.FocusLost = 0 → W.numCallbacks v Event.FocusGained = 0 →
      (g.setFocus W (some v)).1.mFocusedView = some v) ∧
    (W.KeepsFocus → (g.setFocus W (some v)).1.mFocusedView = some v) := by
  have hlog := setFocus_log W (some v) g
  rw [hf] at hlog
  refine ⟨by simpa [focusNote] using hlog, ?_, ?_, ?_, ?_⟩
  · rw [← List.map_eq_nil_iff, hlog, List.append_eq_nil, focusNote_eq_nil, focusNote_eq_nil]
  · intro hn hc
    have hn2 : W.numCallbacks v (if false = true then Event.FocusGained else Event.FocusLost)
        ≠ 0 := by simpa using hn
    have hfire := doFocusCallback_fires W false g v hf hn2
    simp only [Bool.false_eq_true, if_false] at hfire
    have hc2 : ((((g.setView v ((g.views v).focused false)).eventType Event.FocusLost).views
        v).enabled Property.Controllable) = true := by
      simpa [GLV.setView, GLV.eventType, View.focused, View.enabled] using hc
    obtain ⟨cbs, hcbs⟩ := doEventCallbacks_head W v Event.FocusLost _ hc2
    refine ⟨(((g.setView v ((g.views v).focused false)).eventType Event.FocusLost).dispatch W v
        Event.FocusLost).2.2,
      (({ (g.doFocusCallback W false).1 with mFocusedView := some v } :
        GLV).doFocusCallback W true).2,
      (W.onEvent v Event.FocusLost
        ((g.setView v ((g.views v).focused false)).eventType Event.FocusLost)).1,
      cbs, ?_, rfl, rfl, ?_⟩
    · simp only [GLV.setFocus, hfire, List.singleton_append]
    · rw [dispatch_record]; exact hcbs
  · intro h1 h2
    have h1b : W.numCallbacks v (if false = true then Event.FocusGained else Event.FocusLost)
        = 0 := by simpa using h1
    have h2b : W.numCallbacks v (if true = true then Event.FocusGained else Event.FocusLost)
        = 0 := by simpa using h2
    simp only [GLV.setFocus, GLV.eventType]
    rw [doFocusCallback_silent W true _ v rfl h2b]
    rfl
  · intro hW
    exact setFocus_focused W hW (some v) g

/-- Witness of the amended C6 on the focus example, where A has callbacks for both kinds. -/
theorem setFocus_same_view_witness :
    focusGLV.mFocusedView = some 1 ∧
    (focusGLV.setFocus focusWidgets (some 1)).2.map Dispatch.key
      = [(1, Event.FocusLost, some 1), (1, Event.FocusGained, some 1)] ∧
    (focusGLV.setFocus focusWidgets (some 1)).1.mFocusedView = some 1 :=
  ⟨rfl, rfl,
    (setFocus_same_view focusWidgets 1 focusGLV rfl).2.2.2.2 focusWidgets_keepsFocus⟩

theorem doEventCallbacks_keepsFocusAt (W : Widgets) (v : ViewId) (e : Event)
    (hW : W.KeepsFocusAt v e) (g : GLV) :
    (g.doEventCallbacks W v e).2.1.mFocusedView = g.mFocusedView := by
  cases hc : (g.views v).enabled Property.Controllable with
  | false => simp [GLV.doEventCallbacks, hc]
  | true =>
    have hhook := hW.1 g
    cases hh : (W.onEvent v e g).1 with
    | false => rw [doEventCallbacks_hook_false W v e g hc hh]; exact hhook
    | true =>
      cases hl : W.callbackLists v e with
      | none => rw [doEventCallbacks_no_list W v e g hc hh hl]; exact hhook
      | some cbl =>
        rw [doEventCallbacks_list W v e g cbl hc hh hl]
        simp only
        rw [runCallbacks_keepsFocus v e cbl (fun cb hcb => hW.2 cbl cb hl hcb) 0 _]
        exact hhook

theorem setFocus_focused_at (W : Widgets) (v : Option ViewId) (g : GLV)
    (hW : ∀ u, v = some u → W.KeepsFocusAt u Event.FocusGained) :
    (g.setFocus W v).1.mFocusedView = v := by
  simp only [GLV.setFocus, GLV.eventType]
  cases v with
  | none => rw [doFocusCallback_null W true _ rfl]
  | some u =>
    by_cases hn : W.numCallbacks u (if true = true then Event.FocusGained else Event.FocusLost)
        = 0
    · rw [doFocusCallback_silent W true _ u rfl hn]
      rfl
    · rw [doFocusCallback_fires W true _ u rfl hn]
      simp only [dispatch_state, if_true]
      rw [doEventCallbacks_keepsFocusAt W u Event.FocusGained (hW u rfl)]
      rfl

theorem keepsFocusAt_of_keepsFocus (W : Widgets) (hW : W.KeepsFocus) (v : ViewId)
    (e : Event) : W.KeepsFocusAt v e :=
  ⟨hW.1 v e, fun cbl cb h hm => hW.2 v e cbl cb h hm⟩

/-- The call `setFocus(root)` made by the FocusGained callback of B finds no focus callback
to run, whatever the state: no view has FocusLost callbacks and the root has none for
FocusGained. It is the same with these widgets as with none registered at all, which is how
the callback is written down. -/
theorem setFocus_root_refocus (g : GLV) :
    g.setFocus refocusWidgets (some 0) = g.setFocus quietWidgets (some 0) := by
  have hlost : ∀ f, refocusWidgets.numCallbacks f
      (if false = true then Event.FocusGained else Event.FocusLost) = 0 := by
    intro f
    simp [Widgets.numCallbacks, refocusWidgets]
  have hgain : refocusWidgets.numCallbacks 0
      (if true = true then Event.FocusGained else Event.FocusLost) = 0 := by
    simp [Widgets.numCallbacks, refocusWidgets]
  have hq : ∀ f get, quietWidgets.numCallbacks f
      (if get = true then Event.FocusGained else Event.FocusLost) = 0 := by
    intro f get
    simp [Widgets.numCallbacks, quietWidgets]
  have h1 : g.doFocusCallback refocusWidgets false = g.doFocusCallback quietWidgets false := by
    cases hf : g.mFocusedView with
    | none => rw [doFocusCallback_null _ _ _ hf, doFocusCallback_null _ _ _ hf]
    | some f =>
      rw [doFocusCallback_silent _ _ _ f hf (hlost f),
        doFocusCallback_silent _ _ _ f hf (hq f false)]
  simp only [GLV.setFocus, h1]
  rw [doFocusCallback_silent refocusWidgets true _ 0 rfl hgain,
    doFocusCallback_silent quietWidgets true _ 0 rfl (hq 0 true)]

/-- Counterexample to C7: C (3) is focused and B (2) has a FocusGained callback that calls
`setFocus(root)`. The call `setFocus(B)` runs that callback after it has made B the focused
view, and when it returns the focused view is the root (0), not B. The event kind is the
key-down held before the call. -/
theorem setFocus_handler_moves_focus :
    chainGLV.mFocusedView = some 3 ∧
    (chainGLV.setFocus refocusWidgets (some 2)).2
      = [{ view := 2, event := Event.FocusGained, focusAtEntry := some 2,
           calls := [Call.onEvent 2 Event.FocusGained true,
             Call.callback 2 Event.FocusGained 0 true],
           result := true }] ∧
    (chainGLV.setFocus refocusWidgets (some 2)).1.mFocusedView = some 0 ∧
    (chainGLV.setFocus refocusWidgets (some 2)).1.mFocusedView ≠ some 2 ∧
    (chainGLV.setFocus refocusWidgets (some 2)).1.mEventType = Event.KeyDown := by
  refine ⟨rfl, rfl, rfl, ?_, rfl⟩
  have h : (chainGLV.setFocus refocusWidgets (some 2)).1.mFocusedView = some 0 := rfl
  rw [h]
  decide

/-- C7 (amended): after `setFocus(v)` the current event kind is the one held immediately
before the call, whatever the focus hooks and callbacks did to the event kind in between (no
assumption on the handlers); the focused view is `v` provided the FocusGained hook and
callbacks of `v` do not themselves change the focused view (nothing is asked of any other
handler); and after `setMouseDown` the event kind is MouseDown, whatever the target found and
whatever the handlers did. -/
theorem setFocus_restores_eventType (W : Widgets) (v : Option ViewId) (g : GLV) :
    (g.setFocus W v).1.mEventType = g.mEventType ∧
    ((∀ u, v = some u → W.KeepsFocusAt u Event.FocusGained) →
      (g.setFocus W v).1.mFocusedView = v) ∧
    (∀ (findTarget : GLV → space_t → space_t → Option ViewId × space_t × space_t)
        (x y : space_t) (button clicks : Int),
      (g.setMouseDown W findTarget x y button clicks).1.mEventType = Event.MouseDown) :=
  ⟨setFocus_eventType W v g, fun hW => setFocus_focused_at W v g hW,
    fun _ _ _ _ _ => rfl⟩

/-- Witness of the amended C7 on the focus example: the focus-lost handlers of A leave the
event kind at key-up, and still after `setFocus(B)` the event kind is the mouse-down held
before and B is focused. -/
theorem setFocus_restores_eventType_witness :
    focusGLV.mEventType = Event.MouseDown ∧
    (focusGLV.doFocusCallback focusWidgets false).1.mEventType = Event.KeyUp ∧
    (focusGLV.setFocus focusWidgets (some 2)).1.mEventType = Event.MouseDown ∧
    (focusGLV.setFocus focusWidgets (some 2)).1.mFocusedView = some 2 :=
  ⟨rfl, rfl, (setFocus_restores_eventType focusWidgets (some 2) focusGLV).1,
    (setFocus_restores_eventType focusWidgets (some 2) focusGLV).2.1
      (fun u _ => keepsFocusAt_of_keepsFocus focusWidgets focusWidgets_keepsFocus u
        Event.FocusGained)⟩

/-- Counterexample to C8: C (3) is focused, B (2) is a different view, and neither has focus
callbacks registered; `setFocus(B)` makes no dispatch at all, so there is no focus-lost
dispatch on C and no focus-gained dispatch on B, although the focus moves to B. -/
theorem setFocus_without_callbacks_silent :
    chainGLV.mFocusedView = some 3 ∧
    (chainGLV.setFocus quietWidgets (some 2)).2 = [] ∧
    (chainGLV.setFocus quietWidgets (some 2)).1.mFocusedView = some 2 :=
  ⟨rfl, rfl, rfl⟩

/-- C8 (amended): the call `setFocus(B)` made while `A` is focused makes a FocusLost dispatch
on `A` exactly when `A` has callbacks registered for FocusLost (and then exactly one), followed
by a FocusGained dispatch on `B` exactly when `B` has callbacks registered for FocusGained
(and then exactly one), and no dispatch on any other view, so neither dispatch bubbles to
ancestors; the FocusLost dispatch is entered while `A` is still the focused view and the
FocusGained dispatch once `B` is. -/
theorem setFocus_notifications (W : Widgets) (A B : ViewId) (g : GLV)
    (hA : g.mFocusedView = some A) :
    (g.setFocus W (some B)).2.map Dispatch.key
      = (if W.numCallbacks A Event.FocusLost ≠ 0 then [(A, Event.FocusLost, some A)] else []) ++
        (if W.numCallbacks B Event.FocusGained ≠ 0 then [(B, Event.FocusGained, some B)]
          else []) := by
  have hlog := setFocus_log W (some B) g
  rw [hA] at hlog
  simpa [focusNote] using hlog

/-- Witness of the amended C8 on the focus example, where A (1) and B (2) both have focus
callbacks: one focus-lost dispatch on A, then one focus-gained dispatch on B. -/
theorem setFocus_notifications_witness :
    focusGLV.mFocusedView = some 1 ∧
    focusWidgets.numCallbacks 1 Event.FocusLost = 1 ∧
    focusWidgets.numCallbacks 2 Event.FocusGained = 1 ∧
    (focusGLV.setFocus focusWidgets (some 2)).2.map Dispatch.key
      = [(1, Event.FocusLost, some 1), (2, Event.FocusGained, some 2)] :=
  ⟨rfl, rfl, rfl, setFocus_notifications focusWidgets 1 2 focusGLV rfl⟩

/-! ## The instance registry -/

theorem dtorLoop_past_end (this : GLVPtr) (fuel i : Nat) (instances : List GLVPtr)
    (h : instances.length ≤ i) : dtorLoop this fuel i instances = instances := by
  cases fuel with
  | zero => rfl
  | succ n => simp [dtorLoop, Nat.not_lt.mpr h]

theorem dtorScan_cons_ne (this x : GLVPtr) (rest : List GLVPtr) (h : x ≠ this) :
    dtorScan this (x :: rest) = x :: dtorScan this rest := by
  cases rest with
  | nil => simp [dtorScan, h]
  | cons y r => simp [dtorScan, h]

theorem dtorScan_cons_self (this : GLVPtr) (rest : List GLVPtr) :
    dtorScan this (this :: rest) = rest.take 1 ++ dtorScan this (rest.drop 1) := by
  cases rest with
  | nil => simp [dtorScan]
  | cons y r => simp [dtorScan]

theorem dtorLoop_eq_scan (this : GLVPtr) :
    ∀ (fuel : Nat) (pre suf : List GLVPtr), suf.length ≤ fuel →
      dtorLoop this fuel pre.length (pre ++ suf) = pre ++ dtorScan this suf := by
  intro fuel
  induction fuel with
  | zero =>
    intro pre suf h
    have : suf = [] := List.length_eq_zero.mp (Nat.le_zero.mp h)
    subst this
    simp [dtorLoop, dtorScan]
  | succ n ih =>
    intro pre suf h
    cases suf with
    | nil => simp [dtorLoop, dtorScan]
    | cons x rest =>
      have hrest : rest.length ≤ n := by simpa using h
      have hlt : pre.length < (pre ++ x :: rest).length := by simp
      have hget : (pre ++ x :: rest).get? pre.length = some x := by
        rw [List.get?_eq_getElem?, List.getElem?_append_right (Nat.le_refl _)]
        simp
      by_cases hx : x = this
      · subst hx
        have herase : (pre ++ x :: rest).eraseIdx pre.length = pre ++ rest := by
          rw [List.eraseIdx_append_of_length_le (Nat.le_refl _)]
          simp
        rw [dtorLoop, if_pos hlt, if_pos hget, herase, dtorScan_cons_self]
        cases rest with
        | nil =>
          rw [dtorLoop_past_end]
          · simp [dtorScan]
          · simp
        | cons y r =>
          have hr : r.length ≤ n := by simp at hrest; omega
          have := ih (pre ++ [y]) r hr
          simpa using this
      · have hne : ¬ ((pre ++ x :: rest).get? pre.length = some this) := by
          rw [hget]; simpa using hx
        rw [dtorLoop, if_pos hlt, if_neg hne, dtorScan_cons_ne this x rest hx]
        have := ih (pre ++ [x]) rest hrest
        simpa using this

theorem dtor_eq_scan (this : GLVPtr) (instances : List GLVPtr) :
    GLV.dtor this instances = dtorScan this instances := by
  have := dtorLoop_eq_scan this instances.length [] instances (Nat.le_refl _)
  simpa [GLV.dtor] using this

theorem dtorScan_of_not_mem (this : GLVPtr) (l : List GLVPtr) (h : this ∉ l) :
    dtorScan this l = l := by
  induction l with
  | nil => rfl
  | cons x rest ih =>
    have hx : x ≠ this := fun hx => h (hx ▸ List.mem_cons_self _ _)
    rw [dtorScan_cons_ne this x rest hx, ih (fun hm => h (List.mem_cons_of_mem _ hm))]

theorem dtorScan_filter (this : GLVPtr) :
    ∀ (n : Nat) (l : List GLVPtr), l.length ≤ n →
      (dtorScan this l).filter (fun x => decide (x ≠ this))
        = l.filter (fun x => decide (x ≠ this)) := by
  intro n
  induction n with
  | zero =>
    intro l h
    have : l = [] := List.length_eq_zero.mp (Nat.le_zero.mp h)
    subst this
    rfl
  | succ n ih =>
    intro l h
    cases l with
    | nil => rfl
    | cons x rest =>
      have hrest : rest.length ≤ n := by simpa using h
      by_cases hx : x = this
      · subst hx
        cases rest with
        | nil => simp [dtorScan]
        | cons y r =>
          have hr : r.length ≤ n := by simp at hrest; omega
          simp only [dtorScan, if_true, List.filter_cons, ih r hr]
          simp
      · rw [dtorScan_cons_ne this x rest hx]
        simp only [List.filter_cons, ih rest hrest]

theorem dtorScan_sublist (this : GLVPtr) :
    ∀ (n : Nat) (l : List GLVPtr), l.length ≤ n → (dtorScan this l).Sublist l := by
  intro n
  induction n with
  | zero =>
    intro l h
    have : l = [] := List.length_eq_zero.mp (Nat.le_zero.mp h)
    subst this
    exact List.Sublist.refl _
  | succ n ih =>
    intro l h
    cases l with
    | nil => exact List.Sublist.refl _
    | cons x rest =>
      have hrest : rest.length ≤ n := by simpa using h
      by_cases hx : x = this
      · subst hx
        cases rest with
        | nil => simp [dtorScan]
        | cons y r =>
          have hr : r.length ≤ n := by simp at hrest; omega
          simp only [dtorScan, if_true]
          exact List.Sublist.cons _ (List.Sublist.cons₂ _ (ih r hr))
      · rw [dtorScan_cons_ne this x rest hx]
        exact List.Sublist.cons₂ _ (ih rest hrest)

theorem dtorScan_sublist_erase (this : GLVPtr) (l : List GLVPtr) :
    (dtorScan this l).Sublist (l.erase this) := by
  induction l with
  | nil => exact List.Sublist.refl _
  | cons x rest ih =>
    by_cases hx : x = this
    · subst hx
      rw [List.erase_cons_head]
      cases rest with
      | nil => simp [dtorScan]
      | cons y r =>
        simp only [dtorScan, if_true]
        exact List.Sublist.cons₂ _ (dtorScan_sublist x r.length r (Nat.le_refl _))
    · rw [dtorScan_cons_ne this x rest hx, List.erase_cons_tail (by simpa using hx)]
      exact List.Sublist.cons₂ _ ih

theorem dtorScan_of_count_le_one (this : GLVPtr) (l : List GLVPtr)
    (h : l.count this ≤ 1) : dtorScan this l = l.erase this := by
  induction l with
  | nil => rfl
  | cons x rest ih =>
    by_cases hx : x = this
    · subst hx
      have hc : rest.count x = 0 := by simp at h; exact h
      have hnot : x ∉ rest := List.count_eq_zero.mp hc
      rw [List.erase_cons_head, dtorScan_cons_self]
      rw [dtorScan_of_not_mem x (rest.drop 1) (fun hm => hnot (List.mem_of_mem_drop hm))]
      exact List.take_append_drop 1 rest
    · have hc : rest.count this ≤ 1 := by
        rw [List.count_cons_of_ne (fun hthis => hx hthis.symm)] at h
        exact h
      rw [dtorScan_cons_ne this x rest hx, List.erase_cons_tail (by simpa using hx), ih hc]

theorem valid_iff_mem (g : GLVPtr) (l : List GLVPtr) : GLV.valid g l = true ↔ g ∈ l := by
  induction l with
  | nil => simp [GLV.valid]
  | cons x rest ih =>
    by_cases hx : x = g
    · simp [GLV.valid, hx]
    · have hne : g ≠ x := fun h => hx h.symm
      simp [GLV.valid, hx, ih, hne]

theorem runOps_snoc (hist : List RegistryOp) (op : RegistryOp) (instances : List GLVPtr) :
    runOps (hist ++ [op]) instances = op.apply (runOps hist instances) := by
  simp [runOps, List.foldl_append]

theorem isLive_snoc_construct (g h : GLVPtr) (hist : List RegistryOp) :
    isLive g (hist ++ [RegistryOp.construct h]) = if h = g then true else isLive g hist := by
  simp [isLive, List.foldl_append]

theorem isLive_snoc_destroy (g h : GLVPtr) (hist : List RegistryOp) :
    isLive g (hist ++ [RegistryOp.destroy h]) = if h = g then false else isLive g hist := by
  simp [isLive, List.foldl_append]

theorem dtor_of_nodup (this : GLVPtr) (instances : List GLVPtr) (h : instances.Nodup) :
    GLV.dtor this instances = instances.erase this := by
  rw [dtor_eq_scan]
  exact dtorScan_of_count_le_one this instances (List.nodup_iff_count_le_one.mp h this)

theorem registry_invariant (ops : List RegistryOp) :
    ∀ hist : List RegistryOp, lifetimesOk hist ops = true →
      ((runOps hist []).Nodup ∧ ∀ g, g ∈ runOps hist [] ↔ isLive g hist = true) →
      ((runOps (hist ++ ops) []).Nodup ∧
        ∀ g, g ∈ runOps (hist ++ ops) [] ↔ isLive g (hist ++ ops) = true) := by
  induction ops with
  | nil => intro hist _ hinv; simpa using hinv
  | cons op rest ih =>
    intro hist hok hinv
    obtain ⟨hnd, hmem⟩ := hinv
    have hsplit : hist ++ op :: rest = (hist ++ [op]) ++ rest := by simp
    rw [hsplit]
    cases op with
    | construct h =>
      simp only [lifetimesOk, Bool.and_eq_true, Bool.not_eq_true'] at hok
      obtain ⟨hdead, hok⟩ := hok
      have hnot : h ∉ runOps hist [] := by
        intro hin
        rw [(hmem h).mp hin] at hdead
        exact absurd hdead (by decide)
      refine ih (hist ++ [RegistryOp.construct h]) hok ⟨?_, ?_⟩
      · rw [runOps_snoc]
        simp only [RegistryOp.apply, GLV.ctor]
        exact List.Nodup.append hnd (List.nodup_singleton h) (by simpa using hnot)
      · intro g
        rw [runOps_snoc, isLive_snoc_construct]
        simp only [RegistryOp.apply, GLV.ctor, List.mem_append, List.mem_singleton]
        by_cases hg : h = g
        · simp [hg]
        · have hg2 : g ≠ h := fun e => hg e.symm
          simp [hg, hg2, hmem g]
    | destroy h =>
      simp only [lifetimesOk] at hok
      refine ih (hist ++ [RegistryOp.destroy h]) hok ⟨?_, ?_⟩
      · rw [runOps_snoc]
        simp only [RegistryOp.apply]
        rw [dtor_of_nodup h _ hnd]
        exact hnd.erase h
      · intro g
        rw [runOps_snoc, isLive_snoc_destroy]
        simp only [RegistryOp.apply]
        rw [dtor_of_nodup h _ hnd, hnd.mem_erase_iff]
        by_cases hg : h = g
        · simp [hg]
        · have hg2 : g ≠ h := fun e => hg e.symm
          simp [hg, hg2, hmem g]

/-- C9: along every sequence of constructions and destructions that starts from the empty
registry and respects object lifetimes (an object is constructed only at an address that
holds no live object), `valid(g)` is true exactly when `g` has been constructed and not yet
destroyed, and the registry holds every live instance exactly once and nothing else. -/
theorem valid_iff_live (ops : List RegistryOp) (hok : lifetimesOk [] ops = true)
    (g : GLVPtr) :
    GLV.valid g (runOps ops []) = isLive g ops ∧
    (runOps ops []).count g = if isLive g ops = true then 1 else 0 := by
  have hinv := registry_invariant ops [] hok
    ⟨by simp [runOps], fun g => by simp [runOps, isLive]⟩
  simp only [List.nil_append] at hinv
  obtain ⟨hnd, hmem⟩ := hinv
  constructor
  · cases hl : isLive g ops with
    | true => exact (valid_iff_mem g _).mpr ((hmem g).mpr hl)
    | false =>
      cases hv : GLV.valid g (runOps ops []) with
      | false => rfl
      | true =>
        have := (hmem g).mp ((valid_iff_mem g _).mp hv)
        rw [hl] at this
        exact absurd this (by decide)
  · by_cases hl : isLive g ops = true
    · rw [if_pos hl]
      exact List.count_eq_one_of_mem hnd ((hmem g).mpr hl)
    · rw [if_neg hl]
      exact List.count_eq_zero.mpr (fun hin => hl ((hmem g).mp hin))

/-- Witness of C9, the example of the claim: after constructing G1 (address 1) and G2
(address 2) `valid(G1)` is true; after destroying G1 `valid(G1)` is false and `valid(G2)` is
still true. -/
theorem valid_iff_live_witness :
    lifetimesOk []
      [RegistryOp.construct 1, RegistryOp.construct 2, RegistryOp.destroy 1] = true ∧
    GLV.valid 1 (runOps [RegistryOp.construct 1, RegistryOp.construct 2] []) = true ∧
    GLV.valid 2
      (runOps [RegistryOp.construct 1, RegistryOp.construct 2, RegistryOp.destroy 1] [])
        = true ∧
    (GLV.valid 1
        (runOps [RegistryOp.construct 1, RegistryOp.construct 2, RegistryOp.destroy 1] [])
          = isLive 1 [RegistryOp.construct 1, RegistryOp.construct 2, RegistryOp.destroy 1] ∧
      (runOps [RegistryOp.construct 1, RegistryOp.construct 2, RegistryOp.destroy 1] []).count 1
        = if isLive 1 [RegistryOp.construct 1, RegistryOp.construct 2, RegistryOp.destroy 1]
            = true then 1 else 0) ∧
    isLive 1 [RegistryOp.construct 1, RegistryOp.construct 2, RegistryOp.destroy 1] = false :=
  ⟨by decide, by decide, by decide,
    valid_iff_live [RegistryOp.construct 1, RegistryOp.construct 2, RegistryOp.destroy 1]
      (by decide) 1,
    by decide⟩

/-- Counterexample to C10: in the registry holding G, H, G (addresses 7, 3, 7) the destructor
of G erases both entries equal to G, so the length decreases by two and not by one. -/
theorem dtor_erases_two :
    (7 : GLVPtr) ∈ ([7, 3, 7] : List GLVPtr) ∧
    GLV.dtor 7 [7, 3, 7] = [3] ∧
    (GLV.dtor 7 [7, 3, 7]).length + 1 ≠ ([7, 3, 7] : List GLVPtr).length := by
  decide

/-- C10 (amended): for every registry content in which `g` occurs, the destructor of `g`
removes the first entry equal to `g` and never an entry different from `g`: the entries other
than `g` are all kept, in their original relative order, and what is left is a sublist of the
registry without the first occurrence of `g`, so the length decreases by at least one. When
`g` occurs exactly once, exactly that entry is removed and the length decreases by exactly
one. -/
theorem dtor_removes (g : GLVPtr) (instances : List GLVPtr) (hg : g ∈ instances) :
    (GLV.dtor g instances).filter (fun x => decide (x ≠ g))
      = instances.filter (fun x => decide (x ≠ g)) ∧
    (GLV.dtor g instances).Sublist (instances.erase g) ∧
    (GLV.dtor g instances).length + 1 ≤ instances.length ∧
    (instances.count g = 1 →
      GLV.dtor g instances = instances.erase g ∧
      (GLV.dtor g instances).length + 1 = instances.length) := by
  have hlen : (instances.erase g).length + 1 = instances.length := by
    rw [List.length_erase_of_mem hg]
    have : 0 < instances.length := List.length_pos_of_mem hg
    omega
  have hsub : (GLV.dtor g instances).Sublist (instances.erase g) := by
    rw [dtor_eq_scan]; exact dtorScan_sublist_erase g instances
  refine ⟨?_, hsub, ?_, ?_⟩
  · rw [dtor_eq_scan]
    exact dtorScan_filter g instances.length instances (Nat.le_refl _)
  · have := hsub.length_le
    omega
  · intro hc
    have heq : GLV.dtor g instances = instances.erase g := by
      rw [dtor_eq_scan]
      exact dtorScan_of_count_le_one g instances (by omega)
    exact ⟨heq, by rw [heq]; exact hlen⟩

/-- Witness of the amended C10: in the registry holding addresses 5, 7, 3 the destructor of
the object at 7 leaves 5, 3. -/
theorem dtor_removes_witness :
    GLV.dtor 7 [5, 7, 3] = [5, 3] ∧
    (GLV.dtor 7 [5, 7, 3]).filter (fun x => decide (x ≠ 7))
      = ([5, 7, 3] : List GLVPtr).filter (fun x => decide (x ≠ 7)) ∧
    (GLV.dtor 7 [5, 7, 3]).Sublist (([5, 7, 3] : List GLVPtr).erase 7) ∧
    (GLV.dtor 7 [5, 7, 3]).length + 1 ≤ ([5, 7, 3] : List GLVPtr).length ∧
    (([5, 7, 3] : List GLVPtr).count 7 = 1 →
      GLV.dtor 7 [5, 7, 3] = ([5, 7, 3] : List GLVPtr).erase 7 ∧
      (GLV.dtor 7 [5, 7, 3]).length + 1 = ([5, 7, 3] : List GLVPtr).length) :=
  ⟨by decide, dtor_removes 7 [5, 7, 3] (by decide)⟩

/-! ## The draw loop, step by step -/

theorem drawWidgets_eq (g : GLV) (this : ViewId) (w h fuel : Nat) :
    g.drawWidgets this w h fuel = drawLoop g.views this fuel false (drawStart this w h) := rfl

theorem paintAt_cv (views : ViewId → View) (s : DrawState) (v : ViewId) (ax ay : space_t)
    (k : Int) : (s.paintAt views v ax ay k).cv = v := by
  unfold DrawState.paintAt DrawState.drawCurrent
  split <;> rfl

theorem paintAt_cx (views : ViewId → View) (s : DrawState) (v : ViewId) (ax ay : space_t)
    (k : Int) : (s.paintAt views v ax ay k).cx = ax := by
  unfold DrawState.paintAt DrawState.drawCurrent
  split <;> rfl

theorem paintAt_cy (views : ViewId → View) (s : DrawState) (v : ViewId) (ax ay : space_t)
    (k : Int) : (s.paintAt views v ax ay k).cy = ay := by
  unfold DrawState.paintAt DrawState.drawCurrent
  split <;> rfl

theorem paintAt_lvl (views : ViewId → View) (s : DrawState) (v : ViewId) (ax ay : space_t)
    (k : Int) : (s.paintAt views v ax ay k).lvl = k := by
  unfold DrawState.paintAt DrawState.drawCurrent
  split <;> rfl

theorem paintAt_moveTo (views : ViewId → View) (s : DrawState) (u : ViewId) (bx level : Int)
    (v : ViewId) (ax ay : space_t) (k : Int) (by1 : space_t) :
    (s.moveTo u bx by1 level).paintAt views v ax ay k = s.paintAt views v ax ay k := rfl

theorem drawLoop_descend (views : ViewId → View) (root : ViewId) (fuel : Nat) (s : DrawState)
    (c : ViewId) (hc : (views s.cv).child = some c) (hv : (views s.cv).visible = true) :
    drawLoop views root (fuel + 1) false s
      = drawLoop views root fuel false
          (s.paintAt views c (s.cx + (views c).l) (s.cy + (views c).t) (s.lvl + 1)) := by
  simp only [drawLoop, hc, hv]
  rfl

theorem drawLoop_sibling (views : ViewId → View) (root : ViewId) (fuel : Nat) (s : DrawState)
    (sb : ViewId) (hskip : (views s.cv).child = none ∨ (views s.cv).visible = false)
    (hs : (views s.cv).sibling = some sb) :
    drawLoop views root (fuel + 1) false s
      = drawLoop views root fuel false
          (s.paintAt views sb (s.cx + ((views sb).l - (views s.cv).l))
            (s.cy + ((views sb).t - (views s.cv).t)) s.lvl) := by
  rcases hskip with hc | hv
  · simp only [drawLoop, hc, hs]
    rfl
  · cases hch : (views s.cv).child <;> simp only [drawLoop, hch, hv, hs] <;> rfl

theorem drawLoop_retrace (views : ViewId → View) (root : ViewId) (fuel : Nat) (s : DrawState)
    (hskip : (views s.cv).child = none ∨ (views s.cv).visible = false)
    (hs : (views s.cv).sibling = none) :
    drawLoop views root (fuel + 1) false s = drawLoop views root fuel true s := by
  rcases hskip with hc | hv
  · simp only [drawLoop, hc, hs]
  · cases hch : (views s.cv).child <;> simp only [drawLoop, hch, hv, hs]

theorem drawLoop_up (views : ViewId → View) (root : ViewId) (fuel : Nat) (s : DrawState)
    (p : ViewId) (hr : s.cv ≠ root) (hs : (views s.cv).sibling = none)
    (hp : (views s.cv).parent = some p) :
    drawLoop views root (fuel + 1) true s
      = drawLoop views root fuel true
          (s.moveTo p (s.cx + -(views s.cv).l) (s.cy + -(views s.cv).t) (s.lvl - 1)) := by
  simp only [drawLoop, hr, hs, hp, ne_eq, not_false_eq_true, and_self, if_true]
  rfl

theorem drawLoop_across (views : ViewId → View) (root : ViewId) (fuel : Nat) (s : DrawState)
    (sb : ViewId) (hs : (views s.cv).sibling = some sb) :
    drawLoop views root (fuel + 1) true s
      = drawLoop views root fuel false
          (s.paintAt views sb (s.cx + ((views sb).l - (views s.cv).l))
            (s.cy + ((views sb).t - (views s.cv).t)) s.lvl) := by
  have hcond : ¬ (s.cv ≠ root ∧ (views s.cv).sibling = none) := by
    rw [hs]; simp
  rw [drawLoop, if_neg hcond]
  simp only [hs]
  rfl

theorem drawLoop_break (views : ViewId → View) (root : ViewId) (fuel : Nat) (s : DrawState)
    (hr : s.cv = root) (hs : (views s.cv).sibling = none) :
    drawLoop views root (fuel + 1) true s = some s := by
  have hcond : ¬ (s.cv ≠ root ∧ (views s.cv).sibling = none) := by
    simp [hr]
  rw [drawLoop, if_neg hcond]
  simp only [hs]

/-! ## The draw loop follows the tree -/

theorem conforms_node (views : ViewId → View) (v : ViewId) (c s : Forest) (p : ViewId) :
    (Forest.node v c s).conforms views p = true ↔
      (views v).parent = some p ∧ (views v).child = c.first ∧ (views v).sibling = s.first ∧
        c.conforms views v = true ∧ s.conforms views p = true := by
  simp [Forest.conforms, and_assoc]

theorem paintAt_self (views : ViewId → View) (s : DrawState) (v : ViewId) (ax ay : space_t)
    (k : Int) :
    (s.paintAt views v ax ay k).moveTo v ax ay k = s.paintAt views v ax ay k := by
  unfold DrawState.paintAt DrawState.drawCurrent
  split <;> rfl

theorem moveTo_congr (a : DrawState) (v : ViewId) (x1 x2 y1 y2 : space_t) (k1 k2 : Int)
    (hx : x1 = x2) (hy : y1 = y2) (hk : k1 = k2) :
    a.moveTo v x1 y1 k1 = a.moveTo v x2 y2 k2 := by
  subst hx hy hk; rfl

theorem paintAt_congr (views : ViewId → View) (a : DrawState) (v : ViewId)
    (x1 x2 y1 y2 : space_t) (k1 k2 : Int) (hx : x1 = x2) (hy : y1 = y2) (hk : k1 = k2) :
    a.paintAt views v x1 y1 k1 = a.paintAt views v x2 y2 k2 := by
  subst hx hy hk; rfl

/-- From a view `x` on which the loop has arrived and whose children are done with (state
`a`, retracing), the loop goes through the siblings of `x` and ends up retracing on the
parent. -/
theorem drawLoop_siblings (views : ViewId → View) (root : ViewId) (x p : ViewId)
    (sibs : Forest) (k : Int) (px py : space_t) (a : DrawState)
    (hx : x ≠ root) (hp : (views x).parent = some p) (hs : (views x).sibling = sibs.first)
    (ih : ∀ sb c2 s2, sibs = Forest.node sb c2 s2 →
      ∃ n, ∀ fuel,
        drawLoop views root (fuel + n) false
            (a.paintAt views sb (px + (views sb).l) (py + (views sb).t) k)
          = drawLoop views root fuel true ((sibs.draw views k px py a).moveTo p px py (k - 1))) :
    ∃ n, ∀ fuel,
      drawLoop views root (fuel + n) true
          (a.moveTo x (px + (views x).l) (py + (views x).t) k)
        = drawLoop views root fuel true ((sibs.draw views k px py a).moveTo p px py (k - 1)) := by
  cases sibs with
  | nil =>
    refine ⟨1, fun fuel => ?_⟩
    rw [drawLoop_up views root fuel _ p hx hs hp]
    simp only [Forest.draw]
    exact congrArg _ (moveTo_congr a p _ _ _ _ _ _ (by simp [DrawState.moveTo])
      (by simp [DrawState.moveTo]) (by simp [DrawState.moveTo]))
  | node sb c2 s2 =>
    obtain ⟨n, hn⟩ := ih sb c2 s2 rfl
    refine ⟨n + 1, fun fuel => ?_⟩
    rw [← Nat.add_assoc, drawLoop_across views root (fuel + n) _ sb hs, ← hn fuel]
    exact congrArg _ (paintAt_congr views a sb _ _ _ _ _ _
      (by simp only [DrawState.moveTo]; ring) (by simp only [DrawState.moveTo]; ring) rfl)

theorem drawLoop_forest (views : ViewId → View) (root : ViewId) (F : Forest) :
    ∀ (p : ViewId) (k : Int) (px py : space_t) (s : DrawState),
      F.conforms views p = true → root ∉ F.ids →
      ∀ x C S, F = Forest.node x C S →
      ∃ n, ∀ fuel,
        drawLoop views root (fuel + n) false
            (s.paintAt views x (px + (views x).l) (py + (views x).t) k)
          = drawLoop views root fuel true ((F.draw views k px py s).moveTo p px py (k - 1)) := by
  induction F with
  | nil => intro p k px py s _ _ x C S h; cases h
  | node v c sibs ihc ihs =>
    intro p k px py s hconf hroot x C S hF
    injection hF with h1 h2 h3
    subst h1 h2 h3
    rw [conforms_node] at hconf
    obtain ⟨hp, hch, hsib, hcc, hcs⟩ := hconf
    simp only [Forest.ids, List.mem_cons, List.mem_append, not_or] at hroot
    obtain ⟨hx, hrc, hrs⟩ := hroot
    have hx2 : v ≠ root := fun h => hx h.symm
    have hsibs : ∀ a : DrawState, ∃ n, ∀ fuel,
        drawLoop views root (fuel + n) true
            (a.moveTo v (px + (views v).l) (py + (views v).t) k)
          = drawLoop views root fuel true ((sibs.draw views k px py a).moveTo p px py (k - 1)) :=
      fun a => drawLoop_siblings views root v p sibs k px py a hx2 hp hsib
        (fun sb c2 s2 h => ihs p k px py a hcs hrs sb c2 s2 h)
    by_cases hdesc : c ≠ Forest.nil ∧ (views v).visible = true
    · obtain ⟨hne, hvis⟩ := hdesc
      cases c with
      | nil => exact absurd rfl hne
      | node cc c1 s1 =>
        obtain ⟨nC, hC⟩ := ihc v (k + 1) (px + (views v).l) (py + (views v).t)
          (s.paintAt views v (px + (views v).l) (py + (views v).t) k) hcc hrc cc c1 s1 rfl
        obtain ⟨nS, hS⟩ := hsibs ((Forest.node cc c1 s1).draw views (k + 1)
          (px + (views v).l) (py + (views v).t)
          (s.paintAt views v (px + (views v).l) (py + (views v).t) k))
        refine ⟨nS + nC + 1, fun fuel => ?_⟩
        have hfuel : fuel + (nS + nC + 1) = (fuel + nS + nC) + 1 := by omega
        rw [hfuel, drawLoop_descend views root (fuel + nS + nC) _ cc
          (by rw [paintAt_cv]; exact hch) (by rw [paintAt_cv]; exact hvis)]
        rw [paintAt_cx, paintAt_cy, paintAt_lvl, hC (fuel + nS)]
        have hk : k + 1 - 1 = k := by omega
        rw [hk, hS fuel]
        simp only [Forest.draw, hvis, if_true]
    · have hskip : (views v).child = none ∨ (views v).visible = false := by
        by_cases hvis : (views v).visible = true
        · left
          have hc : c = Forest.nil := by
            by_contra hne
            exact hdesc ⟨hne, hvis⟩
          rw [hch, hc]; rfl
        · right; simpa using hvis
      have hdraw : (Forest.node v c sibs).draw views k px py s
          = sibs.draw views k px py
              (s.paintAt views v (px + (views v).l) (py + (views v).t) k) := by
        by_cases hvis : (views v).visible = true
        · have hc : c = Forest.nil := by
            by_contra hne
            exact hdesc ⟨hne, hvis⟩
          subst hc
          simp only [Forest.draw, hvis, if_true]
        · simp only [Forest.draw, hvis]
          rfl
      rw [hdraw]
      cases sibs with
      | nil =>
        obtain ⟨nS, hS⟩ := hsibs (s.paintAt views v (px + (views v).l) (py + (views v).t) k)
        refine ⟨nS + 1, fun fuel => ?_⟩
        rw [← Nat.add_assoc, drawLoop_retrace views root (fuel + nS) _
          (by rw [paintAt_cv]; exact hskip) (by rw [paintAt_cv]; exact hsib)]
        rw [← hS fuel, paintAt_self]
      | node sb c2 s2 =>
        obtain ⟨nS, hS⟩ := ihs p k px py
          (s.paintAt views v (px + (views v).l) (py + (views v).t) k) hcs hrs sb c2 s2 rfl
        refine ⟨nS + 1, fun fuel => ?_⟩
        rw [← Nat.add_assoc, drawLoop_sibling views root (fuel + nS) _ sb
          (by rw [paintAt_cv]; exact hskip) (by rw [paintAt_cv]; exact hsib)]
        rw [paintAt_cx, paintAt_cy, paintAt_lvl, paintAt_cv, ← hS fuel]
        exact congrArg _ (paintAt_congr views _ sb _ _ _ _ _ _ (by ring) (by ring) rfl)

theorem isTree_iff (views : ViewId → View) (root : ViewId) (kids : Forest) :
    isTree views root kids = true ↔
      (views root).parent = none ∧ (views root).sibling = none ∧
        (views root).child = kids.first ∧ kids.conforms views root = true ∧
        (root :: kids.ids).Nodup := by
  simp [isTree, and_assoc]

/-- The whole walk: on a well-formed tree the loop of `drawWidgets` ends, with the root
current again at level zero, and has done what the recursion over the tree does. -/
theorem drawLoop_tree (views : ViewId → View) (root : ViewId) (kids : Forest)
    (ht : isTree views root kids = true) (s : DrawState) :
    ∃ n, ∀ fuel, n ≤ fuel →
      drawLoop views root fuel false (s.moveTo root 0 0 0)
        = some ((if (views root).visible then kids.draw views 1 0 0 (s.moveTo root 0 0 0)
            else s.moveTo root 0 0 0).moveTo root 0 0 0) := by
  rw [isTree_iff] at ht
  obtain ⟨-, hsib, hch, hconf, hnd⟩ := ht
  have hroot : root ∉ kids.ids := (List.nodup_cons.mp hnd).1
  by_cases hdesc : kids ≠ Forest.nil ∧ (views root).visible = true
  · obtain ⟨hne, hvis⟩ := hdesc
    cases kids with
    | nil => exact absurd rfl hne
    | node c c1 s1 =>
      obtain ⟨n, hn⟩ := drawLoop_forest views root (Forest.node c c1 s1) root 1 0 0
        (s.moveTo root 0 0 0) hconf hroot c c1 s1 rfl
      refine ⟨1 + n + 1, fun fuel hfuel => ?_⟩
      obtain ⟨f, rfl⟩ : ∃ f, fuel = (f + 1 + n) + 1 := ⟨fuel - (1 + n + 1), by omega⟩
      rw [drawLoop_descend views root (f + 1 + n) _ c hch hvis]
      have h0 : (s.moveTo root 0 0 0).paintAt views c
            ((s.moveTo root 0 0 0).cx + (views c).l) ((s.moveTo root 0 0 0).cy + (views c).t)
            ((s.moveTo root 0 0 0).lvl + 1)
          = (s.moveTo root 0 0 0).paintAt views c (0 + (views c).l) (0 + (views c).t) 1 := rfl
      rw [h0, hn (f + 1)]
      rw [drawLoop_break views root f _ rfl hsib]
      simp only [hvis, if_true]
      rfl
  · have hskip : (views root).child = none ∨ (views root).visible = false := by
      by_cases hvis : (views root).visible = true
      · left
        have hc : kids = Forest.nil := by
          by_contra hne
          exact hdesc ⟨hne, hvis⟩
        rw [hch, hc]; rfl
      · right; simpa using hvis
    have hres : (if (views root).visible then kids.draw views 1 0 0 (s.moveTo root 0 0 0)
        else s.moveTo root 0 0 0) = s.moveTo root 0 0 0 := by
      by_cases hvis : (views root).visible = true
      · have hc : kids = Forest.nil := by
          by_contra hne
          exact hdesc ⟨hne, hvis⟩
        subst hc
        simp [Forest.draw]
      · simp [hvis]
    refine ⟨2, fun fuel hfuel => ?_⟩
    obtain ⟨f, rfl⟩ : ∃ f, fuel = (f + 1) + 1 := ⟨fuel - 2, by omega⟩
    rw [drawLoop_retrace views root (f + 1) _ hskip hsib,
      drawLoop_break views root f _ rfl hsib, hres]
    rfl

/-! ## What the recursion over the tree draws -/

theorem paintAt_cropRects (views : ViewId → View) (s : DrawState) (v : ViewId)
    (ax ay : space_t) (k : Int) :
    (s.paintAt views v ax ay k).cropRects = (computeCrop s.cropRects k ax ay (views v)).1 := by
  unfold DrawState.paintAt DrawState.drawCurrent
  split <;> rfl

theorem paintAt_accesses (views : ViewId → View) (s : DrawState) (v : ViewId)
    (ax ay : space_t) (k : Int) :
    (s.paintAt views v ax ay k).accesses
      = s.accesses ++ ((computeCrop s.cropRects k ax ay (views v)).2 ++
          if (views v).visible then [Access.read (k - 1)] else []) := by
  unfold DrawState.paintAt DrawState.drawCurrent
  by_cases hv : (views v).visible = true
  · simp [hv, DrawState.crop, DrawState.moveTo]
  · simp [hv, DrawState.crop, DrawState.moveTo]

theorem paintAt_drawn (views : ViewId → View) (s : DrawState) (v : ViewId)
    (ax ay : space_t) (k : Int) :
    (s.paintAt views v ax ay k).drawn
      = s.drawn ++
          if (views v).visible then
            [{ view := v, cx := ax, cy := ay, lvl := k
               parentClip := readRect (computeCrop s.cropRects k ax ay (views v)).1 (k - 1)
               clip :=
                if (views v).enabled Property.CropSelf then
                  (readRect (computeCrop s.cropRects k ax ay (views v)).1 (k - 1)).intersection
                    ((views v).rectAt ax ay)
                else readRect (computeCrop s.cropRects k ax ay (views v)).1 (k - 1) }]
          else [] := by
  unfold DrawState.paintAt DrawState.drawCurrent
  by_cases hv : (views v).visible = true
  · simp [hv, DrawState.crop, DrawState.moveTo]
  · simp [hv, DrawState.crop, DrawState.moveTo]

theorem offsetX_cons (views : ViewId → View) (v : ViewId) (cp : List ViewId) (h : cp ≠ []) :
    offsetX views (v :: cp) = offsetX views cp + (views v).l := by
  cases cp with
  | nil => exact absurd rfl h
  | cons u rest => rfl

theorem offsetY_cons (views : ViewId → View) (v : ViewId) (cp : List ViewId) (h : cp ≠ []) :
    offsetY views (v :: cp) = offsetY views cp + (views v).t := by
  cases cp with
  | nil => exact absurd rfl h
  | cons u rest => rfl

theorem chainCrop_cons (views : ViewId → View) (surface : Rect) (v : ViewId)
    (cp : List ViewId) (h : cp ≠ []) :
    chainCrop views surface (v :: cp)
      = if (views v).enabled Property.CropChildren then
          ((views v).rectAt (offsetX views (v :: cp)) (offsetY views (v :: cp))).intersection
            (chainCrop views surface cp)
        else chainCrop views surface cp := by
  cases cp with
  | nil => exact absurd rfl h
  | cons u rest => rfl

/-- The views, positions and levels the recursion records are those of the expected records,
whatever the depth of the forest. -/
theorem draw_places (views : ViewId → View) (surface : Rect) (F : Forest) :
    ∀ (cp : List ViewId) (s : DrawState), cp ≠ [] →
      ((F.draw views cp.length (offsetX views cp) (offsetY views cp) s).drawn).map
          DrawRecord.place
        = s.drawn.map DrawRecord.place ++ (F.records views surface cp).map DrawRecord.place := by
  induction F with
  | nil => intro cp s _; simp [Forest.draw, Forest.records]
  | node v c sibs ihc ihs =>
    intro cp s hcp
    have hx := offsetX_cons views v cp hcp
    have hy := offsetY_cons views v cp hcp
    have hlen : ((v :: cp).length : Int) = (cp.length : Int) + 1 := by
      simp
    by_cases hv : (views v).visible = true
    · have hc := ihc (v :: cp)
        (s.paintAt views v (offsetX views cp + (views v).l) (offsetY views cp + (views v).t)
          cp.length) (by simp)
      rw [hx, hy, hlen] at hc
      simp only [Forest.draw, Forest.records, hv, if_true]
      rw [ihs cp _ hcp, hc, paintAt_drawn]
      simp [hv, DrawRecord.place, recordOf, hx, hy]
    · have hv2 : (views v).visible = false := by simpa using hv
      simp only [Forest.draw, Forest.records, hv2, Bool.false_eq_true, if_false]
      rw [ihs cp _ hcp, paintAt_drawn]
      simp [hv2]

theorem records_views (views : ViewId → View) (surface : Rect) (F : Forest) :
    ∀ cp : List ViewId,
      (F.records views surface cp).map DrawRecord.view = F.drawOrder views := by
  induction F with
  | nil => intro cp; rfl
  | node v c sibs ihc ihs =>
    intro cp
    by_cases hv : (views v).visible = true
    · simp [Forest.records, Forest.drawOrder, hv, ihc, ihs, recordOf]
    · simp [Forest.records, Forest.drawOrder, hv, ihs]

theorem pruned_filter (views : ViewId → View) (F : Forest) :
    ((F.pruned views).ids).filter (fun v => (views v).visible) = F.drawOrder views := by
  induction F with
  | nil => rfl
  | node v c sibs ihc ihs =>
    by_cases hv : (views v).visible = true
    · simp [Forest.pruned, Forest.ids, Forest.drawOrder, hv, ihc, ihs, List.filter_cons]
    · simp [Forest.pruned, Forest.ids, Forest.drawOrder, hv, ihs, List.filter_cons]

theorem drawOrder_sublist (views : ViewId → View) (F : Forest) :
    (F.drawOrder views).Sublist F.ids := by
  induction F with
  | nil => exact List.Sublist.refl _
  | node v c sibs ihc ihs =>
    by_cases hv : (views v).visible = true
    · simp only [Forest.drawOrder, Forest.ids, hv, if_true, List.cons_append]
      exact List.Sublist.cons₂ _ (List.Sublist.append ihc ihs)
    · simp only [Forest.drawOrder, Forest.ids, hv, List.nil_append]
      exact List.Sublist.cons _ (List.Sublist.trans ihs (List.sublist_append_right _ _))

/-! ## Parent chains in a tree -/

theorem conforms_chain (views : ViewId → View) (F : Forest) :
    ∀ (p : ViewId) (cp : List ViewId), F.conforms views p = true →
      isChain (fun u => (views u).parent) (some p) cp = true →
      ∀ v ∈ F.ids, ∃ mid,
        isChain (fun u => (views u).parent) (some v) (v :: (mid ++ cp)) = true := by
  induction F with
  | nil => intro p cp _ _ v hv; simp [Forest.ids] at hv
  | node x c sibs ihc ihs =>
    intro p cp hconf hcp v hv
    rw [conforms_node] at hconf
    obtain ⟨hp, -, -, hcc, hcs⟩ := hconf
    have hxchain : isChain (fun u => (views u).parent) (some x) (x :: cp) = true := by
      rw [isChain_cons_iff]; exact ⟨rfl, by rw [hp]; exact hcp⟩
    simp only [Forest.ids, List.mem_cons, List.mem_append] at hv
    rcases hv with rfl | hv | hv
    · exact ⟨[], by simpa using hxchain⟩
    · obtain ⟨mid, hmid⟩ := ihc x (x :: cp) hcc hxchain v hv
      exact ⟨mid ++ [x], by simpa using hmid⟩
    · exact ihs p cp hcs hcp v hv

theorem chain_head (par : ViewId → Option ViewId) (p : ViewId) (cp : List ViewId)
    (h : isChain par (some p) cp = true) : ∃ rest, cp = p :: rest := by
  cases cp with
  | nil => simp [isChain] at h
  | cons u rest =>
    rw [isChain_cons_iff] at h
    exact ⟨rest, by rw [Option.some.inj h.1]⟩

theorem chain_through_parent (views : ViewId → View) (F : Forest) (p : ViewId)
    (cp : List ViewId) (hconf : F.conforms views p = true)
    (hcp : isChain (fun u => (views u).parent) (some p) cp = true)
    (v : ViewId) (hv : v ∈ F.ids) (c : List ViewId)
    (hc : isChain (fun u => (views u).parent) (some v) c = true) :
    ∃ mid, c = v :: (mid ++ cp) := by
  obtain ⟨mid, hmid⟩ := conforms_chain views F p cp hconf hcp v hv
  exact ⟨mid, isChain_unique _ c (some v) _ hc hmid⟩

/-- A view of the forest is in the draw order exactly when it and all its ancestors are
visible, given that the ancestors of the forest are. -/
theorem mem_drawOrder_iff (views : ViewId → View) (F : Forest) :
    ∀ (p : ViewId) (cp : List ViewId), F.conforms views p = true → F.ids.Nodup →
      isChain (fun u => (views u).parent) (some p) cp = true →
      (∀ u ∈ cp, (views u).visible = true) →
      ∀ v ∈ F.ids, ∀ c, isChain (fun u => (views u).parent) (some v) c = true →
        (v ∈ F.drawOrder views ↔ ∀ u ∈ c, (views u).visible = true) := by
  induction F with
  | nil => intro p cp _ _ _ _ v hv; simp [Forest.ids] at hv
  | node x c sibs ihc ihs =>
    intro p cp hconf hnd hcp hvis v hv ch hch
    have hconf0 := hconf
    rw [conforms_node] at hconf
    obtain ⟨hp, -, -, hcc, hcs⟩ := hconf
    simp only [Forest.ids, List.nodup_cons, List.mem_append, not_or, List.nodup_append]
      at hnd
    obtain ⟨⟨hxc, hxs⟩, hndc, hnds, hdisj⟩ := hnd
    have hxchain : isChain (fun u => (views u).parent) (some x) (x :: cp) = true := by
      rw [isChain_cons_iff]; exact ⟨rfl, by rw [hp]; exact hcp⟩
    have hsubc := (drawOrder_sublist views c).subset
    have hsubs := (drawOrder_sublist views sibs).subset
    simp only [Forest.ids, List.mem_cons, List.mem_append] at hv
    rcases hv with rfl | hv | hv
    · have hceq : ch = v :: cp := isChain_unique _ ch (some v) _ hch hxchain
      subst hceq
      have hns : v ∉ sibs.drawOrder views := fun h => hxs (hsubs h)
      by_cases hx : (views v).visible = true
      · simp only [Forest.drawOrder, hx, if_true, List.mem_append, List.mem_cons, true_or,
          true_iff]
        intro u hu
        rcases hu with rfl | hu
        · exact hx
        · exact hvis u hu
      · simp only [Forest.drawOrder, hx, List.nil_append]
        constructor
        · intro h; exact absurd h hns
        · intro h; exact absurd (h v (List.mem_cons_self _ _)) hx
    · have hvx : v ≠ x := fun h => hxc (h ▸ hv)
      have hns : v ∉ sibs.drawOrder views := fun h => hdisj hv (hsubs h)
      by_cases hx : (views x).visible = true
      · have hvis2 : ∀ u ∈ x :: cp, (views u).visible = true := by
          intro u hu
          rcases List.mem_cons.mp hu with rfl | hu
          · exact hx
          · exact hvis u hu
        have := ihc x (x :: cp) hcc hndc hxchain hvis2 v hv ch hch
        simp only [Forest.drawOrder, hx, if_true, List.mem_append, List.mem_cons, hvx,
          false_or, hns, or_false]
        exact this
      · obtain ⟨mid, hmid⟩ := chain_through_parent views c x (x :: cp) hcc hxchain v hv ch hch
        have hxin : x ∈ ch := by rw [hmid]; simp
        simp only [Forest.drawOrder, hx, List.nil_append]
        constructor
        · intro h; exact absurd h hns
        · intro h; exact absurd (h x hxin) hx
    · have hvx : v ≠ x := fun h => hxs (h ▸ hv)
      have hnc : v ∉ c.drawOrder views := fun h => hdisj (hsubc h) hv
      have := ihs p cp hcs hnds hcp hvis v hv ch hch
      by_cases hx : (views x).visible = true
      · simp only [Forest.drawOrder, hx, if_true, List.mem_append, List.mem_cons, hvx,
          false_or, hnc]
        exact this
      · simp only [Forest.drawOrder, hx, List.nil_append]
        exact this

/-- Every expected record of a forest is the record of its view along the parent chain of that
view. -/
theorem records_chain (views : ViewId → View) (surface : Rect) (F : Forest) :
    ∀ (p : ViewId) (cp : List ViewId), F.conforms views p = true →
      isChain (fun u => (views u).parent) (some p) cp = true →
      ∀ d ∈ F.records views surface cp, ∃ mid,
        isChain (fun u => (views u).parent) (some d.view) (d.view :: (mid ++ cp)) = true ∧
        d = recordOf views surface d.view (mid ++ cp) := by
  induction F with
  | nil => intro p cp _ _ d hd; simp [Forest.records] at hd
  | node x c sibs ihc ihs =>
    intro p cp hconf hcp d hd
    rw [conforms_node] at hconf
    obtain ⟨hp, -, -, hcc, hcs⟩ := hconf
    have hxchain : isChain (fun u => (views u).parent) (some x) (x :: cp) = true := by
      rw [isChain_cons_iff]; exact ⟨rfl, by rw [hp]; exact hcp⟩
    simp only [Forest.records, List.mem_append] at hd
    rcases hd with hd | hd
    · by_cases hx : (views x).visible = true
      · simp only [hx, if_true, List.mem_cons] at hd
        rcases hd with rfl | hd
        · exact ⟨[], by simpa [recordOf] using hxchain, by simp [recordOf]⟩
        · obtain ⟨mid, h1, h2⟩ := ihc x (x :: cp) hcc hxchain d hd
          exact ⟨mid ++ [x], by simpa using h1, by simpa using h2⟩
      · simp [hx] at hd
    · exact ihs p cp hcs hcp d hd

/-! ## The clip stack along the traversal -/

theorem readRect_natCast (cr : List Rect) (n : Nat) :
    readRect cr (n : Int) = cr.getD n { l := 0, t := 0, w := 0, h := 0 } := rfl

theorem writeRect_natCast (cr : List Rect) (n : Nat) (r : Rect) :
    writeRect cr (n : Int) r = cr.set n r := rfl

theorem length_writeRect (cr : List Rect) (i : Int) (r : Rect) :
    (writeRect cr i r).length = cr.length := by
  cases i with
  | ofNat n => simp [writeRect]
  | negSucc n => rfl

theorem readRect_writeRect_same (cr : List Rect) (n : Nat) (r : Rect) (h : n < cr.length) :
    readRect (writeRect cr (n : Int) r) (n : Int) = r := by
  rw [writeRect_natCast, readRect_natCast]
  simp [List.getD_eq_getElem?_getD, List.getElem?_set, h]

theorem readRect_writeRect_ne (cr : List Rect) (n j : Nat) (r : Rect) (h : n ≠ j) :
    readRect (writeRect cr (n : Int) r) (j : Int) = readRect cr (j : Int) := by
  rw [writeRect_natCast, readRect_natCast, readRect_natCast]
  simp [List.getD_eq_getElem?_getD, List.getElem?_set, h]

theorem writeRect_writeRect (cr : List Rect) (n : Nat) (r1 r2 : Rect) :
    writeRect (writeRect cr (n : Int) r1) (n : Int) r2 = writeRect cr (n : Int) r2 := by
  simp [writeRect_natCast, List.set_set]

/-- In bounds and above level zero, `computeCrop` writes exactly the entry of its level: the
rectangle of the view intersected with the entry below when the view crops its children, the
entry below otherwise. -/
theorem computeCrop_eq (cr : List Rect) (m : Nat) (ax ay : space_t) (v : View)
    (hm : m + 1 < cr.length) :
    (computeCrop cr ((m + 1 : Nat) : Int) ax ay v).1
      = writeRect cr ((m + 1 : Nat) : Int)
          (if v.enabled Property.CropChildren then
            (v.rectAt ax ay).intersection (readRect cr (m : Int))
          else readRect cr (m : Int)) := by
  have hsub : ((m + 1 : Nat) : Int) - 1 = (m : Int) := by push_cast; ring
  have hpos : ((m + 1 : Nat) : Int) > 0 := by positivity
  by_cases hc : v.enabled Property.CropChildren = true
  · simp only [computeCrop, hc, if_true, hpos, hsub]
    rw [readRect_writeRect_same cr (m + 1) _ hm,
      readRect_writeRect_ne cr (m + 1) m _ (by omega), writeRect_writeRect]
  · simp only [computeCrop, hc, hsub]
    rfl

theorem height_node_pos (v : ViewId) (c s : Forest) : 1 ≤ (Forest.node v c s).height := by
  simp only [Forest.height]
  exact Nat.le_trans (Nat.le_add_left 1 c.height) (Nat.le_max_left _ _)

/-- On a forest that fits into the clip stack the recursion records exactly the expected
records, keeps the stack at sixteen entries and leaves the entries of the levels above the
forest as they were. -/
theorem draw_records (views : ViewId → View) (surface : Rect) (F : Forest) :
    ∀ (cp : List ViewId) (s : DrawState), cp ≠ [] → s.cropRects.length = 16 →
      cp.length + F.height ≤ 16 →
      readRect s.cropRects ((cp.length : Int) - 1) = chainCrop views surface cp →
      (F.draw views cp.length (offsetX views cp) (offsetY views cp) s).drawn
          = s.drawn ++ F.records views surface cp ∧
        (F.draw views cp.length (offsetX views cp) (offsetY views cp) s).cropRects.length = 16 ∧
        ∀ j : Nat, j < cp.length →
          readRect (F.draw views cp.length (offsetX views cp) (offsetY views cp) s).cropRects j
            = readRect s.cropRects j := by
  induction F with
  | nil => intro cp s _ hlen _ _; simp [Forest.draw, Forest.records, hlen]
  | node v c sibs ihc ihs =>
    intro cp s hcp hlen hfit hentry
    obtain ⟨m, hm⟩ : ∃ m, cp.length = m + 1 :=
      ⟨cp.length - 1, by have := List.length_pos.mpr hcp; omega⟩
    have hx := offsetX_cons views v cp hcp
    have hy := offsetY_cons views v cp hcp
    have hh : 1 ≤ (Forest.node v c sibs).height := height_node_pos v c sibs
    have hhc : c.height + 1 ≤ (Forest.node v c sibs).height := by
      simp only [Forest.height]; exact Nat.le_max_left _ _
    have hhs : sibs.height ≤ (Forest.node v c sibs).height := by
      simp only [Forest.height]; exact Nat.le_max_right _ _
    have hsub : ((m + 1 : Nat) : Int) - 1 = (m : Int) := by push_cast; ring
    have hcast : ((v :: cp).length : Int) = (cp.length : Int) + 1 := by simp
    rw [hm, hsub] at hentry
    -- the state after arriving on `v`
    have hcr1 : (s.paintAt views v (offsetX views cp + (views v).l)
          (offsetY views cp + (views v).t) (cp.length : Int)).cropRects
        = writeRect s.cropRects ((m + 1 : Nat) : Int) (chainCrop views surface (v :: cp)) := by
      rw [paintAt_cropRects, hm, computeCrop_eq _ m _ _ _ (by omega), hentry,
        chainCrop_cons views surface v cp hcp, hx, hy]
    have hlen1 : (s.paintAt views v (offsetX views cp + (views v).l)
          (offsetY views cp + (views v).t) (cp.length : Int)).cropRects.length = 16 := by
      rw [hcr1, length_writeRect, hlen]
    have hbelow : ∀ j : Nat, j < m + 1 →
        readRect (s.paintAt views v (offsetX views cp + (views v).l)
          (offsetY views cp + (views v).t) (cp.length : Int)).cropRects j
          = readRect s.cropRects j := by
      intro j hj
      rw [hcr1, readRect_writeRect_ne _ (m + 1) j _ (by omega)]
    have hdrawn1 : (s.paintAt views v (offsetX views cp + (views v).l)
          (offsetY views cp + (views v).t) (cp.length : Int)).drawn
        = s.drawn ++ if (views v).visible then [recordOf views surface v cp] else [] := by
      rw [paintAt_drawn]
      have hread : readRect (computeCrop s.cropRects (cp.length : Int)
            (offsetX views cp + (views v).l) (offsetY views cp + (views v).t) (views v)).1
            ((cp.length : Int) - 1) = chainCrop views surface cp := by
        rw [← paintAt_cropRects, hm, hsub, ← hm, hbelow m (by omega), hentry]
      rw [hread]
      simp only [recordOf, hx, hy]
    by_cases hv : (views v).visible = true
    · -- the children
      have hentry2 : readRect (s.paintAt views v (offsetX views cp + (views v).l)
            (offsetY views cp + (views v).t) (cp.length : Int)).cropRects
            (((v :: cp).length : Int) - 1) = chainCrop views surface (v :: cp) := by
        rw [hcast, hcr1, hm]
        have : ((m + 1 : Nat) : Int) + 1 - 1 = ((m + 1 : Nat) : Int) := by ring
        rw [this, readRect_writeRect_same _ (m + 1) _ (by omega)]
      obtain ⟨hc1, hc2, hc3⟩ := ihc (v :: cp) _ (by simp) hlen1
        (by simp only [List.length_cons]; omega) hentry2
      rw [hx, hy, hcast] at hc1 hc2 hc3
      -- the siblings
      have hentry3 : readRect ((c.draw views ((cp.length : Int) + 1)
            (offsetX views cp + (views v).l) (offsetY views cp + (views v).t)
            (s.paintAt views v (offsetX views cp + (views v).l)
              (offsetY views cp + (views v).t) (cp.length : Int)))).cropRects
            ((cp.length : Int) - 1) = chainCrop views surface cp := by
        rw [hm, hsub, ← hm, hc3 m (by simp only [List.length_cons]; omega),
          hbelow m (by omega), hentry]
      obtain ⟨hs1, hs2, hs3⟩ := ihs cp _ hcp hc2 (by omega) hentry3
      simp only [Forest.draw, Forest.records, hv, if_true]
      refine ⟨?_, hs2, ?_⟩
      · rw [hs1, hc1, hdrawn1]
        simp [hv]
      · intro j hj
        rw [hs3 j hj, hc3 j (by simp only [List.length_cons]; omega),
          hbelow j (by omega)]
    · have hv2 : (views v).visible = false := by simpa using hv
      have hentry3 : readRect (s.paintAt views v (offsetX views cp + (views v).l)
            (offsetY views cp + (views v).t) (cp.length : Int)).cropRects
            ((cp.length : Int) - 1) = chainCrop views surface cp := by
        rw [hm, hsub, ← hm, hbelow m (by omega), hentry]
      obtain ⟨hs1, hs2, hs3⟩ := ihs cp _ hcp hlen1 (by omega) hentry3
      simp only [Forest.draw, Forest.records, hv2, Bool.false_eq_true, if_false]
      refine ⟨?_, hs2, ?_⟩
      · rw [hs1, hdrawn1]
        simp [hv2]
      · intro j hj
        rw [hs3 j hj, hbelow j (by omega)]

theorem computeCrop_accesses (cr : List Rect) (lvl : Int) (ax ay : space_t) (v : View) :
    ∀ a ∈ (computeCrop cr lvl ax ay v).2,
      lvl - 1 ≤ a.index ∧ a.index ≤ lvl ∧ (a.isWrite = true → a.index = lvl) := by
  intro a ha
  unfold computeCrop at ha
  split at ha
  · split at ha
    · simp only [List.mem_cons, List.mem_singleton, List.not_mem_nil, or_false] at ha
      rcases ha with rfl | rfl | rfl | rfl <;> simp [Access.index, Access.isWrite]
    · simp only [List.mem_singleton] at ha
      subst ha
      simp [Access.index, Access.isWrite]
  · simp only [List.mem_cons, List.mem_singleton, List.not_mem_nil, or_false] at ha
    rcases ha with rfl | rfl <;> simp [Access.index, Access.isWrite]

/-- The accesses the recursion makes at level `k` lie between `k - 1` and the deepest level of
the forest, and the writes at `k` or deeper. -/
theorem draw_accesses (views : ViewId → View) (F : Forest) :
    ∀ (k : Int) (px py : space_t) (s : DrawState),
      ∃ acc, (F.draw views k px py s).accesses = s.accesses ++ acc ∧
        ∀ a ∈ acc, k - 1 ≤ a.index ∧ a.index < k + F.height ∧
          (a.isWrite = true → k ≤ a.index) := by
  induction F with
  | nil => intro k px py s; exact ⟨[], by simp [Forest.draw], by simp⟩
  | node v c sibs ihc ihs =>
    intro k px py s
    have hh : (1 : Int) ≤ ((Forest.node v c sibs).height : Int) := by
      exact_mod_cast height_node_pos v c sibs
    have hhc : (c.height : Int) + 1 ≤ ((Forest.node v c sibs).height : Int) := by
      have : c.height + 1 ≤ (Forest.node v c sibs).height := by
        simp only [Forest.height]; exact Nat.le_max_left _ _
      exact_mod_cast this
    have hhs : (sibs.height : Int) ≤ ((Forest.node v c sibs).height : Int) := by
      have : sibs.height ≤ (Forest.node v c sibs).height := by
        simp only [Forest.height]; exact Nat.le_max_right _ _
      exact_mod_cast this
    have hpaint : ∀ a ∈ (computeCrop s.cropRects k (px + (views v).l) (py + (views v).t)
          (views v)).2 ++ (if (views v).visible then [Access.read (k - 1)] else []),
        k - 1 ≤ a.index ∧ a.index < k + ((Forest.node v c sibs).height : Int) ∧
          (a.isWrite = true → k ≤ a.index) := by
      intro a ha
      rcases List.mem_append.mp ha with ha | ha
      · obtain ⟨h1, h2, h3⟩ := computeCrop_accesses _ _ _ _ _ a ha
        exact ⟨h1, by omega, fun hw => by rw [h3 hw]⟩
      · by_cases hv : (views v).visible = true
        · simp only [hv, if_true, List.mem_singleton] at ha
          subst ha
          simp only [Access.index, Access.isWrite]
          exact ⟨le_refl _, by omega, fun hw => by simp at hw⟩
        · simp [hv] at ha
    by_cases hv : (views v).visible = true
    · obtain ⟨acc1, he1, hb1⟩ := ihc (k + 1) (px + (views v).l) (py + (views v).t)
        (s.paintAt views v (px + (views v).l) (py + (views v).t) k)
      obtain ⟨acc2, he2, hb2⟩ := ihs k px py (c.draw views (k + 1) (px + (views v).l)
        (py + (views v).t) (s.paintAt views v (px + (views v).l) (py + (views v).t) k))
      refine ⟨((computeCrop s.cropRects k (px + (views v).l) (py + (views v).t)
          (views v)).2 ++ (if (views v).visible then [Access.read (k - 1)] else [])) ++
          acc1 ++ acc2, ?_, ?_⟩
      · simp only [Forest.draw, hv, if_true]
        rw [he2, he1, paintAt_accesses]
        simp [hv]
      · intro a ha
        rcases List.mem_append.mp ha with ha | ha
        · rcases List.mem_append.mp ha with ha | ha
          · exact hpaint a ha
          · obtain ⟨h1, h2, h3⟩ := hb1 a ha
            exact ⟨by omega, by omega, fun hw => by have := h3 hw; omega⟩
        · obtain ⟨h1, h2, h3⟩ := hb2 a ha
          exact ⟨h1, by omega, h3⟩
    · have hv2 : (views v).visible = false := by simpa using hv
      obtain ⟨acc2, he2, hb2⟩ := ihs k px py
        (s.paintAt views v (px + (views v).l) (py + (views v).t) k)
      refine ⟨((computeCrop s.cropRects k (px + (views v).l) (py + (views v).t)
          (views v)).2 ++ (if (views v).visible then [Access.read (k - 1)] else [])) ++ acc2,
        ?_, ?_⟩
      · simp only [Forest.draw, hv2, Bool.false_eq_true, if_false]
        rw [he2, paintAt_accesses]
        simp [hv2]
      · intro a ha
        rcases List.mem_append.mp ha with ha | ha
        · exact hpaint a ha
        · obtain ⟨h1, h2, h3⟩ := hb2 a ha
          exact ⟨h1, by omega, h3⟩

/-! ## The draw traversal of a whole tree -/

/-- The state `drawWidgets` ends in on a well-formed tree. -/
theorem drawWidgets_tree (g : GLV) (root : ViewId) (kids : Forest) (w h : Nat)
    (ht : isTree g.views root kids = true) :
    ∃ n, ∀ fuel, n ≤ fuel →
      g.drawWidgets root w h fuel
        = some ((if (g.views root).visible then
              kids.draw g.views (([root] : List ViewId).length : Int) (offsetX g.views [root])
                (offsetY g.views [root]) (drawStart root w h)
            else drawStart root w h).moveTo root 0 0 0) := by
  obtain ⟨n, hn⟩ := drawLoop_tree g.views root kids ht (drawStart root w h)
  exact ⟨n, fun fuel hfuel => hn fuel hfuel⟩

theorem root_chain (views : ViewId → View) (root : ViewId) (kids : Forest)
    (ht : isTree views root kids = true) :
    isChain (fun u => (views u).parent) (some root) [root] = true := by
  rw [isTree_iff] at ht
  rw [isChain_cons_iff]
  exact ⟨rfl, by rw [ht.1]; rfl⟩

theorem views_of_places (l1 l2 : List DrawRecord)
    (h : l1.map DrawRecord.place = l2.map DrawRecord.place) :
    l1.map DrawRecord.view = l2.map DrawRecord.view := by
  have := congrArg (List.map (fun p : ViewId × space_t × space_t × Int => p.1)) h
  simpa [List.map_map, Function.comp_def, DrawRecord.place] using this

/-- The views, positions and levels `drawWidgets` records on a well-formed tree are those of
the expected records. -/
theorem tree_drawn_places (g : GLV) (root : ViewId) (kids : Forest) (w h : Nat) :
    ((if (g.views root).visible then
          kids.draw g.views (([root] : List ViewId).length : Int) (offsetX g.views [root])
            (offsetY g.views [root]) (drawStart root w h)
        else drawStart root w h).moveTo root 0 0 0).drawn.map DrawRecord.place
      = (if (g.views root).visible then kids.records g.views (Rect.ofSize w h) [root]
          else []).map DrawRecord.place := by
  by_cases hv : (g.views root).visible = true
  · simp only [hv, if_true, DrawState.moveTo]
    rw [draw_places g.views (Rect.ofSize w h) kids [root] (drawStart root w h) (by simp)]
    simp [drawStart]
  · simp [hv, DrawState.moveTo, drawStart]

theorem tree_drawn_views (g : GLV) (root : ViewId) (kids : Forest) (w h : Nat) :
    ((if (g.views root).visible then
          kids.draw g.views (([root] : List ViewId).length : Int) (offsetX g.views [root])
            (offsetY g.views [root]) (drawStart root w h)
        else drawStart root w h).moveTo root 0 0 0).drawn.map DrawRecord.view
      = if (g.views root).visible then kids.drawOrder g.views else [] := by
  rw [views_of_places _ _ (tree_drawn_places g root kids w h)]
  by_cases hv : (g.views root).visible = true
  · simp only [hv, if_true]
    exact records_views g.views (Rect.ofSize w h) kids [root]
  · simp [hv]

/-- On a well-formed tree that fits into the clip stack `drawWidgets` records exactly the
expected records, keeps sixteen clip entries and leaves entry zero at the surface rectangle,
and makes no other accesses than such between the level above the children of the root and
the deepest level, the writes not above the children of the root. -/
theorem tree_drawn_exact (g : GLV) (root : ViewId) (kids : Forest) (w h : Nat)
    (hdepth : kids.height < 16) :
    ((if (g.views root).visible then
          kids.draw g.views (([root] : List ViewId).length : Int) (offsetX g.views [root])
            (offsetY g.views [root]) (drawStart root w h)
        else drawStart root w h).moveTo root 0 0 0).drawn
      = (if (g.views root).visible then kids.records g.views (Rect.ofSize w h) [root]
          else []) ∧
    ((if (g.views root).visible then
          kids.draw g.views (([root] : List ViewId).length : Int) (offsetX g.views [root])
            (offsetY g.views [root]) (drawStart root w h)
        else drawStart root w h).moveTo root 0 0 0).cropRects.length = 16 ∧
    readRect ((if (g.views root).visible then
          kids.draw g.views (([root] : List ViewId).length : Int) (offsetX g.views [root])
            (offsetY g.views [root]) (drawStart root w h)
        else drawStart root w h).moveTo root 0 0 0).cropRects 0 = Rect.ofSize w h ∧
    ∀ a ∈ ((if (g.views root).visible then
          kids.draw g.views (([root] : List ViewId).length : Int) (offsetX g.views [root])
            (offsetY g.views [root]) (drawStart root w h)
        else drawStart root w h).moveTo root 0 0 0).accesses,
      a.inBounds 16 = true ∧ (a.isWrite = true → 1 ≤ a.index) := by
  have hstart : readRect (drawStart root w h).cropRects 0 = Rect.ofSize w h := rfl
  by_cases hv : (g.views root).visible = true
  · simp only [hv, if_true, DrawState.moveTo]
    obtain ⟨h1, h2, h3⟩ := draw_records g.views (Rect.ofSize w h) kids [root]
      (drawStart root w h) (by simp) (by simp [drawStart])
      (by simp only [List.length_singleton]; omega) rfl
    obtain ⟨acc, hacc, hb⟩ := draw_accesses g.views kids (([root] : List ViewId).length : Int)
      (offsetX g.views [root]) (offsetY g.views [root]) (drawStart root w h)
    refine ⟨by rw [h1]; simp [drawStart], h2, ?_, ?_⟩
    · exact (h3 0 (by simp)).trans hstart
    · intro a ha
      rw [hacc] at ha
      simp only [drawStart, List.nil_append] at ha
      obtain ⟨hlo, hhi, hw⟩ := hb a ha
      simp only [List.length_singleton, Nat.cast_one] at hlo hhi hw
      refine ⟨?_, hw⟩
      simp only [Access.inBounds, decide_eq_true_eq]
      constructor
      · omega
      · have : (kids.height : Int) < 16 := by exact_mod_cast hdepth
        push_cast
        omega
  · simp [hv, DrawState.moveTo, drawStart, hstart]
    rfl

/-- The draw order on trees that fit the clip stack: on every finite well-formed view tree
whose root has no sibling and whose depth is below 16, `drawWidgets` terminates (every bound
on the number of steps from some bound on gives a result), every clip stack access it makes
is within the sixteen entries, and the sequence of views it draws is the depth-first
pre-order listing of the proper descendants of the root, siblings in link order, from which
the subtree below every non-visible view is pruned and the non-visible views themselves are
left out. -/
theorem drawWidgets_draw_order (g : GLV) (root : ViewId) (kids : Forest) (w h : Nat)
    (ht : isTree g.views root kids = true) (hdepth : kids.height < 16) :
    ∃ n, ∀ fuel, n ≤ fuel → ∃ s, g.drawWidgets root w h fuel = some s ∧
      (∀ a ∈ s.accesses, a.inBounds 16 = true) ∧
      s.drawn.map DrawRecord.view = specDrawOrder g.views root kids := by
  obtain ⟨n, hn⟩ := drawWidgets_tree g root kids w h ht
  obtain ⟨-, -, -, hacc⟩ := tree_drawn_exact g root kids w h hdepth
  refine ⟨n, fun fuel hf => ⟨_, hn fuel hf, fun a ha => (hacc a ha).1, ?_⟩⟩
  rw [tree_drawn_views, specDrawOrder, pruned_filter]

/-- The draw order on the sample tree, of depth two, where the view 4 is not visible: the
views drawn are 1, 2, 3 in this order. -/
theorem drawWidgets_draw_order_witness :
    isTree sampleGLV.views 0 sampleKids = true ∧ sampleKids.height < 16 ∧
    specDrawOrder sampleGLV.views 0 sampleKids = [1, 2, 3] ∧
    (sampleGLV.drawWidgets 0 640 480 20).map (fun s => s.drawn.map DrawRecord.view)
      = some [1, 2, 3] ∧
    ∃ n, ∀ fuel, n ≤ fuel → ∃ s, sampleGLV.drawWidgets 0 640 480 fuel = some s ∧
      (∀ a ∈ s.accesses, a.inBounds 16 = true) ∧
      s.drawn.map DrawRecord.view = specDrawOrder sampleGLV.views 0 sampleKids :=
  ⟨by decide, by decide, by decide, by rfl,
    drawWidgets_draw_order sampleGLV 0 sampleKids 640 480 (by decide) (by decide)⟩

/-- Counterexample to C13: in the sample tree the view 5 is visible, but its parent 4 is not;
`drawWidgets` draws the views 1, 2, 3 and never the view 5. -/
theorem drawWidgets_skips_visible_view :
    isTree sampleGLV.views 0 sampleKids = true ∧
    5 ∈ sampleKids.ids ∧ (sampleGLV.views 5).visible = true ∧
    (sampleGLV.views 4).visible = false ∧
    (sampleGLV.drawWidgets 0 640 480 20).map (fun s => s.drawn.map DrawRecord.view)
      = some [1, 2, 3] :=
  ⟨by decide, by decide, by decide, by decide, by rfl⟩

/-- C13 (amended): on every finite well-formed view tree whose depth is below 16, the walk of
`drawWidgets` terminates, makes every clip stack access within the sixteen entries, and draws
exactly once every non-root view that is visible and whose ancestors up to the root are all
visible; it draws no view more than once, never the root, and no view that is not visible or
that has a non-visible ancestor. (Trees with a view at level 16 or deeper are left out: there
the source writes outside the clip stack.) -/
theorem drawWidgets_draws_once (g : GLV) (root : ViewId) (kids : Forest) (w h : Nat)
    (ht : isTree g.views root kids = true) (hdepth : kids.height < 16) :
    ∃ n, ∀ fuel, n ≤ fuel → ∃ s, g.drawWidgets root w h fuel = some s ∧
      (∀ a ∈ s.accesses, a.inBounds 16 = true) ∧
      (s.drawn.map DrawRecord.view).Nodup ∧
      (∀ v ∈ s.drawn.map DrawRecord.view, v ∈ kids.ids ∧ v ≠ root) ∧
      ∀ v ∈ kids.ids, ∃ c, isChain g.parentOf (some v) c = true ∧
        (s.drawn.map DrawRecord.view).count v
          = if c.all (fun u => (g.views u).visible) then 1 else 0 := by
  obtain ⟨n, hn⟩ := drawWidgets_tree g root kids w h ht
  obtain ⟨-, -, -, hacc⟩ := tree_drawn_exact g root kids w h hdepth
  have hroot := root_chain g.views root kids ht
  rw [isTree_iff] at ht
  obtain ⟨-, -, -, hconf, hnd⟩ := ht
  have hndk : kids.ids.Nodup := (List.nodup_cons.mp hnd).2
  have hrk : root ∉ kids.ids := (List.nodup_cons.mp hnd).1
  have hsub := drawOrder_sublist g.views kids
  have hnodup : (if (g.views root).visible then kids.drawOrder g.views else []).Nodup := by
    by_cases hv : (g.views root).visible = true
    · simp only [hv, if_true]; exact hndk.sublist hsub
    · simp [hv]
  refine ⟨n, fun fuel hf => ⟨_, hn fuel hf, fun a ha => (hacc a ha).1, ?_, ?_, ?_⟩⟩
  · rw [tree_drawn_views]; exact hnodup
  · rw [tree_drawn_views]
    intro v hv
    have hvk : v ∈ kids.ids := by
      by_cases hr : (g.views root).visible = true
      · simp only [hr, if_true] at hv; exact hsub.subset hv
      · simp [hr] at hv
    exact ⟨hvk, fun e => hrk (e ▸ hvk)⟩
  · intro v hv
    obtain ⟨mid, hmid⟩ := conforms_chain g.views kids root [root] hconf hroot v hv
    refine ⟨v :: (mid ++ [root]), hmid, ?_⟩
    rw [tree_drawn_views]
    by_cases hr : (g.views root).visible = true
    · have hiff := mem_drawOrder_iff g.views kids root [root] hconf hndk hroot
        (by intro u hu; rw [List.mem_singleton.mp hu]; exact hr) v hv _ hmid
      simp only [hr, if_true]
      by_cases hall : (v :: (mid ++ [root])).all (fun u => (g.views u).visible) = true
      · rw [if_pos hall]
        exact List.count_eq_one_of_mem (hndk.sublist hsub)
          (hiff.mpr (fun u hu => by
            rw [List.all_eq_true] at hall
            exact hall u hu))
      · rw [if_neg hall]
        apply List.count_eq_zero.mpr
        intro hin
        exact hall (List.all_eq_true.mpr (hiff.mp hin))
    · have hall : ¬ ((v :: (mid ++ [root])).all (fun u => (g.views u).visible) = true) := by
        intro hall
        rw [List.all_eq_true] at hall
        exact hr (hall root (by simp))
      rw [if_neg hall]
      simp [hr]

/-- Witness of the amended C13 on the sample tree, of depth two. -/
theorem drawWidgets_draws_once_witness :
    isTree sampleGLV.views 0 sampleKids = true ∧ sampleKids.height < 16 ∧
    isChain sampleGLV.parentOf (some 3) [3, 1, 0] = true ∧
    isChain sampleGLV.parentOf (some 5) [5, 4, 0] = true ∧
    ∃ n, ∀ fuel, n ≤ fuel → ∃ s, sampleGLV.drawWidgets 0 640 480 fuel = some s ∧
      (∀ a ∈ s.accesses, a.inBounds 16 = true) ∧
      (s.drawn.map DrawRecord.view).Nodup ∧
      (∀ v ∈ s.drawn.map DrawRecord.view, v ∈ sampleKids.ids ∧ v ≠ 0) ∧
      ∀ v ∈ sampleKids.ids, ∃ c, isChain sampleGLV.parentOf (some v) c = true ∧
        (s.drawn.map DrawRecord.view).count v
          = if c.all (fun u => (sampleGLV.views u).visible) then 1 else 0 :=
  ⟨by decide, by decide, by decide, by decide,
    drawWidgets_draws_once sampleGLV 0 sampleKids 640 480 (by decide) (by decide)⟩

/-- Every record of `drawWidgets` on a well-formed tree has the view, position and level of
the expected record of its view along the parent chain of that view. -/
theorem tree_record_chain (g : GLV) (root : ViewId) (kids : Forest) (w h : Nat)
    (ht : isTree g.views root kids = true) :
    ∀ d ∈ ((if (g.views root).visible then
          kids.draw g.views (([root] : List ViewId).length : Int) (offsetX g.views [root])
            (offsetY g.views [root]) (drawStart root w h)
        else drawStart root w h).moveTo root 0 0 0).drawn,
      ∃ mid, isChain g.parentOf (some d.view) (d.view :: (mid ++ [root])) = true ∧
        d.place = (recordOf g.views (Rect.ofSize w h) d.view (mid ++ [root])).place := by
  intro d hd
  have hroot := root_chain g.views root kids ht
  rw [isTree_iff] at ht
  obtain ⟨-, -, -, hconf, -⟩ := ht
  have hplace : d.place ∈ (if (g.views root).visible then
      kids.records g.views (Rect.ofSize w h) [root] else []).map DrawRecord.place := by
    rw [← tree_drawn_places]
    exact List.mem_map_of_mem _ hd
  by_cases hv : (g.views root).visible = true
  · simp only [hv, if_true] at hplace
    obtain ⟨e, he, hpe⟩ := List.mem_map.mp hplace
    obtain ⟨mid, hchain, hrec⟩ := records_chain g.views (Rect.ofSize w h) kids root [root]
      hconf hroot e he
    have hview : e.view = d.view := by
      have := congrArg (fun p : ViewId × space_t × space_t × Int => p.1) hpe
      simpa [DrawRecord.place] using this
    rw [hview] at hchain hrec
    exact ⟨mid, hchain, by rw [← hpe, hrec]⟩
  · simp [hv] at hplace

/-- The positions on trees that fit the clip stack, with whole-number offsets: on every
finite well-formed view tree whose depth is below 16, `drawWidgets` terminates, every clip
stack access it makes is within the sixteen entries, and at the moment it draws a view `v`
the absolute position `(cx, cy)` it maintains is the sum of the relative offsets `(l, t)` of
`v` and of all proper ancestors of `v` other than the root, whatever child descents, sibling
moves and retraces led there. -/
theorem drawWidgets_positions (g : GLV) (root : ViewId) (kids : Forest) (w h : Nat)
    (ht : isTree g.views root kids = true) (hdepth : kids.height < 16) :
    ∃ n, ∀ fuel, n ≤ fuel → ∃ s, g.drawWidgets root w h fuel = some s ∧
      (∀ a ∈ s.accesses, a.inBounds 16 = true) ∧
      ∀ d ∈ s.drawn, ∃ c, isChain g.parentOf (some d.view) c = true ∧
        d.cx = offsetX g.views c ∧ d.cy = offsetY g.views c := by
  obtain ⟨n, hn⟩ := drawWidgets_tree g root kids w h ht
  obtain ⟨-, -, -, hacc⟩ := tree_drawn_exact g root kids w h hdepth
  refine ⟨n, fun fuel hf => ⟨_, hn fuel hf, fun a ha => (hacc a ha).1, ?_⟩⟩
  intro d hd
  obtain ⟨mid, hchain, hplace⟩ := tree_record_chain g root kids w h ht d hd
  refine ⟨_, hchain, ?_, ?_⟩
  · have := congrArg (fun p : ViewId × space_t × space_t × Int => p.2.1) hplace
    simpa [DrawRecord.place, recordOf] using this
  · have := congrArg (fun p : ViewId × space_t × space_t × Int => p.2.2.1) hplace
    simpa [DrawRecord.place, recordOf] using this

/-- The positions on the sample tree, of depth two: the view 3 is drawn at (10 + 30, 1 + 3),
the sum of its offset and that of its parent 1. -/
theorem drawWidgets_positions_witness :
    isTree sampleGLV.views 0 sampleKids = true ∧ sampleKids.height < 16 ∧
    (sampleGLV.drawWidgets 0 640 480 20).map
        (fun s => s.drawn.map (fun d => (d.view, d.cx, d.cy)))
      = some [(1, 10, 1), (2, 30, 3), (3, 40, 4)] ∧
    offsetX sampleGLV.views [3, 1, 0] = 40 ∧ offsetY sampleGLV.views [3, 1, 0] = 4 ∧
    ∃ n, ∀ fuel, n ≤ fuel → ∃ s, sampleGLV.drawWidgets 0 640 480 fuel = some s ∧
      (∀ a ∈ s.accesses, a.inBounds 16 = true) ∧
      ∀ d ∈ s.drawn, ∃ c, isChain sampleGLV.parentOf (some d.view) c = true ∧
        d.cx = offsetX sampleGLV.views c ∧ d.cy = offsetY sampleGLV.views c :=
  ⟨by decide, by decide, by rfl, by decide, by decide,
    drawWidgets_positions sampleGLV 0 sampleKids 640 480 (by decide) (by decide)⟩

/-- C19: on every finite well-formed view tree whose root has no sibling and whose depth is
below 16, `drawWidgets` terminates with the level back at zero; every clip stack access is
within the sixteen entries; every write, and so every `computeCrop` call, is at a level of at
least one, so entry zero is never written and is still the surface rectangle at the end; and
every view is drawn at the level that is its depth below the root, which is at least one,
with `cropRects[lvl-1]` the entry computed for its parent. -/
theorem drawWidgets_levels (g : GLV) (root : ViewId) (kids : Forest) (w h : Nat)
    (ht : isTree g.views root kids = true) (hdepth : kids.height < 16) :
    ∃ n, ∀ fuel, n ≤ fuel → ∃ s, g.drawWidgets root w h fuel = some s ∧
      s.cv = root ∧ s.lvl = 0 ∧
      (∀ a ∈ s.accesses, a.inBounds 16 = true ∧ (a.isWrite = true → 1 ≤ a.index)) ∧
      s.cropRects.length = 16 ∧ readRect s.cropRects 0 = Rect.ofSize w h ∧
      ∀ d ∈ s.drawn, ∃ c, isChain g.parentOf (some d.view) c = true ∧
        d.lvl = (c.length : Int) - 1 ∧ 1 ≤ d.lvl ∧
        d.parentClip = chainCrop g.views (Rect.ofSize w h) c.tail := by
  obtain ⟨n, hn⟩ := drawWidgets_tree g root kids w h ht
  obtain ⟨hdrawn, hlen, hzero, hacc⟩ := tree_drawn_exact g root kids w h hdepth
  have hroot := root_chain g.views root kids ht
  rw [isTree_iff] at ht
  obtain ⟨-, -, -, hconf, -⟩ := ht
  refine ⟨n, fun fuel hf => ⟨_, hn fuel hf, rfl, rfl, hacc, hlen, hzero, ?_⟩⟩
  intro d hd
  rw [hdrawn] at hd
  by_cases hv : (g.views root).visible = true
  · simp only [hv, if_true] at hd
    obtain ⟨mid, hchain, hrec⟩ := records_chain g.views (Rect.ofSize w h) kids root [root]
      hconf hroot d hd
    refine ⟨_, hchain, ?_, ?_, ?_⟩
    · rw [hrec]; simp [recordOf]
    · rw [hrec]; simp only [recordOf, List.length_append, List.length_singleton]
      push_cast
      omega
    · rw [hrec]; simp [recordOf]
  · simp [hv] at hd

/-- Witness of C19 on the sample tree, which has two levels below the root. -/
theorem drawWidgets_levels_witness :
    isTree sampleGLV.views 0 sampleKids = true ∧ sampleKids.height < 16 ∧
    (sampleGLV.drawWidgets 0 640 480 20).map
        (fun s => s.drawn.map (fun d => (d.view, d.lvl, d.parentClip)))
      = some [(1, 1, { l := 0, t := 0, w := 640, h := 480 }),
          (2, 2, { l := 10, t := 1, w := 100, h := 50 }),
          (3, 2, { l := 10, t := 1, w := 100, h := 50 })] ∧
    ∃ n, ∀ fuel, n ≤ fuel → ∃ s, sampleGLV.drawWidgets 0 640 480 fuel = some s ∧
      s.cv = 0 ∧ s.lvl = 0 ∧
      (∀ a ∈ s.accesses, a.inBounds 16 = true ∧ (a.isWrite = true → 1 ≤ a.index)) ∧
      s.cropRects.length = 16 ∧ readRect s.cropRects 0 = Rect.ofSize (640 : Nat) (480 : Nat) ∧
      ∀ d ∈ s.drawn, ∃ c, isChain sampleGLV.parentOf (some d.view) c = true ∧
        d.lvl = (c.length : Int) - 1 ∧ 1 ≤ d.lvl ∧
        d.parentClip
          = chainCrop sampleGLV.views (Rect.ofSize (640 : Nat) (480 : Nat)) c.tail :=
  ⟨by decide, by decide, by rfl,
    drawWidgets_levels sampleGLV 0 sampleKids 640 480 (by decide) (by decide)⟩

/-- C12, the failing input: on the chain of seventeen nested visible views, a well-formed tree
with a view at level 16, `drawWidgets` writes `cropRects[16]` in `computeCrop` although the
vector has sixteen entries. -/
theorem drawWidgets_overflows_clip_stack :
    isTree deepGLV.views 0 (nestedKids 16 1) = true ∧
    (deepGLV.drawWidgets 0 640 480 40).map
        (fun s => (s.cropRects.length, s.accesses.filter (fun a => !a.inBounds 16)))
      = some (16, [Access.write 16]) := by
  constructor
  · decide
  · rfl

/-- C17, the failing input: the chain of seventeen nested visible views is a well-formed tree
whose root has no sibling, and the listing the claim asks for is 1, 2, ..., 16. The walk
reaches the draw of the view 16 only after `computeCrop` has written `cropRects[16]`, outside
the sixteen entries of the vector: its last three accesses are the read of entry 15 and the
write of entry 16 in `computeCrop` at level 16, then the read of entry 15 for the draw of the
view 16, and the 46 accesses before that write are all within bounds. From that write on the
behaviour of the source is undefined, so neither its termination nor the draw of the view 16
is guaranteed; the run here, which drops the write and goes on, draws 1 to 16. -/
theorem drawWidgets_deep_chain_order :
    isTree deepGLV.views 0 (nestedKids 16 1) = true ∧
    (deepGLV.views 0).sibling = none ∧
    specDrawOrder deepGLV.views 0 (nestedKids 16 1)
      = [1, 2, 3, 4, 5, 6, 7, 8, 9, 10, 11, 12, 13, 14, 15, 16] ∧
    (deepGLV.drawWidgets 0 640 480 40).map (fun s => s.accesses.drop 45)
      = some [Access.read 15, Access.write 16, Access.read 15] ∧
    (deepGLV.drawWidgets 0 640 480 40).map
        (fun s => (s.accesses.take 46).all (Access.inBounds 16))
      = some true ∧
    (Access.write 16).inBounds 16 = false ∧
    (deepGLV.drawWidgets 0 640 480 40).map (fun s => s.drawn.map DrawRecord.view)
      = some [1, 2, 3, 4, 5, 6, 7, 8, 9, 10, 11, 12, 13, 14, 15, 16] := by
  refine ⟨by decide, rfl, by decide, ?_, ?_, by decide, ?_⟩ <;> rfl

/-- C18, the failing input: in the chain of seventeen nested visible views, each at the
relative offset (1, 1), the view 16 has the proper ancestors 15, ..., 1 besides the root, so
the position the claim asks for at its draw is (16, 16). The view is drawn at level 16, and
the `computeCrop` call made on the descent to that level, before the draw, reads entry 15 and
writes `cropRects[16]`, outside the sixteen entries of the vector. From that write on the
behaviour of the source is undefined, so the position it holds when it draws the view 16 is
not determined. The views 1 to 15 are drawn before, at (1, 1), ..., (15, 15). -/
theorem drawWidgets_deep_chain_position :
    isTree deepGLV.views 0 (nestedKids 16 1) = true ∧
    isChain deepGLV.parentOf (some 16)
      [16, 15, 14, 13, 12, 11, 10, 9, 8, 7, 6, 5, 4, 3, 2, 1, 0] = true ∧
    offsetX deepGLV.views [16, 15, 14, 13, 12, 11, 10, 9, 8, 7, 6, 5, 4, 3, 2, 1, 0] = 16 ∧
    offsetY deepGLV.views [16, 15, 14, 13, 12, 11, 10, 9, 8, 7, 6, 5, 4, 3, 2, 1, 0] = 16 ∧
    (deepGLV.drawWidgets 0 640 480 40).map
        (fun s => (s.drawn.take 15).map (fun d => (d.view, d.cx, d.cy)))
      = some [(1, 1, 1), (2, 2, 2), (3, 3, 3), (4, 4, 4), (5, 5, 5), (6, 6, 6), (7, 7, 7),
          (8, 8, 8), (9, 9, 9), (10, 10, 10), (11, 11, 11), (12, 12, 12), (13, 13, 13),
          (14, 14, 14), (15, 15, 15)] ∧
    (deepGLV.drawWidgets 0 640 480 40).map
        (fun s => (s.drawn.drop 15).map (fun d => (d.view, d.lvl)))
      = some [(16, 16)] ∧
    (computeCrop (List.replicate 16 (Rect.ofSize 640 480)) 16 16 16 (deepGLV.views 16)).2
      = [Access.read 15, Access.write 16] ∧
    (deepGLV.drawWidgets 0 640 480 40).map
        (fun s => s.accesses.all (Access.inBounds 16))
      = some false := by
  refine ⟨by decide, by decide, by decide, by decide, ?_, ?_, ?_, ?_⟩ <;> rfl

/-- Counterexample to C14: in the tree root, M, L of three levels, all visible and all
cropping their children, with the surface the size of the root, the scissor rectangle of the
leaf L is the rectangle of M, (10, 10, 50, 50), and not the intersection
(15, 15, 45, 45) of the absolute rectangles of the root, M and L. -/
theorem drawWidgets_scissor_of_leaf_not_triple :
    isTree threeLevelGLV.views 0 (nestedKids 2 1) = true ∧
    (∀ v ∈ [0, 1, 2], (threeLevelGLV.views v).visible = true ∧
      (threeLevelGLV.views v).enabled Property.CropChildren = true) ∧
    (threeLevelGLV.drawWidgets 0 100 100 40).map
        (fun s => s.drawn.map (fun d => (d.view, d.cx, d.cy, d.clip)))
      = some [(1, 10, 10, { l := 0, t := 0, w := 100, h := 100 }),
          (2, 15, 15, { l := 10, t := 10, w := 50, h := 50 })] ∧
    ((threeLevelGLV.views 0).rectAt 0 0).intersection
        (((threeLevelGLV.views 1).rectAt 10 10).intersection
          ((threeLevelGLV.views 2).rectAt 15 15))
      = { l := 15, t := 15, w := 45, h := 45 } := by
  refine ⟨by decide, by decide, by rfl, by decide⟩

/-- C14 (amended): for every tree of three levels root, M, L in which the root, M and L are
visible and M enables `CropChildren`, `drawWidgets` draws M and then L, and the rectangle
read for L from the clip stack is the absolute rectangle of M intersected with the surface
rectangle `(0, 0, w, h)`; the rectangle the scissor call for L is computed from is that
rectangle, intersected with the absolute rectangle of L only when L enables `CropSelf`. -/
theorem drawWidgets_leaf_clip (g : GLV) (root M L : ViewId) (w h : Nat)
    (ht : isTree g.views root (Forest.node M (Forest.node L Forest.nil Forest.nil) Forest.nil)
      = true)
    (hroot : (g.views root).visible = true) (hM : (g.views M).visible = true)
    (hL : (g.views L).visible = true)
    (hcrop : (g.views M).enabled Property.CropChildren = true) :
    ∃ n, ∀ fuel, n ≤ fuel → ∃ s dM dL, g.drawWidgets root w h fuel = some s ∧
      s.drawn = [dM, dL] ∧ dM.view = M ∧ dL.view = L ∧
      dL.parentClip
        = ((g.views M).rectAt (g.views M).l (g.views M).t).intersection (Rect.ofSize w h) ∧
      dL.clip
        = if (g.views L).enabled Property.CropSelf then
            dL.parentClip.intersection
              ((g.views L).rectAt ((g.views M).l + (g.views L).l)
                ((g.views M).t + (g.views L).t))
          else dL.parentClip := by
  obtain ⟨n, hn⟩ := drawWidgets_tree g root _ w h ht
  obtain ⟨hdrawn, -, -, -⟩ := tree_drawn_exact g root
    (Forest.node M (Forest.node L Forest.nil Forest.nil) Forest.nil) w h
    (by simp [Forest.height])
  refine ⟨n, fun fuel hf => ⟨_, recordOf g.views (Rect.ofSize w h) M [root],
    recordOf g.views (Rect.ofSize w h) L [M, root], hn fuel hf, ?_, rfl, rfl, ?_, ?_⟩⟩
  · rw [hdrawn]
    simp [Forest.records, hroot, hM, hL]
  · simp [recordOf, chainCrop, offsetX, offsetY, hcrop]
  · simp [recordOf, chainCrop, offsetX, offsetY, hcrop]

/-- Witness of the amended C14 on the tree of three levels. -/
theorem drawWidgets_leaf_clip_witness :
    ∃ n, ∀ fuel, n ≤ fuel → ∃ s dM dL, threeLevelGLV.drawWidgets 0 100 100 fuel = some s ∧
      s.drawn = [dM, dL] ∧ dM.view = 1 ∧ dL.view = 2 ∧
      dL.parentClip
        = ((threeLevelGLV.views 1).rectAt (threeLevelGLV.views 1).l
            (threeLevelGLV.views 1).t).intersection (Rect.ofSize (100 : Nat) (100 : Nat)) ∧
      dL.clip
        = if (threeLevelGLV.views 2).enabled Property.CropSelf then
            dL.parentClip.intersection
              ((threeLevelGLV.views 2).rectAt
                ((threeLevelGLV.views 1).l + (threeLevelGLV.views 2).l)
                ((threeLevelGLV.views 1).t + (threeLevelGLV.views 2).t))
          else dL.parentClip :=
  drawWidgets_leaf_clip threeLevelGLV 0 1 2 100 100 (by decide) (by decide) (by decide)
    (by decide) (by decide)

/-- C11: for every clip stack `cr`, level `lvl` of at least one and within the stack,
position `(ax, ay)` and view `v`, after `computeCrop(cr, lvl, ax, ay, v)` the entry `cr[lvl]`
is the rectangle `(ax, ay, v.w, v.h)` intersected with `cr[lvl-1]` when `v` enables
`CropChildren` and is `cr[lvl-1]` otherwise; every other entry is as before, and so is the
number of entries. -/
theorem computeCrop_entry (cr : List Rect) (lvl : Int) (ax ay : space_t) (v : View)
    (h1 : 1 ≤ lvl) (h2 : lvl < cr.length) :
    readRect (computeCrop cr lvl ax ay v).1 lvl
        = (if v.enabled Property.CropChildren then
            (v.rectAt ax ay).intersection (readRect cr (lvl - 1))
          else readRect cr (lvl - 1)) ∧
      (∀ j : Int, j ≠ lvl → readRect (computeCrop cr lvl ax ay v).1 j = readRect cr j) ∧
      (computeCrop cr lvl ax ay v).1.length = cr.length := by
  obtain ⟨n, rfl⟩ := Int.eq_ofNat_of_zero_le (by omega : 0 ≤ lvl)
  obtain ⟨m, rfl⟩ : ∃ m, n = m + 1 := ⟨n - 1, by omega⟩
  have hm : m + 1 < cr.length := by exact_mod_cast h2
  have hsub : ((m + 1 : Nat) : Int) - 1 = (m : Int) := by push_cast; ring
  rw [computeCrop_eq cr m ax ay v hm, hsub]
  refine ⟨readRect_writeRect_same cr (m + 1) _ hm, ?_, length_writeRect _ _ _⟩
  intro j hj
  cases j with
  | ofNat k =>
    exact readRect_writeRect_ne cr (m + 1) k _ (fun e => hj (by rw [e]; rfl))
  | negSucc k => rfl

/-- Witness of C11: at level 2 of a stack of three entries a cropping view of size 100 by 50
placed at (30, 3) leaves in entry 2 its rectangle cut down to entry 1. -/
theorem computeCrop_entry_witness :
    readRect (computeCrop [Rect.ofSize 640 480, { l := 10, t := 1, w := 100, h := 50 },
        Rect.ofSize 640 480] 2 30 3 (sampleViews 2)).1 2
      = { l := 30, t := 3, w := 80, h := 48 } ∧
    (readRect (computeCrop [Rect.ofSize 640 480, { l := 10, t := 1, w := 100, h := 50 },
          Rect.ofSize 640 480] 2 30 3 (sampleViews 2)).1 2
        = (if (sampleViews 2).enabled Property.CropChildren then
            ((sampleViews 2).rectAt 30 3).intersection
              (readRect [Rect.ofSize 640 480, { l := 10, t := 1, w := 100, h := 50 },
                Rect.ofSize 640 480] (2 - 1))
          else readRect [Rect.ofSize 640 480, { l := 10, t := 1, w := 100, h := 50 },
            Rect.ofSize 640 480] (2 - 1)) ∧
      (∀ j : Int, j ≠ 2 →
        readRect (computeCrop [Rect.ofSize 640 480, { l := 10, t := 1, w := 100, h := 50 },
          Rect.ofSize 640 480] 2 30 3 (sampleViews 2)).1 j
          = readRect [Rect.ofSize 640 480, { l := 10, t := 1, w := 100, h := 50 },
            Rect.ofSize 640 480] j) ∧
      (computeCrop [Rect.ofSize 640 480, { l := 10, t := 1, w := 100, h := 50 },
          Rect.ofSize 640 480] 2 30 3 (sampleViews 2)).1.length
        = [Rect.ofSize 640 480, { l := 10, t := 1, w := 100, h := 50 },
            Rect.ofSize 640 480].length) :=
  ⟨by decide, computeCrop_entry _ 2 30 3 (sampleViews 2) (by decide) (by decide)⟩

/-! ## Handlers that keep the tree -/

theorem SameLinks.refl (a : ViewId → View) : SameLinks a a := fun _ => ⟨rfl, rfl, rfl⟩

theorem SameLinks.trans {a b c : ViewId → View} (h1 : SameLinks a b) (h2 : SameLinks b c) :
    SameLinks a c := fun u =>
  ⟨(h1 u).1.trans (h2 u).1, (h1 u).2.1.trans (h2 u).2.1, (h1 u).2.2.trans (h2 u).2.2⟩

theorem conforms_sameLinks (a b : ViewId → View) (h : SameLinks a b) (F : Forest) :
    ∀ p, F.conforms a p = F.conforms b p := by
  induction F with
  | nil => intro p; rfl
  | node v c s ihc ihs =>
    intro p
    simp only [Forest.conforms, (h v).1, (h v).2.1, (h v).2.2, ihc v, ihs p]

theorem runCallbacks_keepsTree (v : ViewId) (e : Event) (l : List (Option eventCallback))
    (hl : ∀ cb, some cb ∈ l → Handler.KeepsTree (cb v)) :
    ∀ (i : Nat) (g : GLV), SameLinks (runCallbacks v e l i g).2.1.views g.views := by
  induction l with
  | nil => intro i g; exact SameLinks.refl _
  | cons a rest ih =>
    have hrest : ∀ cb, some cb ∈ rest → Handler.KeepsTree (cb v) :=
      fun cb hcb => hl cb (List.mem_cons_of_mem _ hcb)
    intro i g
    cases a with
    | none => simpa [runCallbacks] using ih hrest (i + 1) g
    | some cb =>
      have hcb : Handler.KeepsTree (cb v) := hl cb (List.mem_cons_self _ _)
      by_cases h : (cb v g).1 = true
      · simp only [runCallbacks, h, if_true]
        exact (ih hrest (i + 1) (cb v g).2).trans (hcb g)
      · simp only [runCallbacks, h]
        exact hcb g

theorem doEventCallbacks_keepsTree (W : Widgets) (hW : W.KeepsTree) (v : ViewId) (e : Event)
    (g : GLV) : SameLinks (g.doEventCallbacks W v e).2.1.views g.views := by
  cases hc : (g.views v).enabled Property.Controllable with
  | false =>
    have : g.doEventCallbacks W v e = (false, g, []) := by simp [GLV.doEventCallbacks, hc]
    rw [this]; exact SameLinks.refl _
  | true =>
    have hhook := hW.1 v e g
    cases hh : (W.onEvent v e g).1 with
    | false => rw [doEventCallbacks_hook_false W v e g hc hh]; exact hhook
    | true =>
      cases hl : W.callbackLists v e with
      | none => rw [doEventCallbacks_no_list W v e g hc hh hl]; exact hhook
      | some cbl =>
        rw [doEventCallbacks_list W v e g cbl hc hh hl]
        exact (runCallbacks_keepsTree v e cbl (fun cb hcb => hW.2 v e cbl cb hl hcb) 0 _).trans
          hhook

theorem dispatch_keepsTree (W : Widgets) (hW : W.KeepsTree) (v : ViewId) (e : Event)
    (g : GLV) : SameLinks (g.dispatch W v e).2.1.views g.views :=
  doEventCallbacks_keepsTree W hW v e g

theorem broadcast_keepsTree (W : Widgets) (hW : W.KeepsTree) (e : Event) (F : Forest) :
    ∀ (g : GLV) (log : List Dispatch), SameLinks (F.broadcast W e g log).1.views g.views := by
  induction F with
  | nil => intro g log; exact SameLinks.refl _
  | node v c s ihc ihs =>
    intro g log
    simp only [Forest.broadcast]
    exact ((ihs _ _).trans (ihc _ _)).trans (dispatch_keepsTree W hW v e g)

theorem broadcast_views (W : Widgets) (e : Event) (F : Forest) :
    ∀ (g : GLV) (log : List Dispatch),
      (F.broadcast W e g log).2.map Dispatch.view = log.map Dispatch.view ++ F.ids := by
  induction F with
  | nil => intro g log; simp [Forest.broadcast, Forest.ids]
  | node v c s ihc ihs =>
    intro g log
    simp only [Forest.broadcast, Forest.ids]
    rw [ihs, ihc]
    simp [dispatch_record]

theorem broadcast_events (W : Widgets) (e : Event) (F : Forest) :
    ∀ (g : GLV) (log : List Dispatch), (∀ d ∈ log, d.event = e) →
      ∀ d ∈ (F.broadcast W e g log).2, d.event = e := by
  induction F with
  | nil => intro g log h; simpa [Forest.broadcast] using h
  | node v c s ihc ihs =>
    intro g log h
    simp only [Forest.broadcast]
    apply ihs
    apply ihc
    intro d hd
    rcases List.mem_append.mp hd with hd | hd
    · exact h d hd
    · rw [List.mem_singleton.mp hd]; rfl

/-! ## The broadcast loop, step by step -/

theorem broadcastLoop_descend (W : Widgets) (root : ViewId) (e : Event) (fuel : Nat)
    (cv : ViewId) (g : GLV) (log : List Dispatch) (c : ViewId)
    (hc : (g.views cv).child = some c) :
    broadcastLoop W root e (fuel + 1) false cv g log
      = broadcastLoop W root e fuel false c (g.dispatch W c e).2.1
          (log ++ [(g.dispatch W c e).2.2]) := by
  simp only [broadcastLoop, hc]

theorem broadcastLoop_sibling (W : Widgets) (root : ViewId) (e : Event) (fuel : Nat)
    (cv : ViewId) (g : GLV) (log : List Dispatch) (sb : ViewId)
    (hc : (g.views cv).child = none) (hs : (g.views cv).sibling = some sb) :
    broadcastLoop W root e (fuel + 1) false cv g log
      = broadcastLoop W root e fuel false sb (g.dispatch W sb e).2.1
          (log ++ [(g.dispatch W sb e).2.2]) := by
  simp only [broadcastLoop, hc, hs]

theorem broadcastLoop_retrace (W : Widgets) (root : ViewId) (e : Event) (fuel : Nat)
    (cv : ViewId) (g : GLV) (log : List Dispatch)
    (hc : (g.views cv).child = none) (hs : (g.views cv).sibling = none) :
    broadcastLoop W root e (fuel + 1) false cv g log
      = broadcastLoop W root e fuel true cv g log := by
  simp only [broadcastLoop, hc, hs]

theorem broadcastLoop_up (W : Widgets) (root : ViewId) (e : Event) (fuel : Nat)
    (cv : ViewId) (g : GLV) (log : List Dispatch) (p : ViewId)
    (hr : cv ≠ root) (hs : (g.views cv).sibling = none) (hp : (g.views cv).parent = some p) :
    broadcastLoop W root e (fuel + 1) true cv g log
      = broadcastLoop W root e fuel true p g log := by
  have hcond : cv ≠ root ∧ (g.views cv).sibling = none := ⟨hr, hs⟩
  rw [broadcastLoop, if_pos hcond]
  simp only [hp]

theorem broadcastLoop_across (W : Widgets) (root : ViewId) (e : Event) (fuel : Nat)
    (cv : ViewId) (g : GLV) (log : List Dispatch) (sb : ViewId)
    (hs : (g.views cv).sibling = some sb) :
    broadcastLoop W root e (fuel + 1) true cv g log
      = broadcastLoop W root e fuel false sb (g.dispatch W sb e).2.1
          (log ++ [(g.dispatch W sb e).2.2]) := by
  have hcond : ¬ (cv ≠ root ∧ (g.views cv).sibling = none) := by
    rw [hs]; simp
  rw [broadcastLoop, if_neg hcond]
  simp only [hs]

theorem broadcastLoop_break (W : Widgets) (root : ViewId) (e : Event) (fuel : Nat)
    (g : GLV) (log : List Dispatch) (hs : (g.views root).sibling = none) :
    broadcastLoop W root e (fuel + 1) true root g log = some (g, log) := by
  have hcond : ¬ (root ≠ root ∧ (g.views root).sibling = none) := by simp
  rw [broadcastLoop, if_neg hcond]
  simp only [hs]

/-! ## The broadcast loop follows the tree -/

theorem broadcastLoop_forest (W : Widgets) (hW : W.KeepsTree) (root : ViewId) (e : Event)
    (F : Forest) :
    ∀ (p : ViewId) (g : GLV) (log : List Dispatch),
      F.conforms g.views p = true → root ∉ F.ids →
      ∀ x C S, F = Forest.node x C S →
      ∃ n, ∀ fuel,
        broadcastLoop W root e (fuel + n) false x (g.dispatch W x e).2.1
            (log ++ [(g.dispatch W x e).2.2])
          = broadcastLoop W root e fuel true p (F.broadcast W e g log).1
              (F.broadcast W e g log).2 := by
  induction F with
  | nil => intro p g log _ _ x C S h; cases h
  | node v c sibs ihc ihs =>
    intro p g log hconf hroot x C S hF
    injection hF with h1 h2 h3
    subst h1 h2 h3
    rw [conforms_node] at hconf
    obtain ⟨hp, hch, hsib, hcc, hcs⟩ := hconf
    simp only [Forest.ids, List.mem_cons, List.mem_append, not_or] at hroot
    obtain ⟨hx, hrc, hrs⟩ := hroot
    have hx2 : v ≠ root := fun h => hx h.symm
    have hg1 : SameLinks (g.dispatch W v e).2.1.views g.views := dispatch_keepsTree W hW v e g
    -- from `v`, retracing, through the siblings of `v` up to the parent
    have hsibs : ∀ (g2 : GLV) (log2 : List Dispatch), SameLinks g2.views g.views →
        ∃ n, ∀ fuel,
          broadcastLoop W root e (fuel + n) true v g2 log2
            = broadcastLoop W root e fuel true p (sibs.broadcast W e g2 log2).1
                (sibs.broadcast W e g2 log2).2 := by
      intro g2 log2 h2
      have hp2 : (g2.views v).parent = some p := by rw [(h2 v).1]; exact hp
      have hs2 : (g2.views v).sibling = sibs.first := by rw [(h2 v).2.2]; exact hsib
      have hcs2 : sibs.conforms g2.views p = true := by
        rw [conforms_sameLinks _ _ h2]; exact hcs
      cases sibs with
      | nil =>
        exact ⟨1, fun fuel => by
          rw [broadcastLoop_up W root e fuel v g2 log2 p hx2 hs2 hp2]
          rfl⟩
      | node sb c2 s2 =>
        obtain ⟨n, hn⟩ := ihs p g2 log2 hcs2 hrs sb c2 s2 rfl
        exact ⟨n + 1, fun fuel => by
          rw [← Nat.add_assoc, broadcastLoop_across W root e (fuel + n) v g2 log2 sb hs2,
            hn fuel]⟩
    have hch1 : ((g.dispatch W v e).2.1.views v).child = c.first := by
      rw [(hg1 v).2.1]; exact hch
    have hsib1 : ((g.dispatch W v e).2.1.views v).sibling = sibs.first := by
      rw [(hg1 v).2.2]; exact hsib
    cases c with
    | node cc c1 s1 =>
      have hcc1 : (Forest.node cc c1 s1).conforms (g.dispatch W v e).2.1.views v = true := by
        rw [conforms_sameLinks _ _ hg1]; exact hcc
      obtain ⟨nC, hC⟩ := ihc v (g.dispatch W v e).2.1 (log ++ [(g.dispatch W v e).2.2]) hcc1
        hrc cc c1 s1 rfl
      obtain ⟨nS, hS⟩ := hsibs
        ((Forest.node cc c1 s1).broadcast W e (g.dispatch W v e).2.1
          (log ++ [(g.dispatch W v e).2.2])).1
        ((Forest.node cc c1 s1).broadcast W e (g.dispatch W v e).2.1
          (log ++ [(g.dispatch W v e).2.2])).2
        ((broadcast_keepsTree W hW e _ _ _).trans hg1)
      refine ⟨nS + nC + 1, fun fuel => ?_⟩
      have hfuel : fuel + (nS + nC + 1) = (fuel + nS + nC) + 1 := by omega
      rw [hfuel, broadcastLoop_descend W root e (fuel + nS + nC) v _ _ cc hch1,
        hC (fuel + nS), hS fuel]
      rfl
    | nil =>
      cases sibs with
      | nil =>
        obtain ⟨nS, hS⟩ := hsibs (g.dispatch W v e).2.1 (log ++ [(g.dispatch W v e).2.2]) hg1
        refine ⟨nS + 1, fun fuel => ?_⟩
        rw [← Nat.add_assoc, broadcastLoop_retrace W root e (fuel + nS) v _ _ hch1 hsib1,
          hS fuel]
        rfl
      | node sb c2 s2 =>
        have hcs1 : (Forest.node sb c2 s2).conforms (g.dispatch W v e).2.1.views p = true := by
          rw [conforms_sameLinks _ _ hg1]; exact hcs
        obtain ⟨nS, hS⟩ := ihs p (g.dispatch W v e).2.1 (log ++ [(g.dispatch W v e).2.2])
          hcs1 hrs sb c2 s2 rfl
        refine ⟨nS + 1, fun fuel => ?_⟩
        rw [← Nat.add_assoc, broadcastLoop_sibling W root e (fuel + nS) v _ _ sb hch1 hsib1,
          hS fuel]
        rfl

/-- The whole broadcast: on a well-formed tree whose handlers keep the links, the loop ends
and has dispatched to the root and then as the recursion over the tree does. -/
theorem broadcastEvent_tree (W : Widgets) (hW : W.KeepsTree) (g : GLV) (root : ViewId)
    (kids : Forest) (e : Event) (ht : isTree g.views root kids = true) :
    ∃ n, ∀ fuel, n ≤ fuel →
      g.broadcastEvent W root e fuel
        = some (kids.broadcast W e (g.dispatch W root e).2.1 [(g.dispatch W root e).2.2]) := by
  rw [isTree_iff] at ht
  obtain ⟨-, hsib, hch, hconf, hnd⟩ := ht
  have hroot : root ∉ kids.ids := (List.nodup_cons.mp hnd).1
  have hg1 : SameLinks (g.dispatch W root e).2.1.views g.views :=
    dispatch_keepsTree W hW root e g
  have hch1 : ((g.dispatch W root e).2.1.views root).child = kids.first := by
    rw [(hg1 root).2.1]; exact hch
  have hsib1 : ((g.dispatch W root e).2.1.views root).sibling = none := by
    rw [(hg1 root).2.2]; exact hsib
  cases kids with
  | nil =>
    refine ⟨2, fun fuel hfuel => ?_⟩
    obtain ⟨f, rfl⟩ : ∃ f, fuel = (f + 1) + 1 := ⟨fuel - 2, by omega⟩
    unfold GLV.broadcastEvent
    rw [broadcastLoop_retrace W root e (f + 1) root _ _ hch1 hsib1,
      broadcastLoop_break W root e f _ _ hsib1]
    rfl
  | node c c1 s1 =>
    have hconf1 : (Forest.node c c1 s1).conforms (g.dispatch W root e).2.1.views root
        = true := by
      rw [conforms_sameLinks _ _ hg1]; exact hconf
    obtain ⟨n, hn⟩ := broadcastLoop_forest W hW root e (Forest.node c c1 s1) root
      (g.dispatch W root e).2.1 [(g.dispatch W root e).2.2] hconf1 hroot c c1 s1 rfl
    have hsib2 : (((Forest.node c c1 s1).broadcast W e (g.dispatch W root e).2.1
        [(g.dispatch W root e).2.2]).1.views root).sibling = none := by
      rw [(((broadcast_keepsTree W hW e _ _ _).trans hg1) root).2.2]; exact hsib
    refine ⟨1 + n + 1, fun fuel hfuel => ?_⟩
    obtain ⟨f, rfl⟩ : ∃ f, fuel = (f + 1 + n) + 1 := ⟨fuel - (1 + n + 1), by omega⟩
    unfold GLV.broadcastEvent
    rw [broadcastLoop_descend W root e (f + 1 + n) root _ _ c hch1]
    rw [hn (f + 1), broadcastLoop_break W root e f _ _ hsib2]

theorem refusingWidgets_keepsTree : refusingWidgets.KeepsTree :=
  ⟨fun _ _ g => SameLinks.refl g.views, fun v e cbl cb h _ => by simp [refusingWidgets] at h⟩

/-- C15: on every finite well-formed view tree whose root has no sibling, with handlers that
leave the links of the tree alone, `broadcastEvent(e)` terminates and calls
`doEventCallbacks(v, e)` for the views of the tree in depth-first pre-order, the root first and
siblings in link order; no address occurs twice in that listing, so every view of the tree is
dispatched to exactly once, whatever its flags and whatever the dispatches return. -/
theorem broadcastEvent_reaches_all (W : Widgets) (hW : W.KeepsTree) (g : GLV) (root : ViewId)
    (kids : Forest) (e : Event) (ht : isTree g.views root kids = true) :
    (root :: kids.ids).Nodup ∧
    ∃ n, ∀ fuel, n ≤ fuel → ∃ g2 log, g.broadcastEvent W root e fuel = some (g2, log) ∧
      log.map Dispatch.view = root :: kids.ids ∧ ∀ d ∈ log, d.event = e := by
  obtain ⟨n, hn⟩ := broadcastEvent_tree W hW g root kids e ht
  refine ⟨((isTree_iff _ _ _).mp ht).2.2.2.2, n, fun fuel hf => ⟨_, _, hn fuel hf, ?_, ?_⟩⟩
  · rw [broadcast_views]
    rfl
  · apply broadcast_events
    intro d hd
    rw [List.mem_singleton.mp hd]
    rfl

/-- Witness of C15 on the sample tree with hooks that all return false: the six views are
dispatched to in pre-order, the view 5 below the non-visible view 4 included. -/
theorem broadcastEvent_reaches_all_witness :
    isTree sampleGLV.views 0 sampleKids = true ∧
    (sampleGLV.broadcastEvent refusingWidgets 0 Event.KeyDown 12).map
        (fun r => r.2.map (fun d => (d.view, d.result)))
      = some [(0, false), (1, false), (2, false), (3, false), (4, false), (5, false)] ∧
    ((0 :: sampleKids.ids).Nodup ∧
    ∃ n, ∀ fuel, n ≤ fuel → ∃ g2 log,
      sampleGLV.broadcastEvent refusingWidgets 0 Event.KeyDown fuel = some (g2, log) ∧
      log.map Dispatch.view = 0 :: sampleKids.ids ∧ ∀ d ∈ log, d.event = Event.KeyDown) :=
  ⟨by decide, by rfl,
    broadcastEvent_reaches_all refusingWidgets refusingWidgets_keepsTree sampleGLV 0 sampleKids
      Event.KeyDown (by decide)⟩

/-- C16, the failing input: the focused view sits at the absolute offset (10, 20); for the
surface point (15, 25) `setMouseUp` leaves (15, 25) in its reference arguments, the point as
it came in, and not the point (5, 5) relative to the focused view; it records the event kind
MouseUp and keeps the focused view. The sibling `setMouseMotion` leaves (5, 5) for the same
point (with an `absToRel` that has nothing to subtract for the parent, the root). -/
theorem setMouseUp_keeps_point :
    offsetGLV.mFocusedView = some 1 ∧
    isChain offsetGLV.parentOf (some 1) [1, 0] = true ∧
    offsetX offsetGLV.views [1, 0] = 10 ∧ offsetY offsetGLV.views [1, 0] = 20 ∧
    (offsetGLV.setMouseUp 15 25 0 1).1 = 15 ∧ (offsetGLV.setMouseUp 15 25 0 1).2.1 = 25 ∧
    (offsetGLV.setMouseUp 15 25 0 1).2.2.mEventType = Event.MouseUp ∧
    (offsetGLV.setMouseUp 15 25 0 1).2.2.mFocusedView = some 1 ∧
    (offsetGLV.setMouseMotion (fun _ _ x y => some (x, y)) 15 25 Event.MouseMove).map
        (fun r => (r.1, r.2.1))
      = some (5, 5) := by
  refine ⟨rfl, by decide, by decide, by decide, rfl, rfl, rfl, rfl, by decide⟩

/-- C20: `doFocusCallback(get)` does nothing when there is no focused view. Otherwise it sets
the focused flag of the focused view to `get`; when that view has no callback registered for
the focus kind (FocusGained for `get`, FocusLost otherwise) this is all it does, the event
kind stays and nothing is dispatched; when it has one, the event kind is set to the focus kind
and `doEventCallbacks` is called once on that view, which invokes its `onEvent` hook if it is
controllable. Hence `setFocus` from a view without FocusLost callbacks to a view without
FocusGained callbacks makes no dispatch and invokes no hook. -/
theorem doFocusCallback_gate (W : Widgets) (get : Bool) (g : GLV) :
    (g.mFocusedView = none → g.doFocusCallback W get = (g, [])) ∧
    (∀ f, g.mFocusedView = some f →
      ((g.setView f ((g.views f).focused get)).views f).enabled Property.Focused = get ∧
      (W.numCallbacks f (if get then Event.FocusGained else Event.FocusLost) = 0 →
        g.doFocusCallback W get = (g.setView f ((g.views f).focused get), [])) ∧
      (W.numCallbacks f (if get then Event.FocusGained else Event.FocusLost) ≠ 0 →
        g.doFocusCallback W get
          = ((((g.setView f ((g.views f).focused get)).eventType
                (if get then Event.FocusGained else Event.FocusLost)).dispatch W f
                (if get then Event.FocusGained else Event.FocusLost)).2.1,
              [(((g.setView f ((g.views f).focused get)).eventType
                (if get then Event.FocusGained else Event.FocusLost)).dispatch W f
                (if get then Event.FocusGained else Event.FocusLost)).2.2]) ∧
        ((g.views f).enabled Property.Controllable = true →
          ∃ r cbs, (((g.setView f ((g.views f).focused get)).eventType
                (if get then Event.FocusGained else Event.FocusLost)).dispatch W f
                (if get then Event.FocusGained else Event.FocusLost)).2.2.calls
              = Call.onEvent f (if get then Event.FocusGained else Event.FocusLost) r :: cbs))) ∧
    (∀ f u, g.mFocusedView = some f → W.numCallbacks f Event.FocusLost = 0 →
      W.numCallbacks u Event.FocusGained = 0 → (g.setFocus W (some u)).2 = []) := by
  refine ⟨doFocusCallback_null W get g, ?_, ?_⟩
  · intro f hf
    refine ⟨by simp [GLV.setView, View.focused, View.enabled],
      doFocusCallback_silent W get g f hf, ?_⟩
    intro hn
    refine ⟨doFocusCallback_fires W get g f hf hn, ?_⟩
    intro hc
    have hc2 : ((((g.setView f ((g.views f).focused get)).eventType
        (if get then Event.FocusGained else Event.FocusLost)).views f).enabled
        Property.Controllable) = true := by
      simpa [GLV.setView, GLV.eventType, View.focused, View.enabled] using hc
    obtain ⟨cbs, hcbs⟩ := doEventCallbacks_head W f
      (if get then Event.FocusGained else Event.FocusLost) _ hc2
    exact ⟨_, cbs, by rw [dispatch_record]; exact hcbs⟩
  · intro f u hf h1 h2
    have hlog := setFocus_log W (some u) g
    rw [hf] at hlog
    have : focusNote W Event.FocusLost (some f) ++ focusNote W Event.FocusGained (some u)
        = [] := by
      simp [focusNote, h1, h2]
    rw [this] at hlog
    exact List.map_eq_nil_iff.mp hlog

/-- Witness of C20 on the chain example: without callbacks `setFocus` makes no dispatch and
only moves the focused flag; with a FocusLost callback on A the dispatch on A is made with the
event kind FocusLost. -/
theorem doFocusCallback_gate_witness :
    (chainGLV.setFocus quietWidgets (some 2)).2 = [] ∧
    ((chainGLV.setFocus quietWidgets (some 2)).1.views 3).enabled Property.Focused = false ∧
    ((chainGLV.setFocus quietWidgets (some 2)).1.views 2).enabled Property.Focused = true ∧
    (focusGLV.doFocusCallback focusWidgets false).2.map Dispatch.key
      = [(1, Event.FocusLost, some 1)] ∧
    (chainGLV.mFocusedView = none → chainGLV.doFocusCallback quietWidgets false
      = (chainGLV, [])) :=
  ⟨rfl, rfl, rfl, rfl, (doFocusCallback_gate quietWidgets false chainGLV).1⟩

end glv
